import Mathlib

/-!
# fullstack-go-api: the token codec and the identity store

A shallow embedding of `backend/internal/auth/jwt.go`,
`backend/internal/store/store.go` and the check of `WithAuth` in
`backend/internal/handlers/handlers.go`, with the parts of Go's standard library
they call (`unicode/utf8`, `strings`, `encoding/base64`, `encoding/hex`,
`crypto/sha256`, `crypto/hmac`, `strconv`, `encoding/json`), followed by the
theorems about them.

Conventions: a Go `string` is a list of bytes; a clock reading is an integer
number of nanoseconds since the Unix epoch and is passed in where the Go code
calls `time.Now()`; a method of the store takes the state and returns its Go
results together with the state after the call.
-/

set_option autoImplicit false

namespace FullstackGoApi

/-! # Go strings and the parts of the standard library the repository calls

A Go `string` is a finite sequence of bytes.  It is modelled as a list of
natural numbers; a well-formed string has every element below 256. -/

/-- A Go `string` (or `[]byte`): a finite sequence of bytes. -/
abbrev Bytes := List Nat

/-- Every element is a byte. -/
def WellFormed (s : Bytes) : Prop := ∀ b ∈ s, b < 256

/-- The bytes of an ASCII string literal. -/
def ascii (s : String) : Bytes := s.toList.map Char.toNat

/-! ## unicode/utf8 -/

/-- `utf8.RuneError`, U+FFFD. -/
def RuneError : Nat := 0xFFFD

/-- `utf8.DecodeRune`: the first rune of `s` and its width in bytes; an invalid
or truncated encoding gives `(RuneError, 1)`, the empty input `(RuneError, 0)`.
The masks `& 0x1F`, `& 0x0F`, `& 0x07`, `& 0x3F` are written `% 32`, `% 16`,
`% 8`, `% 64` and the shifts as multiplications. -/
def decodeRune : Bytes → Nat × Nat
  | [] => (RuneError, 0)
  | p0 :: t =>
    if p0 < 0x80 then (p0, 1)
    else if p0 < 0xC2 then (RuneError, 1)
    else if p0 < 0xE0 then
      match t with
      | b1 :: _ =>
        if 0x80 ≤ b1 ∧ b1 ≤ 0xBF then ((p0 % 32) * 64 + b1 % 64, 2) else (RuneError, 1)
      | [] => (RuneError, 1)
    else if p0 < 0xF0 then
      match t with
      | b1 :: b2 :: _ =>
        if (if p0 = 0xE0 then 0xA0 else 0x80) ≤ b1 ∧ b1 ≤ (if p0 = 0xED then 0x9F else 0xBF)
            ∧ 0x80 ≤ b2 ∧ b2 ≤ 0xBF then
          ((p0 % 16) * 4096 + (b1 % 64) * 64 + b2 % 64, 3)
        else (RuneError, 1)
      | _ => (RuneError, 1)
    else if p0 < 0xF5 then
      match t with
      | b1 :: b2 :: b3 :: _ =>
        if (if p0 = 0xF0 then 0x90 else 0x80) ≤ b1 ∧ b1 ≤ (if p0 = 0xF4 then 0x8F else 0xBF)
            ∧ 0x80 ≤ b2 ∧ b2 ≤ 0xBF ∧ 0x80 ≤ b3 ∧ b3 ≤ 0xBF then
          ((p0 % 8) * 262144 + (b1 % 64) * 4096 + (b2 % 64) * 64 + b3 % 64, 4)
        else (RuneError, 1)
      | _ => (RuneError, 1)
    else (RuneError, 1)

/-- `utf8.EncodeRune` (`utf8.AppendRune`): the UTF-8 encoding of a rune; surrogates
and values above U+10FFFF are encoded as U+FFFD. -/
def encodeRune (r : Nat) : Bytes :=
  if r ≤ 0x7F then [r]
  else if r ≤ 0x7FF then [0xC0 + r / 64, 0x80 + r % 64]
  else if 0x10FFFF < r ∨ (0xD800 ≤ r ∧ r ≤ 0xDFFF) then [0xEF, 0xBF, 0xBD]
  else if r ≤ 0xFFFF then [0xE0 + r / 4096, 0x80 + r / 64 % 64, 0x80 + r % 64]
  else [0xF0 + r / 262144, 0x80 + r / 4096 % 64, 0x80 + r / 64 % 64, 0x80 + r % 64]

/-- The head of `b :: t` is a valid multi-byte encoding: its rune, its bytes
after the first, and what follows. -/
structure RuneAt (b : Nat) (t : Bytes) (r : Nat) (tl rest : Bytes) : Prop where
  split : t = tl ++ rest
  len : 1 ≤ tl.length ∧ tl.length ≤ 3
  decode : ∀ Y, decodeRune (b :: (tl ++ Y)) = (r, tl.length + 1)
  encode : encodeRune r = b :: tl
  bytes : ∀ x ∈ b :: tl, 0x80 ≤ x ∧ x < 256
  rune : 0x80 ≤ r

/-- The loop of `utf8.ValidString`, with the input length as fuel. -/
def validStringAux : Nat → Bytes → Bool
  | 0, s => s.isEmpty
  | _ + 1, [] => true
  | fuel + 1, b :: t =>
    let d := decodeRune (b :: t)
    if d.1 = RuneError ∧ d.2 = 1 then false else validStringAux fuel (t.drop (d.2 - 1))

/-- `utf8.ValidString`: the bytes are a sequence of valid UTF-8 encodings. -/
def validString (s : Bytes) : Bool := validStringAux s.length s

/-- The runes a Go `for _, r := range s` loop yields (an invalid byte yields
`RuneError` and advances by one byte), with the input length as fuel. -/
def runesAux : Nat → Bytes → List Nat
  | 0, _ => []
  | _ + 1, [] => []
  | fuel + 1, b :: t =>
    let d := decodeRune (b :: t)
    d.1 :: runesAux fuel (t.drop (d.2 - 1))

/-- The runes of a string, as `range` yields them. -/
def runes (s : Bytes) : List Nat := runesAux s.length s

/-! ## unicode and strings: case mapping

`unicode.ToLower` and `unicode.SimpleFold` are table driven.  The tables are
modelled on ASCII and on the four non-ASCII runes that Go's tables map into
ASCII (U+0130, U+0131, U+017F, U+212A); every other rune is left unchanged.
The store below takes the two `strings` functions as a parameter, so its general
theorems hold for the complete tables as well; the table here only serves
evaluation on concrete inputs. -/

/-- `unicode.ToLower` on the modelled runes. -/
def unicodeToLower (r : Nat) : Nat :=
  if 0x41 ≤ r ∧ r ≤ 0x5A then r + 32
  else if r = 0x130 then 0x69
  else if r = 0x212A then 0x6B
  else r

/-- `unicode.SimpleFold` on the modelled runes: the next rune of the case orbit,
wrapping around (`K → k → U+212A → K`, `S → s → U+017F → S`). -/
def unicodeSimpleFold (r : Nat) : Nat :=
  if r = 0x4B then 0x6B
  else if r = 0x6B then 0x212A
  else if r = 0x212A then 0x4B
  else if r = 0x53 then 0x73
  else if r = 0x73 then 0x17F
  else if r = 0x17F then 0x53
  else if 0x41 ≤ r ∧ r ≤ 0x5A then r + 32
  else if 0x61 ≤ r ∧ r ≤ 0x7A then r - 32
  else if r = 0x130 then 0x69
  else if r = 0x131 then 0x49
  else r

/-- `strings.ToLower`: `strings.Map(unicode.ToLower, s)`; an invalid byte comes
out as the encoding of U+FFFD. -/
def ToLower (s : Bytes) : Bytes :=
  (runes s).flatMap fun r => encodeRune (unicodeToLower r)

/-- The loop `for r != sr && r < tr { r = unicode.SimpleFold(r) }` of
`strings.EqualFold`; orbits have at most four elements. -/
def foldLoop (sr tr : Nat) : Nat → Nat → Nat
  | 0, r => r
  | n + 1, r => if r ≠ sr ∧ r < tr then foldLoop sr tr n (unicodeSimpleFold r) else r

/-- One step of `strings.EqualFold`: whether two runes are equal under simple
case folding. -/
def runeEqualFold (a b : Nat) : Bool :=
  if a = b then true
  else
    let sr := min a b
    let tr := max a b
    if tr < 0x80 then decide (0x41 ≤ sr ∧ sr ≤ 0x5A ∧ tr = sr + 32)
    else decide (foldLoop sr tr 4 (unicodeSimpleFold sr) = tr)

/-- Pairwise comparison of two rune sequences of equal length. -/
def runesEqualFold : List Nat → List Nat → Bool
  | [], [] => true
  | a :: s, b :: t => runeEqualFold a b && runesEqualFold s t
  | _, _ => false

/-- `strings.EqualFold`: equality of the two strings' runes under simple case
folding. -/
def EqualFold (s t : Bytes) : Bool := runesEqualFold (runes s) (runes t)

/-- The two functions of Go's `strings` package that the store calls. -/
structure CaseFolding where
  /-- Models `strings.ToLower`. -/
  ToLower : Bytes → Bytes
  /-- Models `strings.EqualFold`. -/
  EqualFold : Bytes → Bytes → Bool

/-- The model of Go's `strings.ToLower` and `strings.EqualFold` given above. -/
def goStrings : CaseFolding := ⟨ToLower, EqualFold⟩

/-! ## encoding/base64: `RawURLEncoding` -/

/-- The URL-safe alphabet `A–Z a–z 0–9 - _`, indexed by a six-bit value. -/
def encodeURLChar (n : Nat) : Nat :=
  if n < 26 then 65 + n
  else if n < 52 then 97 + (n - 26)
  else if n < 62 then 48 + (n - 52)
  else if n = 62 then 45
  else 95

/-- The decode map of the URL-safe alphabet; `none` is the entry `0xFF`. -/
def decodeURLChar (c : Nat) : Option Nat :=
  if 65 ≤ c ∧ c ≤ 90 then some (c - 65)
  else if 97 ≤ c ∧ c ≤ 122 then some (c - 97 + 26)
  else if 48 ≤ c ∧ c ≤ 57 then some (c - 48 + 52)
  else if c = 45 then some 62
  else if c = 95 then some 63
  else none

/-- A character of the URL-safe alphabet. -/
def IsURLChar (c : Nat) : Prop :=
  (65 ≤ c ∧ c ≤ 90) ∨ (97 ≤ c ∧ c ≤ 122) ∨ (48 ≤ c ∧ c ≤ 57) ∨ c = 45 ∨ c = 95

/-- `base64.RawURLEncoding.EncodeToString`: three bytes give four characters,
a remainder of one or two bytes gives two or three, with no padding. -/
def base64Encode : Bytes → Bytes
  | a :: b :: c :: rest =>
    let v := a * 65536 + b * 256 + c
    encodeURLChar (v / 262144 % 64) :: encodeURLChar (v / 4096 % 64) ::
      encodeURLChar (v / 64 % 64) :: encodeURLChar (v % 64) :: base64Encode rest
  | [a, b] =>
    let v := a * 65536 + b * 256
    [encodeURLChar (v / 262144 % 64), encodeURLChar (v / 4096 % 64), encodeURLChar (v / 64 % 64)]
  | [a] =>
    let v := a * 65536
    [encodeURLChar (v / 262144 % 64), encodeURLChar (v / 4096 % 64)]
  | [] => []

/-- Decoding of the quanta once `\r` and `\n` are dropped: four characters give
three bytes; a final group of two or three characters gives one or two bytes
(trailing bits are not checked, the encoding is not strict); a final single
character, or a character outside the alphabet, is an error. -/
def base64DecodeQuanta : Bytes → Option Bytes
  | c0 :: c1 :: c2 :: c3 :: rest =>
    match decodeURLChar c0, decodeURLChar c1, decodeURLChar c2, decodeURLChar c3,
        base64DecodeQuanta rest with
    | some s0, some s1, some s2, some s3, some tl =>
      let v := s0 * 262144 + s1 * 4096 + s2 * 64 + s3
      some (v / 65536 % 256 :: v / 256 % 256 :: v % 256 :: tl)
    | _, _, _, _, _ => none
  | [c0, c1, c2] =>
    match decodeURLChar c0, decodeURLChar c1, decodeURLChar c2 with
    | some s0, some s1, some s2 =>
      let v := s0 * 262144 + s1 * 4096 + s2 * 64
      some [v / 65536 % 256, v / 256 % 256]
    | _, _, _ => none
  | [c0, c1] =>
    match decodeURLChar c0, decodeURLChar c1 with
    | some s0, some s1 =>
      let v := s0 * 262144 + s1 * 4096
      some [v / 65536 % 256]
    | _, _ => none
  | [_] => none
  | [] => some []

/-- `base64.RawURLEncoding.DecodeString`; `none` is a `CorruptInputError`.  The
decoder skips `\r` and `\n`. -/
def base64Decode (s : Bytes) : Option Bytes :=
  base64DecodeQuanta (s.filter fun c => c ≠ 10 ∧ c ≠ 13)

/-! ## crypto/sha256 and crypto/hmac

Words are natural numbers below `2^32`. -/

/-- Addition of 32-bit words. -/
def add32 (x y : Nat) : Nat := (x + y) % 4294967296

/-- `bits.RotateLeft32(x, -n)`. -/
def rotr32 (x n : Nat) : Nat := (x >>> n ||| x <<< (32 - n)) % 4294967296

/-- The round constants of SHA-256: the first 32 bits of the fractional parts
of the cube roots of the first 64 primes, in decimal. -/
def sha256K : List Nat :=
  [1116352408, 1899447441, 3049323471, 3921009573, 961987163, 1508970993,
   2453635748, 2870763221, 3624381080, 310598401, 607225278, 1426881987,
   1925078388, 2162078206, 2614888103, 3248222580, 3835390401, 4022224774,
   264347078, 604807628, 770255983, 1249150122, 1555081692, 1996064986,
   2554220882, 2821834349, 2952996808, 3210313671, 3336571891, 3584528711,
   113926993, 338241895, 666307205, 773529912, 1294757372, 1396182291,
   1695183700, 1986661051, 2177026350, 2456956037, 2730485921, 2820302411,
   3259730800, 3345764771, 3516065817, 3600352804, 4094571909, 275423344,
   430227734, 506948616, 659060556, 883997877, 958139571, 1322822218,
   1537002063, 1747873779, 1955562222, 2024104815, 2227730452, 2361852424,
   2428436474, 2756734187, 3204031479, 3329325298]

/-- The initial hash value of SHA-256: the first 32 bits of the fractional parts
of the square roots of the first 8 primes, in decimal. -/
def sha256Init : List Nat :=
  [1779033703, 3144134277, 1013904242, 2773480762,
   1359893119, 2600822924, 528734635, 1541459225]

/-- Big-endian 32-bit words of a byte sequence. -/
def wordsOfBytes : Bytes → List Nat
  | a :: b :: c :: d :: rest => (a * 16777216 + b * 65536 + c * 256 + d) :: wordsOfBytes rest
  | _ => []

/-- The four big-endian bytes of a 32-bit word. -/
def bytesOfWord (w : Nat) : Bytes := [w / 16777216 % 256, w / 65536 % 256, w / 256 % 256, w % 256]

/-- The message with the padding of SHA-256: `0x80`, zeros up to 56 modulo 64,
and the bit length as eight big-endian bytes. -/
def sha256Pad (msg : Bytes) : Bytes :=
  let bits := msg.length * 8
  msg ++ 0x80 :: List.replicate ((119 - msg.length % 64) % 64) 0 ++
    (bytesOfWord (bits / 4294967296 % 4294967296) ++ bytesOfWord (bits % 4294967296))

/-- Extends the message schedule, newest word first, by `n` words. -/
def sha256Schedule : Nat → List Nat → List Nat
  | 0, ws => ws
  | n + 1, ws =>
    let w2 := ws.getD 1 0
    let w7 := ws.getD 6 0
    let w15 := ws.getD 14 0
    let w16 := ws.getD 15 0
    let s0 := rotr32 w15 7 ^^^ rotr32 w15 18 ^^^ (w15 >>> 3)
    let s1 := rotr32 w2 17 ^^^ rotr32 w2 19 ^^^ (w2 >>> 10)
    sha256Schedule n (add32 (add32 (add32 s1 w7) s0) w16 :: ws)

/-- One round of the compression function on the working variables `a … h`. -/
def sha256Round (v : List Nat) (kw : Nat × Nat) : List Nat :=
  match v with
  | [a, b, c, d, e, f, g, h] =>
    let t1 := add32 (add32 (add32 (add32 h (rotr32 e 6 ^^^ rotr32 e 11 ^^^ rotr32 e 25))
      ((e &&& f) ^^^ ((4294967295 - e) &&& g))) kw.1) kw.2
    let t2 := add32 (rotr32 a 2 ^^^ rotr32 a 13 ^^^ rotr32 a 22)
      ((a &&& b) ^^^ (a &&& c) ^^^ (b &&& c))
    [add32 t1 t2, a, b, c, add32 d t1, e, f, g]
  | _ => v

/-- The compression of one 64-byte block into the hash value. -/
def sha256Block (h : List Nat) (block : Bytes) : List Nat :=
  let w := (sha256Schedule 48 (wordsOfBytes block).reverse).reverse
  List.zipWith add32 h ((sha256K.zip w).foldl sha256Round h)

/-- The blocks of the padded message, folded into the hash value. -/
def sha256Blocks : Nat → List Nat → Bytes → List Nat
  | 0, h, _ => h
  | n + 1, h, data => sha256Blocks n (sha256Block h (data.take 64)) (data.drop 64)

/-- `sha256.Sum256`: the 32-byte digest. -/
def sha256 (msg : Bytes) : Bytes :=
  let p := sha256Pad msg
  (sha256Blocks (p.length / 64) sha256Init p).flatMap bytesOfWord

/-- The block of `hmac.New(sha256.New, key)`: a key longer than the 64-byte
block size is hashed first, and the key is then padded with zero bytes to 64. -/
def hmacKeyBlock (key : Bytes) : Bytes :=
  let k := if 64 < key.length then sha256 key else key
  k ++ List.replicate (64 - k.length) 0

/-- HMAC-SHA256 (`mac.Write(data); mac.Sum(nil)`). -/
def hmacSHA256 (key data : Bytes) : Bytes :=
  let k := hmacKeyBlock key
  sha256 (k.map (· ^^^ 0x5c) ++ sha256 (k.map (· ^^^ 0x36) ++ data))

/-! ## strings.Split, strconv -/

/-- `strings.Split(s, sep)` for a one-byte separator: the pieces between the
occurrences of `sep`, one more than there are occurrences. -/
def Split (s : Bytes) (sep : Nat) : List Bytes :=
  match s with
  | [] => [[]]
  | b :: t =>
    if b = sep then [] :: Split t sep
    else
      match Split t sep with
      | p :: ps => (b :: p) :: ps
      | [] => [[b]]

/-- The digit loop of `strconv.AppendInt`: the decimal digits of `n` in ASCII,
put in front of `acc`; the fuel bounds the number of digits. -/
def natDigitsAux : Nat → Nat → Bytes → Bytes
  | 0, _, acc => acc
  | fuel + 1, n, acc =>
    if n < 10 then (48 + n) :: acc
    else natDigitsAux fuel (n / 10) ((48 + n % 10) :: acc)

/-- The decimal digits of a natural number, as ASCII. -/
def natDigits (n : Nat) : Bytes := natDigitsAux (n + 1) n []

/-- `strconv.AppendInt(nil, n, 10)`. -/
def itoa (n : Int) : Bytes :=
  if n < 0 then 45 :: natDigits n.natAbs else natDigits n.natAbs

/-- An ASCII decimal digit. -/
def isDigit (c : Nat) : Bool := decide (48 ≤ c ∧ c ≤ 57)

/-- Whether an integer is a value of Go's `int64` (and of `int` on a 64-bit
platform). -/
def IsInt64 (n : Int) : Prop := -9223372036854775808 ≤ n ∧ n ≤ 9223372036854775807

instance (n : Int) : Decidable (IsInt64 n) := by
  unfold IsInt64
  infer_instance

/-- `strconv.ParseInt(lit, 10, 64)`: an optional sign, then digits only, and a
value that fits `int64`. -/
def parseInt64 (lit : Bytes) : Option Int :=
  let neg := lit.head? = some 45
  let ds := if lit.head? = some 45 ∨ lit.head? = some 43 then lit.tail else lit
  if ds = [] ∨ ¬ ds.all isDigit then none
  else
    let n : Int := (ds.foldl (fun acc c => acc * 10 + (c - 48)) 0 : Nat)
    let v := if neg then -n else n
    if -9223372036854775808 ≤ v ∧ v ≤ 9223372036854775807 then some v else none

/-! ## encoding/json, as far as `tokenPayload` needs it -/

/-- `tokenPayload`, the claims of a token.  `Audience` is `none` for a nil
slice. -/
structure tokenPayload where
  Subject : Bytes
  ExpiresAt : Int
  IssuedAt : Int
  Issuer : Bytes
  Audience : Option (List Bytes)
  UserID : Int
  deriving DecidableEq, Repr

/-- The digit of `"0123456789abcdef"` at index `n`. -/
def hexDigit (n : Nat) : Nat := if n < 10 then 48 + n else 87 + n

/-- The ASCII bytes the encoder escapes (the complement of `htmlSafeSet`):
control characters, `"`, `&`, `<`, `>` and `\`. -/
def needsEscape (b : Nat) : Bool :=
  decide (b < 0x20 ∨ b = 0x22 ∨ b = 0x26 ∨ b = 0x3C ∨ b = 0x3E ∨ b = 0x5C)

/-- The escape sequence of an ASCII byte that needs one. -/
def escapeByte (b : Nat) : Bytes :=
  if b = 0x5C ∨ b = 0x22 then [0x5C, b]
  else if b = 8 then [0x5C, 0x62]
  else if b = 12 then [0x5C, 0x66]
  else if b = 10 then [0x5C, 0x6E]
  else if b = 13 then [0x5C, 0x72]
  else if b = 9 then [0x5C, 0x74]
  else [0x5C, 0x75, 0x30, 0x30, hexDigit (b / 16), hexDigit (b % 16)]

/-- The loop of the encoder's `appendString` with HTML escaping on, with the
input length as fuel: the text between the quotes.  An invalid byte becomes the
escape of U+FFFD, and U+2028 and U+2029 are escaped. -/
def appendStringAux : Nat → Bytes → Bytes
  | 0, _ => []
  | _ + 1, [] => []
  | fuel + 1, b :: t =>
    if b < 0x80 then
      (if needsEscape b then escapeByte b else [b]) ++ appendStringAux fuel t
    else
      let d := decodeRune (b :: t)
      if d.1 = RuneError ∧ d.2 = 1 then
        [0x5C, 0x75, 0x66, 0x66, 0x66, 0x64] ++ appendStringAux fuel t
      else if d.1 = 0x2028 ∨ d.1 = 0x2029 then
        [0x5C, 0x75, 0x32, 0x30, 0x32, hexDigit (d.1 % 16)] ++
          appendStringAux fuel (t.drop (d.2 - 1))
      else (b :: t).take d.2 ++ appendStringAux fuel (t.drop (d.2 - 1))

/-- The JSON encoding of a Go string, quotes included. -/
def appendString (s : Bytes) : Bytes := 0x22 :: (appendStringAux s.length s ++ [0x22])

/-- The elements of a JSON array of strings, separated by commas. -/
def marshalStrings : List Bytes → Bytes
  | [] => []
  | [s] => appendString s
  | s :: rest => appendString s ++ 0x2C :: marshalStrings rest

/-- `json.Marshal` of a `tokenPayload`: the object
`{"sub":…,"exp":…,"iat":…,"iss":…,"aud":…,"userId":…}` in field order, a nil
`Audience` as `null`.  It cannot fail. -/
def jsonMarshal (p : tokenPayload) : Bytes :=
  [0x7B, 0x22, 0x73, 0x75, 0x62, 0x22, 0x3A] ++ appendString p.Subject ++
  [0x2C, 0x22, 0x65, 0x78, 0x70, 0x22, 0x3A] ++ itoa p.ExpiresAt ++
  [0x2C, 0x22, 0x69, 0x61, 0x74, 0x22, 0x3A] ++ itoa p.IssuedAt ++
  [0x2C, 0x22, 0x69, 0x73, 0x73, 0x22, 0x3A] ++ appendString p.Issuer ++
  [0x2C, 0x22, 0x61, 0x75, 0x64, 0x22, 0x3A] ++
  (match p.Audience with
    | none => [0x6E, 0x75, 0x6C, 0x6C]
    | some l => 0x5B :: (marshalStrings l ++ [0x5D])) ++
  [0x2C, 0x22, 0x75, 0x73, 0x65, 0x72, 0x49, 0x64, 0x22, 0x3A] ++ itoa p.UserID ++ [0x7D]

/-- `json.Marshal` of the header map `{"alg": "HS256", "typ": "JWT"}`, keys
sorted: `{"alg":"HS256","typ":"JWT"}`. -/
def headerJSON : Bytes :=
  [0x7B, 0x22, 0x61, 0x6C, 0x67, 0x22, 0x3A, 0x22, 0x48, 0x53, 0x32, 0x35, 0x36, 0x22, 0x2C,
   0x22, 0x74, 0x79, 0x70, 0x22, 0x3A, 0x22, 0x4A, 0x57, 0x54, 0x22, 0x7D]

/-- A parsed JSON value; a number keeps its literal. -/
inductive JValue where
  | null
  | bool (b : Bool)
  | number (lit : Bytes)
  | string (s : Bytes)
  | array (elems : List JValue)
  | object (members : List (Bytes × JValue))
  deriving Repr

/-- JSON white space: space, tab, carriage return, line feed. -/
def isSpace (c : Nat) : Bool := decide (c = 0x20 ∨ c = 0x09 ∨ c = 0x0D ∨ c = 0x0A)

/-- Drops leading white space. -/
def skipWS : Bytes → Bytes
  | [] => []
  | c :: t => if isSpace c then skipWS t else c :: t

/-- The value of a hexadecimal digit, in either case. -/
def hexVal (c : Nat) : Option Nat :=
  if 48 ≤ c ∧ c ≤ 57 then some (c - 48)
  else if 97 ≤ c ∧ c ≤ 102 then some (c - 87)
  else if 65 ≤ c ∧ c ≤ 70 then some (c - 55)
  else none

/-- The decoder's `getu4`: the rune of a leading `\uXXXX`, `none` for `-1`. -/
def getu4 (s : Bytes) : Option Nat :=
  match s with
  | e :: u :: a :: b :: c :: d :: _ =>
    if e = 0x5C ∧ u = 0x75 then
      match hexVal a, hexVal b, hexVal c, hexVal d with
      | some a, some b, some c, some d => some (a * 4096 + b * 256 + c * 16 + d)
      | _, _, _, _ => none
    else none
  | _ => none

/-- The byte of a one-character escape `\" \\ \/ \b \f \n \r \t`. -/
def simpleEscape (e : Nat) : Option Nat :=
  if e = 0x22 ∨ e = 0x5C ∨ e = 0x2F then some e
  else if e = 0x62 then some 8
  else if e = 0x66 then some 12
  else if e = 0x6E then some 10
  else if e = 0x72 then some 13
  else if e = 0x74 then some 9
  else none

/-- Puts decoded bytes in front of the rest of a decoded string. -/
def prepend (p : Bytes) (r : Option (Bytes × Bytes)) : Option (Bytes × Bytes) :=
  r.map fun x => (p ++ x.1, x.2)

/-- The scanner's string state together with the decoder's `unquote`, on the
input after the opening quote and with its length as fuel: the decoded string
and the input after the closing quote.  Escapes are resolved, surrogate pairs
combined, a lone surrogate and invalid UTF-8 replaced by U+FFFD; a control
character or an unknown escape is an error. -/
def unquoteAux : Nat → Bytes → Option (Bytes × Bytes)
  | 0, _ => none
  | _ + 1, [] => none
  | fuel + 1, c :: t =>
    if c = 0x22 then some ([], t)
    else if c = 0x5C then
      match t with
      | [] => none
      | e :: t1 =>
        if e = 0x75 then
          match getu4 (c :: e :: t1) with
          | none => none
          | some rr =>
            if 0xD800 ≤ rr ∧ rr < 0xE000 then
              match getu4 (t1.drop 4) with
              | some rr1 =>
                if rr < 0xDC00 ∧ 0xDC00 ≤ rr1 ∧ rr1 < 0xE000 then
                  prepend (encodeRune ((rr - 0xD800) * 1024 + (rr1 - 0xDC00) + 0x10000))
                    (unquoteAux fuel (t1.drop 10))
                else prepend (encodeRune RuneError) (unquoteAux fuel (t1.drop 4))
              | none => prepend (encodeRune RuneError) (unquoteAux fuel (t1.drop 4))
            else prepend (encodeRune rr) (unquoteAux fuel (t1.drop 4))
        else
          match simpleEscape e with
          | some b => prepend [b] (unquoteAux fuel t1)
          | none => none
    else if c < 0x20 then none
    else if c < 0x80 then prepend [c] (unquoteAux fuel t)
    else
      let d := decodeRune (c :: t)
      prepend (encodeRune d.1) (unquoteAux fuel (t.drop (d.2 - 1)))

/-- A JSON string whose opening quote has been read. -/
def unquote (s : Bytes) : Option (Bytes × Bytes) := unquoteAux s.length s

/-- The longest prefix of digits, and the rest. -/
def spanDigits : Bytes → Bytes × Bytes
  | [] => ([], [])
  | c :: t => if isDigit c then ((c :: (spanDigits t).1), (spanDigits t).2) else ([], c :: t)

/-- The optional fraction `.digits` of a number. -/
def scanFraction (s : Bytes) : Option (Bytes × Bytes) :=
  match s with
  | c :: t =>
    if c = 0x2E then
      if (spanDigits t).1 = [] then none else some (c :: (spanDigits t).1, (spanDigits t).2)
    else some ([], s)
  | [] => some ([], s)

/-- The optional exponent `e`, sign, digits of a number. -/
def scanExponent (s : Bytes) : Option (Bytes × Bytes) :=
  match s with
  | c :: t =>
    if c = 0x65 ∨ c = 0x45 then
      match t with
      | g :: t1 =>
        if g = 0x2B ∨ g = 0x2D then
          if (spanDigits t1).1 = [] then none
          else some (c :: g :: (spanDigits t1).1, (spanDigits t1).2)
        else if (spanDigits t).1 = [] then none
        else some (c :: (spanDigits t).1, (spanDigits t).2)
      | [] => none
    else some ([], s)
  | [] => some ([], s)

/-- The integer part of a number after the sign: `0`, or a non-zero digit and
more digits. -/
def scanIntPart (s : Bytes) : Option (Bytes × Bytes) :=
  match s with
  | c :: t =>
    if c = 0x30 then some ([c], t)
    else if 0x31 ≤ c ∧ c ≤ 0x39 then some (c :: (spanDigits t).1, (spanDigits t).2)
    else none
  | [] => none

/-- The scanner's number states: the literal of a JSON number and the input
after it. -/
def scanNumber (s : Bytes) : Option (Bytes × Bytes) :=
  let neg := s.head? = some 0x2D
  match scanIntPart (if neg then s.tail else s) with
  | none => none
  | some (ip, s1) =>
    match scanFraction s1 with
    | none => none
    | some (fp, s2) =>
      match scanExponent s2 with
      | none => none
      | some (ep, s3) => some ((if neg then [0x2D] else []) ++ ip ++ fp ++ ep, s3)

mutual
/-- A JSON value at the head of the input (no leading white space), and the
input after it; the fuel bounds the number of nested calls. -/
def parseValue : Nat → Bytes → Option (JValue × Bytes)
  | 0, _ => none
  | _ + 1, [] => none
  | fuel + 1, c :: t =>
    if c = 0x7B then
      match skipWS t with
      | [] => none
      | d :: r =>
        if d = 0x7D then some (.object [], r)
        else (parseMembers fuel (d :: r)).map fun x => (.object x.1, x.2)
    else if c = 0x5B then
      match skipWS t with
      | [] => none
      | d :: r =>
        if d = 0x5D then some (.array [], r)
        else (parseElems fuel (d :: r)).map fun x => (.array x.1, x.2)
    else if c = 0x22 then (unquote t).map fun x => (.string x.1, x.2)
    else if c = 0x2D ∨ isDigit c then (scanNumber (c :: t)).map fun x => (.number x.1, x.2)
    else if (c :: t).take 4 = [0x6E, 0x75, 0x6C, 0x6C] then some (.null, t.drop 3)
    else if (c :: t).take 4 = [0x74, 0x72, 0x75, 0x65] then some (.bool true, t.drop 3)
    else if (c :: t).take 5 = [0x66, 0x61, 0x6C, 0x73, 0x65] then some (.bool false, t.drop 4)
    else none
/-- The members `"key": value, …` of an object up to and including its `}`. -/
def parseMembers : Nat → Bytes → Option (List (Bytes × JValue) × Bytes)
  | 0, _ => none
  | _ + 1, [] => none
  | fuel + 1, q :: t =>
    if q = 0x22 then
      match unquote t with
      | none => none
      | some (key, r1) =>
        match skipWS r1 with
        | [] => none
        | colon :: r2 =>
          if colon = 0x3A then
            match parseValue fuel (skipWS r2) with
            | none => none
            | some (v, r3) =>
              match skipWS r3 with
              | [] => none
              | d :: r4 =>
                if d = 0x2C then
                  (parseMembers fuel (skipWS r4)).map fun x => ((key, v) :: x.1, x.2)
                else if d = 0x7D then some ([(key, v)], r4)
                else none
          else none
    else none
/-- The elements `value, …` of an array up to and including its `]`. -/
def parseElems : Nat → Bytes → Option (List JValue × Bytes)
  | 0, _ => none
  | fuel + 1, s =>
    match parseValue fuel s with
    | none => none
    | some (v, r1) =>
      match skipWS r1 with
      | [] => none
      | d :: r2 =>
        if d = 0x2C then (parseElems fuel (skipWS r2)).map fun x => (v :: x.1, x.2)
        else if d = 0x5D then some ([v], r2)
        else none
end

/-- The whole input as one JSON value, surrounded by optional white space
(the decoder's `checkValid` and scan). -/
def parseJSON (data : Bytes) : Option JValue :=
  match parseValue (data.length + 1) (skipWS data) with
  | some (v, rest) => if skipWS rest = [] then some v else none
  | none => none

/-- The fields of `tokenPayload`. -/
inductive Field where
  | Subject | ExpiresAt | IssuedAt | Issuer | Audience | UserID
  deriving DecidableEq, Repr

/-- The JSON names of the fields, from the struct tags. -/
def fieldNames : List (Bytes × Field) :=
  [([0x73, 0x75, 0x62], .Subject), ([0x65, 0x78, 0x70], .ExpiresAt),
   ([0x69, 0x61, 0x74], .IssuedAt), ([0x69, 0x73, 0x73], .Issuer),
   ([0x61, 0x75, 0x64], .Audience), ([0x75, 0x73, 0x65, 0x72, 0x49, 0x64], .UserID)]

/-- The field an object key selects: the field of that exact name, otherwise the
first field whose name equals the key under case folding. -/
def findField (key : Bytes) : Option Field :=
  match fieldNames.find? fun f => f.1 = key with
  | some f => some f.2
  | none => (fieldNames.find? fun f => EqualFold f.1 key).map (·.2)

/-- A JSON array decoded into a `[]string` that held `old`: a string sets the
element, `null` leaves it, anything else is a type error. -/
def decodeStrings (old : List Bytes) : List JValue → Option (List Bytes)
  | [] => some []
  | .string s :: vs => (decodeStrings old.tail vs).map (s :: ·)
  | .null :: vs => (decodeStrings old.tail vs).map (old.headD [] :: ·)
  | _ :: _ => none

/-- A JSON value stored into a field: `null` leaves a string or integer as it
is and makes the slice nil; a value of the wrong type, or a number that
`ParseInt` rejects, is an `UnmarshalTypeError`. -/
def assignField (p : tokenPayload) (f : Field) (v : JValue) : Option tokenPayload :=
  match f, v with
  | .Audience, .null => some { p with Audience := none }
  | _, .null => some p
  | .Subject, .string s => some { p with Subject := s }
  | .Issuer, .string s => some { p with Issuer := s }
  | .ExpiresAt, .number lit => (parseInt64 lit).map fun n => { p with ExpiresAt := n }
  | .IssuedAt, .number lit => (parseInt64 lit).map fun n => { p with IssuedAt := n }
  | .UserID, .number lit => (parseInt64 lit).map fun n => { p with UserID := n }
  | .Audience, .array elems =>
    (decodeStrings (p.Audience.getD []) elems).map fun l => { p with Audience := some l }
  | _, _ => none

/-- The members of an object stored into the payload in order; a key that
selects no field is ignored. -/
def assignMembers (p : tokenPayload) : List (Bytes × JValue) → Option tokenPayload
  | [] => some p
  | (key, v) :: rest =>
    match findField key with
    | none => assignMembers p rest
    | some f =>
      match assignField p f v with
      | none => none
      | some p1 => assignMembers p1 rest

/-- The zero value of `tokenPayload`. -/
def zeroPayload : tokenPayload := ⟨[], 0, 0, [], none, 0⟩

/-- `json.Unmarshal(data, &payload)` into a zero `tokenPayload`; `none` is an
error (a syntax error or a type error).  A top-level `null` leaves the payload
zero; any other non-object is a type error.  The scanner's nesting limit of
10000 is not modelled. -/
def jsonUnmarshal (data : Bytes) : Option tokenPayload :=
  match parseJSON data with
  | some (.object members) => assignMembers zeroPayload members
  | some .null => some zeroPayload
  | _ => none

/-! ## package auth -/

/-- The errors `ParseToken` returns, by the spec's names. -/
inductive TokenError where
  | MalformedToken
  | InvalidSignature
  | InvalidPayload
  | Expired
  | InvalidClaims
  deriving DecidableEq, Repr

deriving instance DecidableEq for Except

/-- The text of each error, as passed to `errors.New`. -/
def TokenError.message : TokenError → String
  | .MalformedToken => "invalid token format"
  | .InvalidSignature => "invalid token signature"
  | .InvalidPayload => "invalid token payload"
  | .Expired => "token expired"
  | .InvalidClaims => "invalid token claims"

/-- `Time.Unix()` of an instant given in nanoseconds since the Unix epoch:
whole seconds, rounded down. -/
def unix (t : Int) : Int := t / 1000000000

/-- `sign`: the unpadded URL-safe base64 of HMAC-SHA256 of `data` under `secret`. -/
def sign (data secret : Bytes) : Bytes := base64Encode (hmacSHA256 secret data)

/-- The loop of `secureCompare`: the OR of the XORs of the bytes at each
position of `a`; `b[i]` at a position `b` lacks is a run-time panic, `none`. -/
def secureCompareLoop (result : Nat) : Bytes → Bytes → Option Nat
  | [], _ => some result
  | _ :: _, [] => none
  | x :: a, y :: b => secureCompareLoop (result ||| (x ^^^ y)) a b

/-- `secureCompare`. -/
def secureCompare (a b : Bytes) : Bool :=
  if a.length ≠ b.length then false
  else secureCompareLoop 0 a b == some 0

/-- The `tokenPayload` that `GenerateToken` builds; `now1` and `now2` are the
readings of its two `time.Now()` calls and `ttl` is in nanoseconds. -/
def newPayload (userID : Int) (email : Bytes) (ttl now1 now2 : Int) : tokenPayload :=
  { Subject := email
    ExpiresAt := unix (now1 + ttl)
    IssuedAt := unix now2
    Issuer := ascii "fullstack-go-api"
    Audience := some [ascii "fullstack-go-api"]
    UserID := userID }

/-- `headerPart` of `GenerateToken`. -/
def headerPart : Bytes := base64Encode headerJSON

/-- `payloadPart` of `GenerateToken`, the claims segment. -/
def payloadPart (p : tokenPayload) : Bytes := base64Encode (jsonMarshal p)

/-- `signingInput` of `GenerateToken`: `headerPart + "." + payloadPart`. -/
def signingInput (p : tokenPayload) : Bytes := headerPart ++ 0x2E :: payloadPart p

/-- `GenerateToken`.  Neither `json.Marshal` call can fail (a map of strings, a
struct of strings and integers), so the error result is always nil and only
the token is returned. -/
def GenerateToken (userID : Int) (email secret : Bytes) (ttl now1 now2 : Int) : Bytes :=
  let input := signingInput (newPayload userID email ttl now1 now2)
  input ++ 0x2E :: sign input secret

/-- `ParseToken`; `now` is the reading of `time.Now()`.  An error stands for the
Go result `(0, "", err)`. -/
def ParseToken (tokenString secret : Bytes) (now : Int) : Except TokenError (Int × Bytes) :=
  match Split tokenString 0x2E with
  | [part0, part1, part2] =>
    if !secureCompare (sign (part0 ++ 0x2E :: part1) secret) part2 then .error .InvalidSignature
    else
      match base64Decode part1 with
      | none => .error .InvalidPayload
      | some payloadBytes =>
        match jsonUnmarshal payloadBytes with
        | none => .error .InvalidPayload
        | some payload =>
          if payload.ExpiresAt < unix now then .error .Expired
          else if payload.Subject = [] ∨ payload.UserID = 0 then .error .InvalidClaims
          else .ok (payload.UserID, payload.Subject)
  | _ => .error .MalformedToken

/-- The token has three parts, its signature is the one `sign` computes under
`secret`, and its claims segment decodes to `payload`. -/
def DecodesTo (tokenString secret : Bytes) (payload : tokenPayload) : Prop :=
  ∃ part0 part1 part2 payloadBytes,
    Split tokenString 0x2E = [part0, part1, part2] ∧
    secureCompare (sign (part0 ++ 0x2E :: part1) secret) part2 = true ∧
    base64Decode part1 = some payloadBytes ∧
    jsonUnmarshal payloadBytes = some payload

/-- The token `part0.part1.part2` with the character at index `i` of its claims
segment `part1` replaced by `c`, the other segments unchanged. -/
def tamperClaims (part0 part1 part2 : Bytes) (i c : Nat) : Bytes :=
  part0 ++ 0x2E :: (part1.set i c ++ 0x2E :: part2)

/-! ## package auth: the password digest -/

/-- `hextable` of `encoding/hex`, `"0123456789abcdef"`: the digit of a four-bit
value. -/
def hextable (n : Nat) : Nat := if n < 10 then 48 + n else 87 + n

/-- `hex.EncodeToString`: for each byte `v` the digits of `v >> 4` and of
`v & 0x0f`. -/
def hexEncode : Bytes → Bytes
  | [] => []
  | v :: t => hextable (v / 16) :: hextable (v % 16) :: hexEncode t

/-- `HashPassword`: the SHA-256 digest of the password, in hexadecimal. -/
def HashPassword (password : Bytes) : Bytes := hexEncode (sha256 password)

/-- `ComparePassword`: `hash == HashPassword(password)`. -/
def ComparePassword (hash password : Bytes) : Bool := decide (hash = HashPassword password)

/-! ## models.User and the store -/

/-- The zero value of `time.Time` (1 January of year 1, UTC), in nanoseconds
relative to the Unix epoch. -/
def zeroTime : Int := -62135596800000000000

/-- `models.User`.  A `time.Time` is an instant in nanoseconds since the Unix
epoch. -/
structure User where
  ID : Int
  Name : Bytes
  Email : Bytes
  PasswordHash : Bytes
  CreatedAt : Int
  UpdatedAt : Int
  deriving DecidableEq, Repr

/-- `models.User{}`. -/
def zeroUser : User := ⟨0, [], [], [], zeroTime, zeroTime⟩

/-- The errors of package `store`; `other` is any other error value a mutate
function returns. -/
inductive StoreError where
  | ErrUserNotFound
  | ErrEmailExists
  | other (msg : Bytes)
  deriving DecidableEq, Repr

/-- `Store` without its mutex: every method runs as one step under the lock.
A Go map is a function to `Option`; identifiers are unbounded integers, the
counter staying far from the end of Go's `int`. -/
structure Store where
  users : Int → Option User
  byMail : Bytes → Option Int
  nextID : Int

/-- `m[k] = v` on a Go map. -/
def mapSet {κ ν : Type} [DecidableEq κ] (m : κ → Option ν) (k : κ) (v : ν) : κ → Option ν :=
  fun x => if x = k then some v else m x

/-- `delete(m, k)` on a Go map. -/
def mapDelete {κ ν : Type} [DecidableEq κ] (m : κ → Option ν) (k : κ) : κ → Option ν :=
  fun x => if x = k then none else m x

/-- `store.New`. -/
def New : Store := ⟨fun _ => none, fun _ => none, 1⟩

/-- `Store.CreateUser`; `now` is the reading of `time.Now().UTC()`.  Returns the
Go result pair and the store after the call. -/
def CreateUser (L : CaseFolding) (s : Store) (user : User) (now : Int) :
    (User × Option StoreError) × Store :=
  let key := L.ToLower user.Email
  match s.byMail key with
  | some _ => ((zeroUser, some .ErrEmailExists), s)
  | none =>
    let user := { user with ID := s.nextID, CreatedAt := now, UpdatedAt := now }
    ((user, none),
      ⟨mapSet s.users user.ID user, mapSet s.byMail key user.ID, s.nextID + 1⟩)

/-- The test `existingID, exists := byMail[key]; exists && existingID != id` of
`UpdateUser`: the key is indexed by another identifier. -/
def indexedByOther (byMail : Bytes → Option Int) (key : Bytes) (id : Int) : Bool :=
  match byMail key with
  | some existingID => decide (existingID ≠ id)
  | none => false

/-- `Store.UpdateUser`; `fn` is the mutate function and `now` the reading of
`time.Now().UTC()`. -/
def UpdateUser (L : CaseFolding) (s : Store) (id : Int)
    (fn : User → User × Option StoreError) (now : Int) :
    (User × Option StoreError) × Store :=
  match s.users id with
  | none => ((zeroUser, some .ErrUserNotFound), s)
  | some user =>
    match fn user with
    | (_, some err) => ((zeroUser, some err), s)
    | (updated, none) =>
      let stored := { updated with ID := user.ID, CreatedAt := user.CreatedAt, UpdatedAt := now }
      if !L.EqualFold user.Email updated.Email then
        let newKey := L.ToLower updated.Email
        if indexedByOther s.byMail newKey user.ID then ((zeroUser, some .ErrEmailExists), s)
        else
          ((stored, none),
            ⟨mapSet s.users id stored,
              mapSet (mapDelete s.byMail (L.ToLower user.Email)) newKey user.ID, s.nextID⟩)
      else ((stored, none), ⟨mapSet s.users id stored, s.byMail, s.nextID⟩)

/-- `Store.GetUser`. -/
def GetUser (s : Store) (id : Int) : User × Option StoreError :=
  match s.users id with
  | none => (zeroUser, some .ErrUserNotFound)
  | some user => (user, none)

/-- `Store.GetUserByEmail`; `s.users[id]` of a missing id is the zero `User`. -/
def GetUserByEmail (L : CaseFolding) (s : Store) (email : Bytes) : User × Option StoreError :=
  match s.byMail (L.ToLower email) with
  | none => (zeroUser, some .ErrUserNotFound)
  | some id => ((s.users id).getD zeroUser, none)

/-- `Store.DeleteUser`. -/
def DeleteUser (L : CaseFolding) (s : Store) (id : Int) : Option StoreError × Store :=
  match s.users id with
  | none => (some .ErrUserNotFound, s)
  | some user =>
    (none, ⟨mapDelete s.users id, mapDelete s.byMail (L.ToLower user.Email), s.nextID⟩)

/-- The account `UpdateUser` stores: the candidate with the identifier and the
creation time of the current account and the update time `now`. -/
def storedUpdate (old cand : User) (now : Int) : User :=
  { cand with ID := old.ID, CreatedAt := old.CreatedAt, UpdatedAt := now }

/-- One call of a mutating store method. -/
inductive Call where
  | create (user : User) (now : Int)
  | update (id : Int) (fn : User → User × Option StoreError) (now : Int)
  | delete (id : Int)

/-- The store after a call. -/
def Call.run (L : CaseFolding) (s : Store) : Call → Store
  | .create user now => (CreateUser L s user now).2
  | .update id fn now => (UpdateUser L s id fn now).2
  | .delete id => (DeleteUser L s id).2

/-- The store after a finite sequence of calls on `store.New()`. -/
def runCalls (L : CaseFolding) (calls : List Call) : Store :=
  calls.foldl (Call.run L) New

/-- A state is reachable when some finite sequence of `CreateUser`, `UpdateUser`
and `DeleteUser` calls on `store.New()` produces it. -/
def Reachable (L : CaseFolding) (s : Store) : Prop := ∃ calls, runCalls L calls = s

/-- The two `strings` functions agree: emails equal for `EqualFold` have the same
`ToLower` key.  Go's functions do not agree on every pair of strings. -/
def FoldConsistent (L : CaseFolding) : Prop :=
  ∀ a b, L.EqualFold a b = true → L.ToLower a = L.ToLower b

/-- The index and the records agree, and identifiers are below `nextID`. -/
structure IndexConsistent (L : CaseFolding) (s : Store) : Prop where
  ids : ∀ id u, s.users id = some u → u.ID = id
  indexed : ∀ id u, s.users id = some u → s.byMail (L.ToLower u.Email) = some id
  stored : ∀ key id, s.byMail key = some id → ∃ u, s.users id = some u ∧ L.ToLower u.Email = key
  below : ∀ id u, s.users id = some u → id < s.nextID

/-! ## package handlers: the check of `WithAuth` -/

/-- The answers `401 Unauthorized` of `WithAuth`. -/
inductive AuthError where
  | MissingHeader
  | InvalidHeader
  | InvalidToken
  deriving DecidableEq, Repr

/-- The message of each answer, as passed to `errorResponse`. -/
def AuthError.message : AuthError → String
  | .MissingHeader => "missing authorization header"
  | .InvalidHeader => "invalid authorization header"
  | .InvalidToken => "invalid token"

/-- `strings.SplitN(s, sep, 2)` for a one-byte separator: `s` cut at the first
occurrence of `sep`, or `s` alone when there is none. -/
def SplitN2 : Bytes → Nat → List Bytes
  | [], _ => [[]]
  | b :: t, sep =>
    if b = sep then [[], t]
    else
      match SplitN2 t sep with
      | p :: rest => (b :: p) :: rest
      | [] => [[b]]

/-- `Handler.WithAuth`, up to the call of the next handler: `authHeader` is the
value of the `Authorization` header, `s` the state of `h.Store` and `now` the
clock reading of `ParseToken`.  The result is the account put into the request
context, or the answer 401. -/
def WithAuth (L : CaseFolding) (s : Store) (JWTSecret authHeader : Bytes) (now : Int) :
    Except AuthError User :=
  if authHeader = [] then .error .MissingHeader
  else
    match SplitN2 authHeader 0x20 with
    | [scheme, token] =>
      if !L.EqualFold scheme (ascii "Bearer") then .error .InvalidHeader
      else
        match ParseToken token JWTSecret now with
        | .error _ => .error .InvalidToken
        | .ok (userID, email) =>
          match GetUser s userID with
          | (_, some _) => .error .InvalidToken
          | (user, none) =>
            if !L.EqualFold user.Email email then .error .InvalidToken else .ok user
    | _ => .error .InvalidHeader

/-! ### Traces of calls -/

/-- The identifier a call returns when it is a `CreateUser` that succeeds. -/
def Call.createdID (L : CaseFolding) (s : Store) : Call → Option Int
  | .create user now =>
    match (CreateUser L s user now).1 with
    | (created, none) => some created.ID
    | (_, some _) => none
  | .update _ _ _ => none
  | .delete _ => none

/-- The identifiers returned by the successful `CreateUser` calls of a sequence
of calls run from the state `s`, in call order. -/
def createdIDsFrom (L : CaseFolding) : Store → List Call → List Int
  | _, [] => []
  | s, c :: cs =>
    match Call.createdID L s c with
    | some id => id :: createdIDsFrom L (Call.run L s c) cs
    | none => createdIDsFrom L (Call.run L s c) cs

/-- The identifiers in use lie from 1 up to the counter, the counter excluded. -/
def IdsBelow (s : Store) : Prop :=
  1 ≤ s.nextID ∧ ∀ id u, s.users id = some u → 1 ≤ id ∧ id < s.nextID

/-! ### Inputs of the scenarios -/

/-- A candidate as the `Register` handler builds it: only name, email and
password hash are set. -/
def candidate (name email hash : Bytes) : User := ⟨0, name, email, hash, zeroTime, zeroTime⟩

/-- A mutate function as the `UserResource` handler builds it for a request
that changes the email only. -/
def setEmail (email : Bytes) : User → User × Option StoreError :=
  fun existing => ({ existing with Email := email }, none)

/-- A mutate function that returns a candidate with every field overwritten,
identifier and creation time included. -/
def overwriteAll (u : User) : User → User × Option StoreError :=
  fun _ => (u, none)

/-- The email `ſ@x.com`, whose first rune is U+017F (LATIN SMALL LETTER LONG S),
in UTF-8. -/
def longSEmail : Bytes := [0xC5, 0xBF, 0x40, 0x78, 0x2E, 0x63, 0x6F, 0x6D]

/-- The calls of a scenario: register `s@x.com`, change that account's email to
`ſ@x.com`, register `ſ@x.com`. -/
def longSCalls : List Call :=
  [.create (candidate (ascii "Ada") (ascii "s@x.com") (ascii "h")) 100,
   .update 1 (setEmail longSEmail) 200,
   .create (candidate (ascii "Bob") longSEmail (ascii "h2")) 300]

/-- The calls of a scenario: register `s@x.com`, change that account's email to
`ſ@x.com`, delete the account. -/
def longSDeleteCalls : List Call :=
  [.create (candidate (ascii "Ada") (ascii "s@x.com") (ascii "h")) 100,
   .update 1 (setEmail longSEmail) 200,
   .delete 1]

/-! # Theorems -/

/-! # Lemmas on the library model -/

theorem lor_eq_zero_iff (x y : Nat) : x ||| y = 0 ↔ x = 0 ∧ y = 0 := by
  constructor
  · intro h
    have hb : ∀ i, (x.testBit i || y.testBit i) = false := by
      intro i
      rw [← Nat.testBit_or, h, Nat.zero_testBit]
    constructor
    · apply Nat.eq_of_testBit_eq
      intro i
      have := hb i
      simp only [Bool.or_eq_false_iff] at this
      simp [this.1]
    · apply Nat.eq_of_testBit_eq
      intro i
      have := hb i
      simp only [Bool.or_eq_false_iff] at this
      simp [this.2]
  · rintro ⟨rfl, rfl⟩
    rfl

theorem secureCompareLoop_eq_some_zero (a b : Bytes) (r : Nat) (hlen : a.length = b.length) :
    secureCompareLoop r a b = some 0 ↔ r = 0 ∧ a = b := by
  induction a generalizing b r with
  | nil =>
    cases b with
    | nil => simp [secureCompareLoop]
    | cons y b => simp at hlen
  | cons x a ih =>
    cases b with
    | nil => simp at hlen
    | cons y b =>
      simp only [List.length_cons, Nat.add_right_cancel_iff] at hlen
      rw [secureCompareLoop, ih b _ hlen, lor_eq_zero_iff, Nat.xor_eq_zero]
      constructor
      · rintro ⟨⟨h1, h2⟩, h3⟩
        exact ⟨h1, by rw [h2, h3]⟩
      · rintro ⟨h1, h2⟩
        injection h2 with h2 h3
        exact ⟨⟨h1, h2⟩, h3⟩

/-- `secureCompare` decides equality of the two strings. -/
theorem secureCompare_iff (a b : Bytes) : secureCompare a b = true ↔ a = b := by
  unfold secureCompare
  by_cases hlen : a.length = b.length
  · simp only [hlen, ne_eq, not_true_eq_false, ↓reduceIte, beq_iff_eq]
    rw [secureCompareLoop_eq_some_zero a b 0 hlen]
    simp
  · simp only [ne_eq, hlen, not_false_eq_true, ↓reduceIte, Bool.false_eq_true, false_iff]
    intro h
    exact hlen (by rw [h])

theorem secureCompare_self (a : Bytes) : secureCompare a a = true :=
  (secureCompare_iff a a).2 rfl

/-! ## strings.Split -/

theorem Split_cons (b : Nat) (t : Bytes) (sep : Nat) :
    Split (b :: t) sep =
      if b = sep then [] :: Split t sep
      else match Split t sep with
        | p :: ps => (b :: p) :: ps
        | [] => [[b]] := by
  conv_lhs => rw [Split]

theorem Split_ne_nil (s : Bytes) (sep : Nat) : Split s sep ≠ [] := by
  induction s with
  | nil => simp [Split]
  | cons b t ih =>
    unfold Split
    split_ifs
    · simp
    · split <;> simp

theorem Split_of_not_mem (a : Bytes) (sep : Nat) (h : sep ∉ a) : Split a sep = [a] := by
  induction a with
  | nil => simp [Split]
  | cons b t ih =>
    simp only [List.mem_cons, not_or] at h
    rw [Split_cons, if_neg (fun hb => h.1 hb.symm), ih h.2]

theorem Split_append (a b : Bytes) (sep : Nat) (h : sep ∉ a) :
    Split (a ++ sep :: b) sep = a :: Split b sep := by
  induction a with
  | nil => simp [Split]
  | cons x t ih =>
    simp only [List.mem_cons, not_or] at h
    rw [List.cons_append, Split_cons, if_neg (fun hb => h.1 hb.symm), ih h.2]

/-- The number of pieces is one more than the number of separators. -/
theorem Split_length (s : Bytes) (sep : Nat) : (Split s sep).length = s.count sep + 1 := by
  induction s with
  | nil => simp [Split]
  | cons b t ih =>
    unfold Split
    by_cases hb : b = sep
    · subst hb
      simp [ih]
    · rw [if_neg hb]
      have hc : (b :: t).count sep = t.count sep := by
        rw [List.count_cons]
        simp [hb]
      rw [hc, ← ih]
      split
      · next p ps heq => simp [heq]
      · next heq => exact absurd heq (Split_ne_nil t sep)

/-! ## base64 -/

theorem encodeURLChar_isURLChar (n : Nat) : IsURLChar (encodeURLChar n) := by
  unfold encodeURLChar IsURLChar
  split_ifs <;> omega

theorem decode_encodeURLChar (n : Nat) (h : n < 64) :
    decodeURLChar (encodeURLChar n) = some n := by
  have hall : ∀ k < 64, decodeURLChar (encodeURLChar k) = some k := by decide
  exact hall n h

theorem base64Encode_isURLChar (bs : Bytes) : ∀ c ∈ base64Encode bs, IsURLChar c := by
  induction bs using base64Encode.induct with
  | case1 a b c rest ih =>
    intro x hx
    rw [base64Encode] at hx
    simp only [List.mem_cons] at hx
    rcases hx with h | h | h | h | h
    · exact h ▸ encodeURLChar_isURLChar _
    · exact h ▸ encodeURLChar_isURLChar _
    · exact h ▸ encodeURLChar_isURLChar _
    · exact h ▸ encodeURLChar_isURLChar _
    · exact ih x h
  | case2 a b =>
    intro x hx
    simp only [base64Encode, List.mem_cons, List.mem_singleton, List.not_mem_nil, or_false] at hx
    rcases hx with h | h | h <;> exact h ▸ encodeURLChar_isURLChar _
  | case3 a =>
    intro x hx
    simp only [base64Encode, List.mem_cons, List.mem_singleton, List.not_mem_nil, or_false] at hx
    rcases hx with h | h <;> exact h ▸ encodeURLChar_isURLChar _
  | case4 => simp [base64Encode]

/-- The encoded text has no `.`: a segment of a token never contains the
separator. -/
theorem dot_not_mem_base64Encode (bs : Bytes) : 0x2E ∉ base64Encode bs := by
  intro h
  have := base64Encode_isURLChar bs _ h
  unfold IsURLChar at this
  omega

theorem base64DecodeQuanta_encode (bs : Bytes) (hwf : WellFormed bs) :
    base64DecodeQuanta (base64Encode bs) = some bs := by
  induction bs using base64Encode.induct with
  | case1 a b c rest ih =>
    have ha : a < 256 := hwf a (by simp)
    have hb : b < 256 := hwf b (by simp)
    have hc : c < 256 := hwf c (by simp)
    have hrest : WellFormed rest := fun x hx => hwf x (by simp [hx])
    rw [base64Encode, base64DecodeQuanta]
    rw [decode_encodeURLChar _ (Nat.mod_lt _ (by norm_num)),
      decode_encodeURLChar _ (Nat.mod_lt _ (by norm_num)),
      decode_encodeURLChar _ (Nat.mod_lt _ (by norm_num)),
      decode_encodeURLChar _ (Nat.mod_lt _ (by norm_num)), ih hrest]
    simp only [Option.some.injEq, List.cons.injEq, and_true]
    refine ⟨?_, ?_, ?_⟩ <;> omega
  | case2 a b =>
    have ha : a < 256 := hwf a (by simp)
    have hb : b < 256 := hwf b (by simp)
    rw [base64Encode, base64DecodeQuanta]
    rw [decode_encodeURLChar _ (Nat.mod_lt _ (by norm_num)),
      decode_encodeURLChar _ (Nat.mod_lt _ (by norm_num)),
      decode_encodeURLChar _ (Nat.mod_lt _ (by norm_num))]
    simp only [Option.some.injEq, List.cons.injEq, and_true]
    refine ⟨?_, ?_⟩ <;> omega
  | case3 a =>
    have ha : a < 256 := hwf a (by simp)
    rw [base64Encode, base64DecodeQuanta]
    rw [decode_encodeURLChar _ (Nat.mod_lt _ (by norm_num)),
      decode_encodeURLChar _ (Nat.mod_lt _ (by norm_num))]
    simp only [Option.some.injEq, List.cons.injEq, and_true]
    omega
  | case4 => simp [base64Encode, base64DecodeQuanta]

/-- Decoding inverts encoding on byte strings. -/
theorem base64Decode_encode (bs : Bytes) (hwf : WellFormed bs) :
    base64Decode (base64Encode bs) = some bs := by
  unfold base64Decode
  have hf : (base64Encode bs).filter (fun c => decide (c ≠ 10 ∧ c ≠ 13)) = base64Encode bs := by
    rw [List.filter_eq_self]
    intro c hc
    have := base64Encode_isURLChar bs c hc
    unfold IsURLChar at this
    simp only [ne_eq, decide_eq_true_eq]
    omega
  rw [hf]
  exact base64DecodeQuanta_encode bs hwf

/-! ## UTF-8 -/

theorem decodeRune_cases (b : Nat) (t : Bytes) (hb : 0x80 ≤ b) :
    decodeRune (b :: t) = (RuneError, 1) ∨
      ∃ r tl rest, RuneAt b t r tl rest := by
  by_cases h1 : b < 0xC2
  · left
    simp only [decodeRune]
    rw [if_neg (by omega), if_pos h1]
  by_cases h2 : b < 0xE0
  · cases t with
    | nil =>
      left
      simp only [decodeRune]
      rw [if_neg (by omega), if_neg h1, if_pos h2]
    | cons b1 t1 =>
      by_cases hc : 0x80 ≤ b1 ∧ b1 ≤ 0xBF
      · right
        refine ⟨(b % 32) * 64 + b1 % 64, [b1], t1, rfl, by simp, ?_, ?_, ?_, ?_⟩
        · intro Y
          simp only [decodeRune, List.singleton_append, List.length_singleton]
          rw [if_neg (by omega), if_neg h1, if_pos h2, if_pos hc]
        · unfold encodeRune
          rw [if_neg (by omega), if_pos (by omega)]
          simp only [List.cons.injEq, and_true]
          omega
        · intro x hx
          simp only [List.mem_cons, List.mem_singleton, List.not_mem_nil, or_false] at hx
          rcases hx with rfl | rfl <;> omega
        · omega
      · left
        simp only [decodeRune]
        rw [if_neg (by omega), if_neg h1, if_pos h2, if_neg hc]
  by_cases h3 : b < 0xF0
  · by_cases hc : ∃ b1 b2 t2, t = b1 :: b2 :: t2 ∧
        (if b = 0xE0 then 0xA0 else 0x80) ≤ b1 ∧ b1 ≤ (if b = 0xED then 0x9F else 0xBF)
          ∧ 0x80 ≤ b2 ∧ b2 ≤ 0xBF
    · obtain ⟨b1, b2, t2, rfl, hc⟩ := hc
      right
      have hc' := hc
      refine ⟨(b % 16) * 4096 + (b1 % 64) * 64 + b2 % 64, [b1, b2], t2, rfl, by simp, ?_, ?_, ?_, ?_⟩
      · intro Y
        simp only [decodeRune, List.cons_append, List.nil_append, List.length_cons,
          List.length_nil]
        rw [if_neg (by omega), if_neg h1, if_neg h2, if_pos h3, if_pos hc]
      · unfold encodeRune
        split_ifs at hc' <;>
        · rw [if_neg (by omega), if_neg (by omega), if_neg (by omega), if_pos (by omega)]
          simp only [List.cons.injEq, and_true]
          omega
      · intro x hx
        simp only [List.mem_cons, List.mem_singleton, List.not_mem_nil, or_false] at hx
        split_ifs at hc' <;> rcases hx with rfl | rfl | rfl <;> omega
      · split_ifs at hc' <;> omega
    · left
      simp only [decodeRune]
      rw [if_neg (by omega), if_neg h1, if_neg h2, if_pos h3]
      split
      · next b1 b2 t2 =>
        rw [if_neg]
        intro hcc
        exact hc ⟨b1, b2, t2, rfl, hcc⟩
      · rfl
  by_cases h4 : b < 0xF5
  · by_cases hc : ∃ b1 b2 b3 t3, t = b1 :: b2 :: b3 :: t3 ∧
        (if b = 0xF0 then 0x90 else 0x80) ≤ b1 ∧ b1 ≤ (if b = 0xF4 then 0x8F else 0xBF)
          ∧ 0x80 ≤ b2 ∧ b2 ≤ 0xBF ∧ 0x80 ≤ b3 ∧ b3 ≤ 0xBF
    · obtain ⟨b1, b2, b3, t3, rfl, hc⟩ := hc
      right
      have hc' := hc
      refine ⟨(b % 8) * 262144 + (b1 % 64) * 4096 + (b2 % 64) * 64 + b3 % 64, [b1, b2, b3], t3,
        rfl, by simp, ?_, ?_, ?_, ?_⟩
      · intro Y
        simp only [decodeRune, List.cons_append, List.nil_append, List.length_cons,
          List.length_nil]
        rw [if_neg (by omega), if_neg h1, if_neg h2, if_neg h3, if_pos h4, if_pos hc]
      · unfold encodeRune
        split_ifs at hc' <;>
        · rw [if_neg (by omega), if_neg (by omega), if_neg (by omega), if_neg (by omega)]
          simp only [List.cons.injEq, and_true]
          omega
      · intro x hx
        simp only [List.mem_cons, List.mem_singleton, List.not_mem_nil, or_false] at hx
        split_ifs at hc' <;> rcases hx with rfl | rfl | rfl | rfl <;> omega
      · split_ifs at hc' <;> omega
    · left
      simp only [decodeRune]
      rw [if_neg (by omega), if_neg h1, if_neg h2, if_neg h3, if_pos h4]
      split
      · next b1 b2 b3 t3 =>
        rw [if_neg]
        intro hcc
        exact hc ⟨b1, b2, b3, t3, rfl, hcc⟩
      · rfl
  · left
    simp only [decodeRune]
    rw [if_neg (by omega), if_neg h1, if_neg h2, if_neg h3, if_neg h4]

theorem decodeRune_ascii (b : Nat) (t : Bytes) (hb : b < 0x80) : decodeRune (b :: t) = (b, 1) := by
  simp only [decodeRune]
  rw [if_pos hb]

/-! ## JSON strings: the decoder inverts the encoder -/

theorem prepend_some (p a b : Bytes) : prepend p (some (a, b)) = some (p ++ a, b) := rfl

theorem unquoteAux_cons (fuel c : Nat) (t : Bytes) :
    unquoteAux (fuel + 1) (c :: t) =
    if c = 0x22 then some ([], t)
    else if c = 0x5C then
      match t with
      | [] => none
      | e :: t1 =>
        if e = 0x75 then
          match getu4 (c :: e :: t1) with
          | none => none
          | some rr =>
            if 0xD800 ≤ rr ∧ rr < 0xE000 then
              match getu4 (t1.drop 4) with
              | some rr1 =>
                if rr < 0xDC00 ∧ 0xDC00 ≤ rr1 ∧ rr1 < 0xE000 then
                  prepend (encodeRune ((rr - 0xD800) * 1024 + (rr1 - 0xDC00) + 0x10000))
                    (unquoteAux fuel (t1.drop 10))
                else prepend (encodeRune RuneError) (unquoteAux fuel (t1.drop 4))
              | none => prepend (encodeRune RuneError) (unquoteAux fuel (t1.drop 4))
            else prepend (encodeRune rr) (unquoteAux fuel (t1.drop 4))
        else
          match simpleEscape e with
          | some b => prepend [b] (unquoteAux fuel t1)
          | none => none
    else if c < 0x20 then none
    else if c < 0x80 then prepend [c] (unquoteAux fuel t)
    else
      let d := decodeRune (c :: t)
      prepend (encodeRune d.1) (unquoteAux fuel (t.drop (d.2 - 1))) := by
  rfl

/-- One step of the decoder on the encoding of one ASCII byte. -/
theorem unquoteAux_ascii (b : Nat) (hb : b < 0x80) (fuel : Nat) (Z : Bytes) :
    unquoteAux (fuel + 1) ((if needsEscape b then escapeByte b else [b]) ++ Z) =
      prepend [b] (unquoteAux fuel Z) := by
  by_cases hne : needsEscape b = true
  · rw [if_pos hne]
    simp only [needsEscape, decide_eq_true_eq] at hne
    have hcases : b < 0x20 ∨ b = 0x22 ∨ b = 0x26 ∨ b = 0x3C ∨ b = 0x3E ∨ b = 0x5C := hne
    rcases hcases with h | rfl | rfl | rfl | rfl | rfl
    · interval_cases b <;>
        simp [escapeByte, unquoteAux_cons, getu4, hexVal, hexDigit, simpleEscape, encodeRune]
    all_goals
      simp [escapeByte, unquoteAux_cons, getu4, hexVal, hexDigit, simpleEscape, encodeRune]
  · rw [if_neg hne]
    simp only [needsEscape, decide_eq_true_eq, not_or] at hne
    rw [List.singleton_append, unquoteAux_cons, if_neg hne.2.1, if_neg hne.2.2.2.2.2,
      if_neg hne.1, if_pos hb]

theorem take_succ_append (b : Nat) (tl rest : Bytes) :
    (b :: (tl ++ rest)).take (tl.length + 1) = b :: tl := by
  simp

/-- The decoder reads back what the encoder wrote for a valid UTF-8 string. -/
theorem unquoteAux_appendStringAux (fuel : Nat) :
    ∀ s : Bytes, validStringAux fuel s = true → s.length ≤ fuel →
      ∀ fuel' rest, (appendStringAux fuel s).length + 1 ≤ fuel' →
        unquoteAux fuel' (appendStringAux fuel s ++ 0x22 :: rest) = some (s, rest) := by
  induction fuel with
  | zero =>
    intro s _ hlen fuel' rest hf
    have hs : s = [] := List.length_eq_zero.mp (Nat.le_zero.mp hlen)
    subst hs
    obtain ⟨f, rfl⟩ : ∃ f, fuel' = f + 1 := ⟨fuel' - 1, by omega⟩
    simp [appendStringAux, unquoteAux_cons]
  | succ fuel ih =>
    intro s hv hlen fuel' rest hf
    cases s with
    | nil =>
      obtain ⟨f, rfl⟩ : ∃ f, fuel' = f + 1 := ⟨fuel' - 1, by omega⟩
      simp [appendStringAux, unquoteAux_cons]
    | cons b t =>
      simp only [List.length_cons, Nat.add_le_add_iff_right] at hlen
      by_cases hb : b < 0x80
      · have hd := decodeRune_ascii b t hb
        have hRE : RuneError = 65533 := rfl
        have hv' : validStringAux fuel t = true := by
          simp only [validStringAux, hd] at hv
          rw [if_neg (by omega)] at hv
          simpa using hv
        have happ : appendStringAux (fuel + 1) (b :: t) =
            (if needsEscape b then escapeByte b else [b]) ++ appendStringAux fuel t := by
          simp only [appendStringAux]
          rw [if_pos hb]
        rw [happ] at hf ⊢
        obtain ⟨f, rfl⟩ : ∃ f, fuel' = f + 1 := ⟨fuel' - 1, by omega⟩
        have hE : 1 ≤ (if needsEscape b then escapeByte b else [b]).length := by
          unfold escapeByte
          split_ifs <;> simp
        rw [List.length_append] at hf
        rw [List.append_assoc, unquoteAux_ascii b hb, ih t hv' hlen f rest (by omega)]
        rfl
      · have hb' : 0x80 ≤ b := by omega
        rcases decodeRune_cases b t hb' with herr | ⟨r, tl, rest0, hr⟩
        · simp [validStringAux, herr] at hv
        · have hd : decodeRune (b :: t) = (r, tl.length + 1) := by
            rw [hr.split]
            exact hr.decode rest0
          have hl := hr.len
          have hRE : RuneError = 65533 := rfl
          have hdrop : t.drop (tl.length + 1 - 1) = rest0 := by
            rw [hr.split]
            simp
          have hv' : validStringAux fuel rest0 = true := by
            simp only [validStringAux, hd] at hv
            rw [if_neg (by omega), hdrop] at hv
            exact hv
          have hlen' : rest0.length ≤ fuel := by
            have := congrArg List.length hr.split
            rw [List.length_append] at this
            omega
          have hb22 : ¬ b = 0x22 := by omega
          have hb5c : ¬ b = 0x5C := by omega
          have hb20 : ¬ b < 0x20 := by omega
          obtain ⟨f, rfl⟩ : ∃ f, fuel' = f + 1 := ⟨fuel' - 1, by omega⟩
          by_cases hls : r = 0x2028 ∨ r = 0x2029
          · have happ : appendStringAux (fuel + 1) (b :: t) =
                [0x5C, 0x75, 0x32, 0x30, 0x32, hexDigit (r % 16)] ++ appendStringAux fuel rest0 := by
              simp only [appendStringAux, hd]
              rw [if_neg hb, if_neg (by omega), if_pos hls, hdrop]
            rw [happ] at hf ⊢
            simp only [List.length_append, List.length_cons, List.length_nil] at hf
            have hget : ∀ Y, getu4 (0x5C :: 0x75 :: 0x32 :: 0x30 :: 0x32 :: hexDigit (r % 16) :: Y)
                = some r := by
              intro Y
              rcases hls with rfl | rfl <;> simp [getu4, hexVal, hexDigit]
            simp only [List.cons_append, List.nil_append]
            rw [unquoteAux_cons]
            simp only [Nat.reduceEqDiff, ↓reduceIte, hget]
            rw [if_neg (by rcases hls with rfl | rfl <;> omega)]
            simp only [List.drop_succ_cons, List.drop_zero]
            rw [ih rest0 hv' hlen' f rest (by omega), prepend_some, hr.encode, hr.split]
            simp
          · have happ : appendStringAux (fuel + 1) (b :: t) =
                (b :: tl) ++ appendStringAux fuel rest0 := by
              simp only [appendStringAux, hd]
              rw [if_neg hb, if_neg (by omega), if_neg hls, hdrop, hr.split, take_succ_append]
            rw [happ] at hf ⊢
            simp only [List.length_append, List.length_cons] at hf
            simp only [List.cons_append, List.append_assoc]
            rw [unquoteAux_cons, if_neg hb22, if_neg hb5c, if_neg hb20, if_neg hb]
            simp only [hr.decode, Nat.add_sub_cancel, List.drop_left]
            rw [ih rest0 hv' hlen' f rest (by have := hr.len; omega), prepend_some, hr.encode,
              hr.split]
            simp

/-- `unquote` reads back `appendString` (after its opening quote). -/
theorem unquote_appendString (s : Bytes) (hv : validString s = true) (rest : Bytes) :
    unquote (appendStringAux s.length s ++ 0x22 :: rest) = some (s, rest) := by
  unfold unquote
  apply unquoteAux_appendStringAux s.length s hv (Nat.le_refl _)
  simp

/-! ## The encoder writes bytes -/

theorem WellFormed_append {a b : Bytes} (ha : WellFormed a) (hb : WellFormed b) :
    WellFormed (a ++ b) := by
  intro x hx
  rcases List.mem_append.mp hx with h | h
  · exact ha x h
  · exact hb x h

theorem WellFormed_cons {a : Nat} {b : Bytes} (ha : a < 256) (hb : WellFormed b) :
    WellFormed (a :: b) := by
  intro x hx
  rcases List.mem_cons.mp hx with h | h
  · exact h ▸ ha
  · exact hb x h

theorem WellFormed_nil : WellFormed [] := by
  intro x hx
  simp at hx

theorem WellFormed_appendStringAux (fuel : Nat) : ∀ s, WellFormed (appendStringAux fuel s) := by
  induction fuel with
  | zero => intro s; simp [appendStringAux, WellFormed]
  | succ fuel ih =>
    intro s
    cases s with
    | nil => simp [appendStringAux, WellFormed]
    | cons b t =>
      by_cases hb : b < 0x80
      · simp only [appendStringAux]
        rw [if_pos hb]
        apply WellFormed_append _ (ih t)
        intro x hx
        unfold escapeByte hexDigit at hx
        split_ifs at hx <;>
          simp only [List.mem_cons, List.mem_singleton, List.not_mem_nil, or_false] at hx <;>
          omega
      · rcases decodeRune_cases b t (by omega) with herr | ⟨r, tl, rest0, hr⟩
        · simp only [appendStringAux, herr, and_self, ↓reduceIte]
          rw [if_neg hb]
          apply WellFormed_append _ (ih t)
          intro x hx
          simp only [List.mem_cons, List.mem_singleton, List.not_mem_nil, or_false] at hx
          omega
        · have hd : decodeRune (b :: t) = (r, tl.length + 1) := by
            rw [hr.split]
            exact hr.decode rest0
          have hl := hr.len
          simp only [appendStringAux, hd]
          rw [if_neg hb, if_neg (by omega)]
          split_ifs with hls
          · apply WellFormed_append _ (ih _)
            intro x hx
            unfold hexDigit at hx
            split_ifs at hx <;>
              simp only [List.mem_cons, List.mem_singleton, List.not_mem_nil, or_false] at hx <;>
              omega
          · apply WellFormed_append _ (ih _)
            rw [hr.split, take_succ_append]
            intro x hx
            exact (hr.bytes x hx).2

theorem WellFormed_appendString (s : Bytes) : WellFormed (appendString s) := by
  unfold appendString
  exact WellFormed_cons (by norm_num)
    (WellFormed_append (WellFormed_appendStringAux _ s) (WellFormed_cons (by norm_num) WellFormed_nil))

/-! ## Integers: `ParseInt` inverts `AppendInt` -/

theorem natDigitsAux_eq (fuel : Nat) :
    ∀ n acc, n < fuel → 0 < n →
      natDigitsAux fuel n acc = ((Nat.digits 10 n).map (· + 48)).reverse ++ acc := by
  induction fuel with
  | zero => intro n acc h; omega
  | succ fuel ih =>
    intro n acc hlt hpos
    rw [natDigitsAux]
    rw [Nat.digits_def' (by norm_num) hpos]
    split_ifs with h10
    · have hdiv : n / 10 = 0 := by omega
      have hmod : n % 10 = n := by omega
      simp [hdiv, hmod, Nat.add_comm]
    · rw [ih (n / 10) _ (by omega) (by omega)]
      simp [Nat.add_comm]

theorem natDigits_eq (n : Nat) :
    natDigits n = if n = 0 then [48] else ((Nat.digits 10 n).map (· + 48)).reverse := by
  unfold natDigits
  split_ifs with h0
  · subst h0
    rfl
  · rw [natDigitsAux_eq (n + 1) n [] (by omega) (by omega)]
    simp

theorem natDigits_digit (n : Nat) : ∀ c ∈ natDigits n, 48 ≤ c ∧ c ≤ 57 := by
  intro c hc
  rw [natDigits_eq] at hc
  split_ifs at hc with h0
  · simp only [List.mem_singleton] at hc
    omega
  · simp only [List.mem_reverse, List.mem_map] at hc
    obtain ⟨d, hd, rfl⟩ := hc
    have := Nat.digits_lt_base (by norm_num : 1 < 10) hd
    omega

theorem natDigits_head (n : Nat) :
    ∃ c tl, natDigits n = c :: tl ∧ 48 ≤ c ∧ c ≤ 57 ∧ (c = 48 → tl = []) := by
  rw [natDigits_eq]
  split_ifs with h0
  · exact ⟨48, [], rfl, by omega, by omega, fun _ => rfl⟩
  · have hne : Nat.digits 10 n ≠ [] := Nat.digits_ne_nil_iff_ne_zero.mpr h0
    have hlast := Nat.getLast_digit_ne_zero 10 h0
    have hmem := List.getLast_mem hne
    have hlt := Nat.digits_lt_base (by norm_num : 1 < 10) hmem
    have hrev : ((Nat.digits 10 n).map (· + 48)).reverse =
        ((Nat.digits 10 n).getLast hne + 48) :: ((Nat.digits 10 n).dropLast.map (· + 48)).reverse := by
      conv_lhs => rw [← List.dropLast_append_getLast hne]
      simp
    refine ⟨_, _, hrev, by omega, by omega, ?_⟩
    intro h
    omega

theorem foldr_digits (L : List Nat) :
    (L.map (· + 48)).foldr (fun c acc => acc * 10 + (c - 48)) 0 = Nat.ofDigits 10 L := by
  induction L with
  | nil => simp
  | cons d L ih =>
    simp only [List.map_cons, List.foldr_cons, ih, Nat.ofDigits_cons]
    simp only [Nat.cast_id, Nat.add_sub_cancel]
    ring

theorem natDigits_foldl (n : Nat) :
    (natDigits n).foldl (fun acc c => acc * 10 + (c - 48)) 0 = n := by
  rw [natDigits_eq]
  split_ifs with h0
  · simp [h0]
  · rw [List.foldl_reverse, foldr_digits, Nat.ofDigits_digits]

theorem spanDigits_cons (c : Nat) (t : Bytes) :
    spanDigits (c :: t) =
      if isDigit c then ((c :: (spanDigits t).1), (spanDigits t).2) else ([], c :: t) := by
  rfl

theorem spanDigits_append (a : Bytes) (ha : ∀ c ∈ a, 48 ≤ c ∧ c ≤ 57) (c : Nat)
    (hc : isDigit c = false) (rest : Bytes) :
    spanDigits (a ++ c :: rest) = (a, c :: rest) := by
  induction a with
  | nil =>
    rw [List.nil_append, spanDigits_cons, hc]
    rfl
  | cons x a ih =>
    have hx : isDigit x = true := by
      have := ha x (by simp)
      simp [isDigit, this]
    rw [List.cons_append, spanDigits_cons, hx, ih (fun c hc => ha c (by simp [hc]))]
    rfl

theorem scanIntPart_natDigits (n : Nat) (c : Nat) (hc : isDigit c = false) (rest : Bytes) :
    scanIntPart (natDigits n ++ c :: rest) = some (natDigits n, c :: rest) := by
  obtain ⟨d, tl, hd, h1, h2, h3⟩ := natDigits_head n
  have hall := natDigits_digit n
  rw [hd] at hall ⊢
  rw [List.cons_append]
  unfold scanIntPart
  by_cases h0 : d = 48
  · rw [h3 h0, h0]
    simp
  · simp only []
    rw [if_neg h0, if_pos (by omega), spanDigits_append tl (fun x hx => hall x (by simp [hx])) c hc]

theorem scanNumber_nat (n : Nat) (c : Nat) (hc : c = 0x2C ∨ c = 0x7D) (rest : Bytes) :
    scanNumber (natDigits n ++ c :: rest) = some (natDigits n, c :: rest) := by
  have hcd : isDigit c = false := by
    rcases hc with rfl | rfl <;> decide
  obtain ⟨d, tl, hd, h1, h2, -⟩ := natDigits_head n
  have hhead : (natDigits n ++ c :: rest).head? = some d := by rw [hd]; rfl
  unfold scanNumber
  rw [hhead]
  have hneg : (some d = some 0x2D) = False := by
    simp only [Option.some.injEq, eq_iff_iff, iff_false]
    omega
  simp only [hneg, ↓reduceIte, scanIntPart_natDigits n c hcd rest, decide_False,
    Bool.false_eq_true]
  rcases hc with rfl | rfl <;> simp [scanFraction, scanExponent]

theorem scanNumber_itoa (n : Int) (c : Nat) (hc : c = 0x2C ∨ c = 0x7D) (rest : Bytes) :
    scanNumber (itoa n ++ c :: rest) = some (itoa n, c :: rest) := by
  unfold itoa
  split_ifs with hn
  · have hcd : isDigit c = false := by
      rcases hc with rfl | rfl <;> decide
    unfold scanNumber
    simp only [List.cons_append, List.head?_cons, decide_True, ↓reduceIte, List.tail_cons,
      scanIntPart_natDigits n.natAbs c hcd rest]
    rcases hc with rfl | rfl <;> simp [scanFraction, scanExponent]
  · exact scanNumber_nat _ c hc rest

theorem itoa_head (n : Int) :
    ∃ c tl, itoa n = c :: tl ∧ (c = 0x2D ∨ isDigit c = true) := by
  unfold itoa
  split_ifs with hn
  · exact ⟨_, _, rfl, Or.inl rfl⟩
  · obtain ⟨d, tl, hd, h1, h2, -⟩ := natDigits_head n.natAbs
    exact ⟨d, tl, hd, Or.inr (by simp [isDigit, h1, h2])⟩

theorem all_isDigit_natDigits (n : Nat) : (natDigits n).all isDigit = true := by
  rw [List.all_eq_true]
  intro c hc
  have := natDigits_digit n c hc
  simp [isDigit, this]

theorem parseInt64_itoa (n : Int) (hn : IsInt64 n) : parseInt64 (itoa n) = some n := by
  unfold IsInt64 at hn
  obtain ⟨d, tl, hd, h1, h2, -⟩ := natDigits_head n.natAbs
  have hne : natDigits n.natAbs ≠ [] := by rw [hd]; simp
  unfold itoa
  split_ifs with hneg
  · unfold parseInt64
    simp only [List.head?_cons, true_or, ↓reduceIte, List.tail_cons, hne,
      all_isDigit_natDigits, not_true_eq_false, or_self, natDigits_foldl, decide_True]
    have : -(n.natAbs : Int) = n := by omega
    rw [this, if_pos hn]
  · unfold parseInt64
    have hhead : (natDigits n.natAbs).head? = some d := by rw [hd]; rfl
    have h45 : (some d = some 45) = False := by
      simp only [Option.some.injEq, eq_iff_iff, iff_false]; omega
    have h43 : (some d = some 43) = False := by
      simp only [Option.some.injEq, eq_iff_iff, iff_false]; omega
    simp only [hhead, h45, h43, or_self, ↓reduceIte, hne, all_isDigit_natDigits,
      not_true_eq_false, natDigits_foldl, decide_False, Bool.false_eq_true]
    have : (n.natAbs : Int) = n := by omega
    rw [this, if_pos hn]

theorem WellFormed_itoa (n : Int) : WellFormed (itoa n) := by
  intro x hx
  unfold itoa at hx
  split_ifs at hx
  · rcases List.mem_cons.mp hx with h | h
    · omega
    · have := natDigits_digit _ x h
      omega
  · have := natDigits_digit _ x hx
    omega

/-! ## Parsing what `jsonMarshal` writes -/

theorem appendString_append (s rest : Bytes) :
    appendString s ++ rest = 0x22 :: (appendStringAux s.length s ++ 0x22 :: rest) := by
  simp [appendString]

theorem skipWS_cons (c : Nat) (t : Bytes) (hc : isSpace c = false) : skipWS (c :: t) = c :: t := by
  simp [skipWS, hc]

theorem skipWS_appendString (s rest : Bytes) :
    skipWS (appendString s ++ rest) = appendString s ++ rest := by
  rw [appendString_append]
  exact skipWS_cons _ _ (by decide)

theorem skipWS_itoa (n : Int) (rest : Bytes) : skipWS (itoa n ++ rest) = itoa n ++ rest := by
  obtain ⟨c, tl, hc, h⟩ := itoa_head n
  rw [hc, List.cons_append]
  apply skipWS_cons
  rcases h with rfl | h
  · decide
  · simp only [isDigit, decide_eq_true_eq] at h
    simp only [isSpace, decide_eq_false_iff_not]
    omega

theorem parseValue_succ (fuel c : Nat) (t : Bytes) :
    parseValue (fuel + 1) (c :: t) =
    if c = 0x7B then
      match skipWS t with
      | [] => none
      | d :: r =>
        if d = 0x7D then some (.object [], r)
        else (parseMembers fuel (d :: r)).map fun x => (.object x.1, x.2)
    else if c = 0x5B then
      match skipWS t with
      | [] => none
      | d :: r =>
        if d = 0x5D then some (.array [], r)
        else (parseElems fuel (d :: r)).map fun x => (.array x.1, x.2)
    else if c = 0x22 then (unquote t).map fun x => (.string x.1, x.2)
    else if c = 0x2D ∨ isDigit c then (scanNumber (c :: t)).map fun x => (.number x.1, x.2)
    else if (c :: t).take 4 = [0x6E, 0x75, 0x6C, 0x6C] then some (.null, t.drop 3)
    else if (c :: t).take 4 = [0x74, 0x72, 0x75, 0x65] then some (.bool true, t.drop 3)
    else if (c :: t).take 5 = [0x66, 0x61, 0x6C, 0x73, 0x65] then some (.bool false, t.drop 4)
    else none := by
  conv_lhs => rw [parseValue]

theorem parseMembers_succ (fuel q : Nat) (t : Bytes) :
    parseMembers (fuel + 1) (q :: t) =
    if q = 0x22 then
      match unquote t with
      | none => none
      | some (key, r1) =>
        match skipWS r1 with
        | [] => none
        | colon :: r2 =>
          if colon = 0x3A then
            match parseValue fuel (skipWS r2) with
            | none => none
            | some (v, r3) =>
              match skipWS r3 with
              | [] => none
              | d :: r4 =>
                if d = 0x2C then
                  (parseMembers fuel (skipWS r4)).map fun x => ((key, v) :: x.1, x.2)
                else if d = 0x7D then some ([(key, v)], r4)
                else none
          else none
    else none := by
  conv_lhs => rw [parseMembers]

theorem parseElems_succ (fuel : Nat) (s : Bytes) :
    parseElems (fuel + 1) s =
    match parseValue fuel s with
    | none => none
    | some (v, r1) =>
      match skipWS r1 with
      | [] => none
      | d :: r2 =>
        if d = 0x2C then (parseElems fuel (skipWS r2)).map fun x => (v :: x.1, x.2)
        else if d = 0x5D then some ([v], r2)
        else none := by
  conv_lhs => rw [parseElems]

theorem parseValue_string (fuel : Nat) (s : Bytes) (hv : validString s = true) (rest : Bytes) :
    parseValue (fuel + 1) (appendString s ++ rest) = some (.string s, rest) := by
  rw [appendString_append, parseValue_succ]
  simp only [Nat.reduceEqDiff, ↓reduceIte, unquote_appendString s hv rest, Option.map_some']

theorem parseValue_number (fuel : Nat) (n : Int) (c : Nat) (hc : c = 0x2C ∨ c = 0x7D)
    (rest : Bytes) :
    parseValue (fuel + 1) (itoa n ++ c :: rest) = some (.number (itoa n), c :: rest) := by
  have hscan := scanNumber_itoa n c hc rest
  obtain ⟨d, tl, hd, h⟩ := itoa_head n
  rw [hd, List.cons_append] at hscan ⊢
  have h7b : ¬ d = 0x7B := by
    rcases h with rfl | h
    · decide
    · simp only [isDigit, decide_eq_true_eq] at h; omega
  have h5b : ¬ d = 0x5B := by
    rcases h with rfl | h
    · decide
    · simp only [isDigit, decide_eq_true_eq] at h; omega
  have h22 : ¬ d = 0x22 := by
    rcases h with rfl | h
    · decide
    · simp only [isDigit, decide_eq_true_eq] at h; omega
  rw [parseValue_succ, if_neg h7b, if_neg h5b, if_neg h22, if_pos h, hscan]
  rfl

theorem parseValue_array_one (fuel : Nat) (a : Bytes) (ha : validString a = true) (rest : Bytes) :
    parseValue (fuel + 3) (0x5B :: (appendString a ++ 0x5D :: rest)) =
      some (.array [.string a], rest) := by
  rw [parseValue_succ]
  simp only [Nat.reduceEqDiff, ↓reduceIte, skipWS_appendString]
  rw [appendString_append]
  simp only [Nat.reduceEqDiff, ↓reduceIte]
  rw [← appendString_append, parseElems_succ, parseValue_string fuel a ha]
  simp [skipWS, isSpace]

theorem parseMembers_comma (fuel : Nat) (key : Bytes) (hk : validString key = true)
    (V rest : Bytes) (v : JValue) (hV0 : skipWS V = V)
    (hV : parseValue fuel V = some (v, 0x2C :: rest)) (hr : skipWS rest = rest) :
    parseMembers (fuel + 1) (appendString key ++ 0x3A :: V) =
      (parseMembers fuel rest).map fun x => ((key, v) :: x.1, x.2) := by
  rw [appendString_append, parseMembers_succ]
  simp only [↓reduceIte, unquote_appendString key hk]
  rw [skipWS_cons _ _ (by decide)]
  simp only [↓reduceIte, hV0, hV]
  rw [skipWS_cons _ _ (by decide)]
  simp only [↓reduceIte, hr]

theorem parseMembers_last (fuel : Nat) (key : Bytes) (hk : validString key = true)
    (V rest : Bytes) (v : JValue) (hV0 : skipWS V = V)
    (hV : parseValue fuel V = some (v, 0x7D :: rest)) :
    parseMembers (fuel + 1) (appendString key ++ 0x3A :: V) = some ([(key, v)], rest) := by
  rw [appendString_append, parseMembers_succ]
  simp only [↓reduceIte, unquote_appendString key hk]
  rw [skipWS_cons _ _ (by decide)]
  simp only [↓reduceIte, hV0, hV]
  rw [skipWS_cons _ _ (by decide)]
  simp only [Nat.reduceEqDiff, ↓reduceIte]

/-- The members `jsonMarshal` writes, parsed. -/
theorem parseMembers_jsonMarshal (k : Nat) (sub iss a : Bytes) (e i u : Int)
    (hs : validString sub = true) (hi : validString iss = true) (ha : validString a = true) :
    parseMembers (k + 8)
      (appendString [0x73, 0x75, 0x62] ++ 0x3A ::
      (appendString sub ++ 0x2C ::
      (appendString [0x65, 0x78, 0x70] ++ 0x3A ::
      (itoa e ++ 0x2C ::
      (appendString [0x69, 0x61, 0x74] ++ 0x3A ::
      (itoa i ++ 0x2C ::
      (appendString [0x69, 0x73, 0x73] ++ 0x3A ::
      (appendString iss ++ 0x2C ::
      (appendString [0x61, 0x75, 0x64] ++ 0x3A ::
      (0x5B ::
      (appendString a ++ 0x5D :: 0x2C ::
      (appendString [0x75, 0x73, 0x65, 0x72, 0x49, 0x64] ++ 0x3A ::
      (itoa u ++ [0x7D]))))))))))))) =
    some ([([0x73, 0x75, 0x62], .string sub), ([0x65, 0x78, 0x70], .number (itoa e)),
      ([0x69, 0x61, 0x74], .number (itoa i)), ([0x69, 0x73, 0x73], .string iss),
      ([0x61, 0x75, 0x64], .array [.string a]),
      ([0x75, 0x73, 0x65, 0x72, 0x49, 0x64], .number (itoa u))], []) := by
  have h6 := parseMembers_last (k + 2) [0x75, 0x73, 0x65, 0x72, 0x49, 0x64] (by decide)
    (itoa u ++ [0x7D]) [] (.number (itoa u)) (skipWS_itoa _ _)
    (parseValue_number (k + 1) u 0x7D (Or.inr rfl) [])
  have h5 := parseMembers_comma (k + 3) [0x61, 0x75, 0x64] (by decide)
    (0x5B :: (appendString a ++ 0x5D :: 0x2C :: (appendString [0x75, 0x73, 0x65, 0x72, 0x49, 0x64] ++ 0x3A :: (itoa u ++ [0x7D]))))
    (appendString [0x75, 0x73, 0x65, 0x72, 0x49, 0x64] ++ 0x3A :: (itoa u ++ [0x7D])) (.array [.string a]) (skipWS_cons _ _ (by decide))
    (parseValue_array_one k a ha _) (skipWS_appendString _ _)
  rw [h6, Option.map_some'] at h5
  have h4 := parseMembers_comma (k + 4) [0x69, 0x73, 0x73] (by decide)
    (appendString iss ++ 0x2C :: (appendString [0x61, 0x75, 0x64] ++ 0x3A :: (0x5B :: (appendString a ++ 0x5D :: 0x2C :: (appendString [0x75, 0x73, 0x65, 0x72, 0x49, 0x64] ++ 0x3A :: (itoa u ++ [0x7D]))))))
    (appendString [0x61, 0x75, 0x64] ++ 0x3A :: (0x5B :: (appendString a ++ 0x5D :: 0x2C :: (appendString [0x75, 0x73, 0x65, 0x72, 0x49, 0x64] ++ 0x3A :: (itoa u ++ [0x7D]))))) (.string iss) (skipWS_appendString _ _)
    (parseValue_string (k + 3) iss hi _) (skipWS_appendString _ _)
  rw [h5, Option.map_some'] at h4
  have h3 := parseMembers_comma (k + 5) [0x69, 0x61, 0x74] (by decide)
    (itoa i ++ 0x2C :: (appendString [0x69, 0x73, 0x73] ++ 0x3A :: (appendString iss ++ 0x2C :: (appendString [0x61, 0x75, 0x64] ++ 0x3A :: (0x5B :: (appendString a ++ 0x5D :: 0x2C :: (appendString [0x75, 0x73, 0x65, 0x72, 0x49, 0x64] ++ 0x3A :: (itoa u ++ [0x7D]))))))))
    (appendString [0x69, 0x73, 0x73] ++ 0x3A :: (appendString iss ++ 0x2C :: (appendString [0x61, 0x75, 0x64] ++ 0x3A :: (0x5B :: (appendString a ++ 0x5D :: 0x2C :: (appendString [0x75, 0x73, 0x65, 0x72, 0x49, 0x64] ++ 0x3A :: (itoa u ++ [0x7D]))))))) (.number (itoa i)) (skipWS_itoa _ _)
    (parseValue_number (k + 4) i 0x2C (Or.inl rfl) _) (skipWS_appendString _ _)
  rw [h4, Option.map_some'] at h3
  have h2 := parseMembers_comma (k + 6) [0x65, 0x78, 0x70] (by decide)
    (itoa e ++ 0x2C :: (appendString [0x69, 0x61, 0x74] ++ 0x3A :: (itoa i ++ 0x2C :: (appendString [0x69, 0x73, 0x73] ++ 0x3A :: (appendString iss ++ 0x2C :: (appendString [0x61, 0x75, 0x64] ++ 0x3A :: (0x5B :: (appendString a ++ 0x5D :: 0x2C :: (appendString [0x75, 0x73, 0x65, 0x72, 0x49, 0x64] ++ 0x3A :: (itoa u ++ [0x7D]))))))))))
    (appendString [0x69, 0x61, 0x74] ++ 0x3A :: (itoa i ++ 0x2C :: (appendString [0x69, 0x73, 0x73] ++ 0x3A :: (appendString iss ++ 0x2C :: (appendString [0x61, 0x75, 0x64] ++ 0x3A :: (0x5B :: (appendString a ++ 0x5D :: 0x2C :: (appendString [0x75, 0x73, 0x65, 0x72, 0x49, 0x64] ++ 0x3A :: (itoa u ++ [0x7D]))))))))) (.number (itoa e)) (skipWS_itoa _ _)
    (parseValue_number (k + 5) e 0x2C (Or.inl rfl) _) (skipWS_appendString _ _)
  rw [h3, Option.map_some'] at h2
  have h1 := parseMembers_comma (k + 7) [0x73, 0x75, 0x62] (by decide)
    (appendString sub ++ 0x2C :: (appendString [0x65, 0x78, 0x70] ++ 0x3A :: (itoa e ++ 0x2C :: (appendString [0x69, 0x61, 0x74] ++ 0x3A :: (itoa i ++ 0x2C :: (appendString [0x69, 0x73, 0x73] ++ 0x3A :: (appendString iss ++ 0x2C :: (appendString [0x61, 0x75, 0x64] ++ 0x3A :: (0x5B :: (appendString a ++ 0x5D :: 0x2C :: (appendString [0x75, 0x73, 0x65, 0x72, 0x49, 0x64] ++ 0x3A :: (itoa u ++ [0x7D]))))))))))))
    (appendString [0x65, 0x78, 0x70] ++ 0x3A :: (itoa e ++ 0x2C :: (appendString [0x69, 0x61, 0x74] ++ 0x3A :: (itoa i ++ 0x2C :: (appendString [0x69, 0x73, 0x73] ++ 0x3A :: (appendString iss ++ 0x2C :: (appendString [0x61, 0x75, 0x64] ++ 0x3A :: (0x5B :: (appendString a ++ 0x5D :: 0x2C :: (appendString [0x75, 0x73, 0x65, 0x72, 0x49, 0x64] ++ 0x3A :: (itoa u ++ [0x7D]))))))))))) (.string sub) (skipWS_appendString _ _)
    (parseValue_string (k + 6) sub hs _) (skipWS_appendString _ _)
  rw [h2, Option.map_some'] at h1
  exact h1

/-- The text `jsonMarshal` writes for a payload with a one-element audience. -/
theorem jsonMarshal_eq (p : tokenPayload) (a : Bytes) (ha : p.Audience = some [a]) :
    jsonMarshal p = 0x7B ::
      (appendString [0x73, 0x75, 0x62] ++ 0x3A ::
      (appendString p.Subject ++ 0x2C ::
      (appendString [0x65, 0x78, 0x70] ++ 0x3A ::
      (itoa p.ExpiresAt ++ 0x2C ::
      (appendString [0x69, 0x61, 0x74] ++ 0x3A ::
      (itoa p.IssuedAt ++ 0x2C ::
      (appendString [0x69, 0x73, 0x73] ++ 0x3A ::
      (appendString p.Issuer ++ 0x2C ::
      (appendString [0x61, 0x75, 0x64] ++ 0x3A ::
      (0x5B ::
      (appendString a ++ 0x5D :: 0x2C ::
      (appendString [0x75, 0x73, 0x65, 0x72, 0x49, 0x64] ++ 0x3A ::
      (itoa p.UserID ++ [0x7D]))))))))))))) := by
  have k1 : appendString [0x73, 0x75, 0x62] = [0x22, 0x73, 0x75, 0x62, 0x22] := by decide
  have k2 : appendString [0x65, 0x78, 0x70] = [0x22, 0x65, 0x78, 0x70, 0x22] := by decide
  have k3 : appendString [0x69, 0x61, 0x74] = [0x22, 0x69, 0x61, 0x74, 0x22] := by decide
  have k4 : appendString [0x69, 0x73, 0x73] = [0x22, 0x69, 0x73, 0x73, 0x22] := by decide
  have k5 : appendString [0x61, 0x75, 0x64] = [0x22, 0x61, 0x75, 0x64, 0x22] := by decide
  have k6 : appendString [0x75, 0x73, 0x65, 0x72, 0x49, 0x64] =
      [0x22, 0x75, 0x73, 0x65, 0x72, 0x49, 0x64, 0x22] := by decide
  rw [k1, k2, k3, k4, k5, k6]
  unfold jsonMarshal
  rw [ha]
  simp only [marshalStrings, List.append_assoc, List.cons_append, List.nil_append]

theorem assignMembers_jsonMarshal (sub iss a : Bytes) (e i u : Int)
    (he : IsInt64 e) (hi : IsInt64 i) (hu : IsInt64 u) :
    assignMembers zeroPayload
      [([0x73, 0x75, 0x62], .string sub), ([0x65, 0x78, 0x70], .number (itoa e)),
      ([0x69, 0x61, 0x74], .number (itoa i)), ([0x69, 0x73, 0x73], .string iss),
      ([0x61, 0x75, 0x64], .array [.string a]),
      ([0x75, 0x73, 0x65, 0x72, 0x49, 0x64], .number (itoa u))] =
    some ⟨sub, e, i, iss, some [a], u⟩ := by
  have f1 : findField [0x73, 0x75, 0x62] = some .Subject := by decide
  have f2 : findField [0x65, 0x78, 0x70] = some .ExpiresAt := by decide
  have f3 : findField [0x69, 0x61, 0x74] = some .IssuedAt := by decide
  have f4 : findField [0x69, 0x73, 0x73] = some .Issuer := by decide
  have f5 : findField [0x61, 0x75, 0x64] = some .Audience := by decide
  have f6 : findField [0x75, 0x73, 0x65, 0x72, 0x49, 0x64] = some .UserID := by decide
  simp only [assignMembers, f1, f2, f3, f4, f5, f6, assignField, parseInt64_itoa _ he,
    parseInt64_itoa _ hi, parseInt64_itoa _ hu, Option.map_some', zeroPayload, decodeStrings,
    Option.getD_none, List.tail_nil]

/-- `json.Unmarshal` reads back what `json.Marshal` wrote, for a payload whose
strings are valid UTF-8 and whose audience has one element. -/
theorem jsonUnmarshal_jsonMarshal (p : tokenPayload) (a : Bytes)
    (hs : validString p.Subject = true) (hi : validString p.Issuer = true)
    (ha : p.Audience = some [a]) (hva : validString a = true)
    (he : IsInt64 p.ExpiresAt) (hiat : IsInt64 p.IssuedAt) (hu : IsInt64 p.UserID) :
    jsonUnmarshal (jsonMarshal p) = some p := by
  have hJ := jsonMarshal_eq p a ha
  have hlen : 9 ≤ (jsonMarshal p).length := by
    rw [hJ]
    simp [appendString]
    omega
  obtain ⟨k, hk⟩ : ∃ k, (jsonMarshal p).length + 1 = k + 9 := ⟨(jsonMarshal p).length - 8, by omega⟩
  have hmem := parseMembers_jsonMarshal k p.Subject p.Issuer a p.ExpiresAt p.IssuedAt p.UserID
    hs hi hva
  unfold jsonUnmarshal parseJSON
  rw [hk, hJ, skipWS_cons _ _ (by decide), parseValue_succ]
  simp only [↓reduceIte, skipWS_appendString]
  rw [appendString_append]
  simp only [Nat.reduceEqDiff, ↓reduceIte]
  rw [← appendString_append, hmem]
  simp only [Option.map_some', skipWS, ↓reduceIte]
  rw [assignMembers_jsonMarshal _ _ _ _ _ _ he hiat hu]
  cases p
  simp only at ha
  rw [ha]

theorem WellFormed_jsonMarshal (p : tokenPayload) (a : Bytes) (ha : p.Audience = some [a]) :
    WellFormed (jsonMarshal p) := by
  rw [jsonMarshal_eq p a ha]
  have c : ∀ n : Nat, n < 256 → ∀ l, WellFormed l → WellFormed (n :: l) :=
    fun n hn l hl => WellFormed_cons hn hl
  have s : ∀ x l, WellFormed l → WellFormed (appendString x ++ l) :=
    fun x l hl => WellFormed_append (WellFormed_appendString x) hl
  have n : ∀ x l, WellFormed l → WellFormed (itoa x ++ l) :=
    fun x l hl => WellFormed_append (WellFormed_itoa x) hl
  refine c _ (by norm_num) _ (s _ _ (c _ (by norm_num) _ (s _ _ (c _ (by norm_num) _
    (s _ _ (c _ (by norm_num) _ (n _ _ (c _ (by norm_num) _ (s _ _ (c _ (by norm_num) _
    (n _ _ (c _ (by norm_num) _ (s _ _ (c _ (by norm_num) _ (s _ _ (c _ (by norm_num) _
    (s _ _ (c _ (by norm_num) _ (c _ (by norm_num) _ (s _ _ (c _ (by norm_num) _
    (c _ (by norm_num) _ (s _ _ (c _ (by norm_num) _ (n _ _
    (c _ (by norm_num) _ WellFormed_nil))))))))))))))))))))))))))

/-! ## Tokens -/

theorem Split_three (a b c : Bytes) (ha : 0x2E ∉ a) (hb : 0x2E ∉ b) (hc : 0x2E ∉ c) :
    Split (a ++ 0x2E :: (b ++ 0x2E :: c)) 0x2E = [a, b, c] := by
  rw [Split_append a _ _ ha, Split_append b _ _ hb, Split_of_not_mem c _ hc]

theorem ParseToken_of_parts (tokenString secret : Bytes) (now : Int) (part0 part1 part2 : Bytes)
    (h : Split tokenString 0x2E = [part0, part1, part2]) :
    ParseToken tokenString secret now =
      if !secureCompare (sign (part0 ++ 0x2E :: part1) secret) part2 then .error .InvalidSignature
      else
        match base64Decode part1 with
        | none => .error .InvalidPayload
        | some payloadBytes =>
          match jsonUnmarshal payloadBytes with
          | none => .error .InvalidPayload
          | some payload =>
            if payload.ExpiresAt < unix now then .error .Expired
            else if payload.Subject = [] ∨ payload.UserID = 0 then .error .InvalidClaims
            else .ok (payload.UserID, payload.Subject) := by
  unfold ParseToken
  rw [h]

theorem ParseToken_of_length_ne (tokenString secret : Bytes) (now : Int)
    (h : (Split tokenString 0x2E).length ≠ 3) :
    ParseToken tokenString secret now = .error .MalformedToken := by
  unfold ParseToken
  split
  · next p0 p1 p2 heq =>
    rw [heq] at h
    simp at h
  · rfl

/-- With three parts and a signature that does not match, the result is
`InvalidSignature`; with one that matches it is never `InvalidSignature`. -/
theorem ParseToken_invalidSignature_iff (tokenString secret : Bytes) (now : Int)
    (part0 part1 part2 : Bytes) (h : Split tokenString 0x2E = [part0, part1, part2]) :
    ParseToken tokenString secret now = .error .InvalidSignature ↔
      sign (part0 ++ 0x2E :: part1) secret ≠ part2 := by
  rw [ParseToken_of_parts _ _ _ _ _ _ h, Ne, ← secureCompare_iff]
  cases secureCompare (sign (part0 ++ 0x2E :: part1) secret) part2 with
  | false => simp
  | true =>
    simp only [Bool.not_true, Bool.false_eq_true, ↓reduceIte, not_true_eq_false, iff_false]
    cases base64Decode part1 with
    | none => simp
    | some payloadBytes =>
      simp only []
      cases jsonUnmarshal payloadBytes with
      | none => simp
      | some payload =>
        simp only []
        split_ifs <;> simp

/-- What `ParseToken` returns for a token whose signature is valid and whose
claims decode. -/
theorem ParseToken_of_DecodesTo (tokenString secret : Bytes) (payload : tokenPayload) (now : Int)
    (h : DecodesTo tokenString secret payload) :
    ParseToken tokenString secret now =
      if payload.ExpiresAt < unix now then .error .Expired
      else if payload.Subject = [] ∨ payload.UserID = 0 then .error .InvalidClaims
      else .ok (payload.UserID, payload.Subject) := by
  obtain ⟨part0, part1, part2, payloadBytes, hsplit, hsig, hb64, hjson⟩ := h
  rw [ParseToken_of_parts _ _ _ _ _ _ hsplit, hsig, hb64]
  simp only [Bool.not_true, Bool.false_eq_true, ↓reduceIte, hjson]

theorem dot_not_mem_headerPart : 0x2E ∉ headerPart := dot_not_mem_base64Encode _

theorem dot_not_mem_payloadPart (p : tokenPayload) : 0x2E ∉ payloadPart p :=
  dot_not_mem_base64Encode _

theorem dot_not_mem_sign (data secret : Bytes) : 0x2E ∉ sign data secret :=
  dot_not_mem_base64Encode _

/-- The three segments of the token `GenerateToken` returns. -/
theorem GenerateToken_eq (userID : Int) (email secret : Bytes) (ttl now1 now2 : Int) :
    GenerateToken userID email secret ttl now1 now2 =
      headerPart ++ 0x2E :: (payloadPart (newPayload userID email ttl now1 now2) ++ 0x2E ::
        sign (signingInput (newPayload userID email ttl now1 now2)) secret) := by
  simp [GenerateToken, signingInput]

theorem Split_GenerateToken (userID : Int) (email secret : Bytes) (ttl now1 now2 : Int) :
    Split (GenerateToken userID email secret ttl now1 now2) 0x2E =
      [headerPart, payloadPart (newPayload userID email ttl now1 now2),
        sign (signingInput (newPayload userID email ttl now1 now2)) secret] := by
  rw [GenerateToken_eq]
  exact Split_three _ _ _ dot_not_mem_headerPart (dot_not_mem_payloadPart _)
    (dot_not_mem_sign _ _)

theorem validString_issuer : validString (ascii "fullstack-go-api") = true := by decide

/-- The claims of a generated token decode to the payload it was built from. -/
theorem decode_payloadPart (userID : Int) (email : Bytes) (ttl now1 now2 : Int)
    (hutf8 : validString email = true) (hid : IsInt64 userID)
    (hexp : IsInt64 (unix (now1 + ttl))) (hiat : IsInt64 (unix now2)) :
    ∃ payloadBytes, base64Decode (payloadPart (newPayload userID email ttl now1 now2)) =
        some payloadBytes ∧
      jsonUnmarshal payloadBytes = some (newPayload userID email ttl now1 now2) := by
  refine ⟨jsonMarshal (newPayload userID email ttl now1 now2), ?_, ?_⟩
  · exact base64Decode_encode _ (WellFormed_jsonMarshal _ _ rfl)
  · exact jsonUnmarshal_jsonMarshal _ (ascii "fullstack-go-api") hutf8 validString_issuer rfl
      validString_issuer hexp hiat hid

/-- A generated token has a valid signature for any secret that signs its
signing input like the issuing secret, and its claims decode. -/
theorem GenerateToken_DecodesTo (userID : Int) (email s1 s2 : Bytes) (ttl now1 now2 : Int)
    (hutf8 : validString email = true) (hid : IsInt64 userID)
    (hexp : IsInt64 (unix (now1 + ttl))) (hiat : IsInt64 (unix now2))
    (hsig : sign (signingInput (newPayload userID email ttl now1 now2)) s2 =
      sign (signingInput (newPayload userID email ttl now1 now2)) s1) :
    DecodesTo (GenerateToken userID email s1 ttl now1 now2) s2
      (newPayload userID email ttl now1 now2) := by
  obtain ⟨payloadBytes, hb64, hjson⟩ := decode_payloadPart userID email ttl now1 now2 hutf8 hid
    hexp hiat
  refine ⟨_, _, _, payloadBytes, Split_GenerateToken _ _ _ _ _ _, ?_, hb64, hjson⟩
  rw [secureCompare_iff]
  exact hsig

theorem unix_mono (a b : Int) (h : a ≤ b) : unix a ≤ unix b := by
  unfold unix
  exact Int.ediv_le_ediv (by norm_num) h

theorem hmacSHA256_congr (k1 k2 data : Bytes) (h : hmacKeyBlock k1 = hmacKeyBlock k2) :
    hmacSHA256 k1 data = hmacSHA256 k2 data := by
  unfold hmacSHA256
  rw [h]

theorem sign_congr (k1 k2 data : Bytes) (h : hmacKeyBlock k1 = hmacKeyBlock k2) :
    sign data k1 = sign data k2 := by
  unfold sign
  rw [hmacSHA256_congr k1 k2 data h]

theorem ParseToken_congr (tokenString k1 k2 : Bytes) (now : Int)
    (h : hmacKeyBlock k1 = hmacKeyBlock k2) :
    ParseToken tokenString k1 now = ParseToken tokenString k2 now := by
  unfold ParseToken
  split
  · next p0 p1 p2 heq => rw [sign_congr k1 k2 _ h]
  · rfl

/-- What `ParseToken` returns, under the issuing secret, for a token that
`GenerateToken` issued for a valid UTF-8 email. -/
theorem ParseToken_GenerateToken (userID : Int) (email secret : Bytes) (ttl t0 t0' now : Int)
    (hutf8 : validString email = true) (hid : IsInt64 userID)
    (hexp : IsInt64 (unix (t0 + ttl))) (hiat : IsInt64 (unix t0')) :
    ParseToken (GenerateToken userID email secret ttl t0 t0') secret now =
      if unix (t0 + ttl) < unix now then .error .Expired
      else if email = [] ∨ userID = 0 then .error .InvalidClaims
      else .ok (userID, email) :=
  ParseToken_of_DecodesTo _ _ _ now
    (GenerateToken_DecodesTo userID email secret secret ttl t0 t0' hutf8 hid hexp hiat rfl)

/-- The model of `GenerateToken` gives, for user 1, `ada@x.com`, the secret
`secret`, one hour and the clock at 1700000000 s, the token that HS256 gives. -/
theorem GenerateToken_example :
    GenerateToken 1 (ascii "ada@x.com") (ascii "secret") 3600000000000 1700000000000000000
        1700000000000000000 =
      ascii ("eyJhbGciOiJIUzI1NiIsInR5cCI6IkpXVCJ9." ++
        "eyJzdWIiOiJhZGFAeC5jb20iLCJleHAiOjE3MDAwMDM2MDAsImlhdCI6MTcwMDAwMDAwMCwiaXNzIjoiZnVsbHN0YWNrLWdvLWFwaSIsImF1ZCI6WyJmdWxsc3RhY2stZ28tYXBpIl0sInVzZXJJZCI6MX0." ++
        "7gXBKhoLBJ7LHeaDmzuxh8PFKxbbuDmrGbuFdC4Iy_Y") := by
  set_option maxRecDepth 1000000 in decide

/-! ## The claims on tokens -/

/-- C1: for every non-zero `userID`, every non-empty valid UTF-8 `email`, every
`secret` and every `ttl`, the token `GenerateToken` returns at the instant `t0`
is accepted by `ParseToken` under the same secret at every instant `t` whose
Unix second is not past the claims' `expiresAt` (so at every `t < t0 + ttl`),
and `ParseToken` returns exactly `(userID, email)`.  `IsInt64` states that an
integer is a value of Go's `int`/`int64`. -/
theorem parseToken_generateToken_roundtrip (userID : Int) (email secret : Bytes)
    (ttl t0 t0' t : Int) (huser : userID ≠ 0) (hemail : email ≠ [])
    (hutf8 : validString email = true) (hid : IsInt64 userID)
    (hexp : IsInt64 (unix (t0 + ttl))) (hiat : IsInt64 (unix t0'))
    (ht : unix t ≤ unix (t0 + ttl)) :
    ParseToken (GenerateToken userID email secret ttl t0 t0') secret t = .ok (userID, email) := by
  rw [ParseToken_GenerateToken userID email secret ttl t0 t0' t hutf8 hid hexp hiat,
    if_neg (by omega), if_neg (by simp [hemail, huser])]

/-- C1, the scenario of the spec: a token issued for `(1, "ada@x.com")` with the
secret `"secret"` and one hour to live is accepted thirty minutes later. -/
theorem parseToken_generateToken_roundtrip_witness :
    ParseToken
        (GenerateToken 1 (ascii "ada@x.com") (ascii "secret") 3600000000000
          1700000000000000000 1700000000000000000)
        (ascii "secret") (1700000000000000000 + 1800000000000) =
      .ok (1, ascii "ada@x.com") :=
  parseToken_generateToken_roundtrip 1 (ascii "ada@x.com") (ascii "secret") 3600000000000
    1700000000000000000 1700000000000000000 (1700000000000000000 + 1800000000000)
    (by decide) (by decide) (by decide) (by decide) (by decide) (by decide) (by decide)

/-- C2, as stated, fails: a token issued with `ttl = 0` and parsed at the very
instant of issue is not rejected as expired; `ParseToken` returns its claims. -/
theorem parseToken_ttl_zero_accepted :
    ParseToken
        (GenerateToken 1 (ascii "ada@x.com") (ascii "secret") 0 1700000000000000000
          1700000000000000000)
        (ascii "secret") 1700000000000000000 =
      .ok (1, ascii "ada@x.com") := by
  rw [ParseToken_GenerateToken 1 (ascii "ada@x.com") (ascii "secret") 0 1700000000000000000
    1700000000000000000 1700000000000000000 (by decide) (by decide) (by decide) (by decide)]
  decide

/-- C2, amended: a token whose signature is valid for the secret and whose claims
decode is rejected with `Expired` exactly when the Unix second of the current
instant is strictly greater than the claims' `expiresAt`; within the second
equal to `expiresAt` the expiry check passes.  For a token of `GenerateToken`
that is the case exactly when `unix now` is past `unix (t0 + ttl)`, and it is
the case at the instant of issue and at any later one when `ttl` is minus one
second or less. -/
theorem parseToken_expired_iff (userID : Int) (email secret : Bytes) (ttl t0 t0' now : Int)
    (hutf8 : validString email = true) (hid : IsInt64 userID)
    (hexp : IsInt64 (unix (t0 + ttl))) (hiat : IsInt64 (unix t0')) :
    (∀ tokenString payload, DecodesTo tokenString secret payload →
      (ParseToken tokenString secret now = .error .Expired ↔ payload.ExpiresAt < unix now)) ∧
    (ParseToken (GenerateToken userID email secret ttl t0 t0') secret now = .error .Expired ↔
      unix (t0 + ttl) < unix now) ∧
    (ttl ≤ -1000000000 → t0 ≤ now →
      ParseToken (GenerateToken userID email secret ttl t0 t0') secret now = .error .Expired) := by
  have hgen : ∀ tokenString payload, DecodesTo tokenString secret payload →
      (ParseToken tokenString secret now = .error .Expired ↔ payload.ExpiresAt < unix now) := by
    intro tokenString payload hdec
    rw [ParseToken_of_DecodesTo _ _ _ now hdec]
    split_ifs <;> simp [*]
  have hd := GenerateToken_DecodesTo userID email secret secret ttl t0 t0' hutf8 hid hexp hiat rfl
  refine ⟨hgen, hgen _ _ hd, ?_⟩
  intro httl hnow
  rw [hgen _ _ hd]
  have h1 : unix (t0 + ttl) ≤ unix (t0 - 1000000000) := unix_mono _ _ (by omega)
  have h2 : unix t0 ≤ unix now := unix_mono _ _ hnow
  have h3 : unix (t0 - 1000000000) = unix t0 - 1 := by
    unfold unix
    omega
  show unix (t0 + ttl) < unix now
  omega

/-- C2, amended, at concrete inputs: a token with one hour to live is rejected as
expired two hours after issue, and a token issued with `ttl` of minus one
second is rejected at the instant of issue. -/
theorem parseToken_expired_iff_witness :
    ParseToken
        (GenerateToken 1 (ascii "ada@x.com") (ascii "secret") 3600000000000
          1700000000000000000 1700000000000000000)
        (ascii "secret") (1700000000000000000 + 7200000000000) = .error .Expired ∧
    ParseToken
        (GenerateToken 1 (ascii "ada@x.com") (ascii "secret") (-1000000000)
          1700000000000000000 1700000000000000000)
        (ascii "secret") 1700000000000000000 = .error .Expired :=
  ⟨(parseToken_expired_iff 1 (ascii "ada@x.com") (ascii "secret") 3600000000000
      1700000000000000000 1700000000000000000 (1700000000000000000 + 7200000000000)
      (by decide) (by decide) (by decide) (by decide)).2.1.2 (by decide),
   (parseToken_expired_iff 1 (ascii "ada@x.com") (ascii "secret") (-1000000000)
      1700000000000000000 1700000000000000000 1700000000000000000
      (by decide) (by decide) (by decide) (by decide)).2.2 (by decide) (by decide)⟩

theorem hmacKeyBlock_secret_zero :
    hmacKeyBlock (ascii "secret" ++ [0]) = hmacKeyBlock (ascii "secret") := by decide

/-- C3, as stated, fails: `"secret"` followed by a zero byte is a different
secret, yet `ParseToken` under it accepts a token issued under `"secret"`: HMAC
pads a key shorter than its 64-byte block with zero bytes, so both secrets give
the same signature. -/
theorem parseToken_zero_padded_secret_accepted :
    ascii "secret" ++ [0] ≠ ascii "secret" ∧
    ParseToken
        (GenerateToken 1 (ascii "ada@x.com") (ascii "secret") 3600000000000
          1700000000000000000 1700000000000000000)
        (ascii "secret" ++ [0]) 1700000000000000000 =
      .ok (1, ascii "ada@x.com") := by
  refine ⟨by decide, ?_⟩
  rw [ParseToken_congr _ _ _ _ hmacKeyBlock_secret_zero,
    ParseToken_GenerateToken 1 (ascii "ada@x.com") (ascii "secret") 3600000000000
      1700000000000000000 1700000000000000000 1700000000000000000 (by decide) (by decide)
      (by decide) (by decide)]
  decide

/-- C3, amended: for a token issued by `GenerateToken` under the secret `s1` and
any secret `s2`, `ParseToken` under `s2` fails with `InvalidSignature` exactly
when `sign`, the base64url of HMAC-SHA256, gives for the token's signing input
under `s2` a signature other than the one under `s1`.  Two secrets with the same
HMAC key block (the secret, hashed when longer than 64 bytes, padded with zero
bytes to 64) are not told apart: `ParseToken` returns the same under both. -/
theorem parseToken_wrong_secret (userID : Int) (email s1 s2 : Bytes) (ttl t0 t0' now : Int) :
    (ParseToken (GenerateToken userID email s1 ttl t0 t0') s2 now = .error .InvalidSignature ↔
      sign (signingInput (newPayload userID email ttl t0 t0')) s2 ≠
        sign (signingInput (newPayload userID email ttl t0 t0')) s1) ∧
    (hmacKeyBlock s2 = hmacKeyBlock s1 →
      ParseToken (GenerateToken userID email s1 ttl t0 t0') s2 now =
        ParseToken (GenerateToken userID email s1 ttl t0 t0') s1 now) := by
  constructor
  · rw [ParseToken_invalidSignature_iff _ _ _ _ _ _ (Split_GenerateToken _ _ _ _ _ _)]
    rfl
  · intro h
    exact ParseToken_congr _ _ _ _ h

/-- C3, amended, at concrete inputs: a token issued under `"secret"` is rejected
with `InvalidSignature` under `"secreT"`, and is treated under `"secret"`
followed by a zero byte as under `"secret"`. -/
theorem parseToken_wrong_secret_witness :
    ParseToken
        (GenerateToken 1 (ascii "ada@x.com") (ascii "secret") 3600000000000
          1700000000000000000 1700000000000000000)
        (ascii "secreT") 1700000000000000000 = .error .InvalidSignature ∧
    ParseToken
        (GenerateToken 1 (ascii "ada@x.com") (ascii "secret") 3600000000000
          1700000000000000000 1700000000000000000)
        (ascii "secret" ++ [0]) 1700000000000000000 =
      ParseToken
        (GenerateToken 1 (ascii "ada@x.com") (ascii "secret") 3600000000000
          1700000000000000000 1700000000000000000)
        (ascii "secret") 1700000000000000000 :=
  ⟨(parseToken_wrong_secret 1 (ascii "ada@x.com") (ascii "secret") (ascii "secreT")
      3600000000000 1700000000000000000 1700000000000000000 1700000000000000000).1.2
      (by set_option maxRecDepth 1000000 in decide),
   (parseToken_wrong_secret 1 (ascii "ada@x.com") (ascii "secret") (ascii "secret" ++ [0])
      3600000000000 1700000000000000000 1700000000000000000 1700000000000000000).2
      (by decide)⟩

/-! ### Tampering with the claims segment -/

theorem count_dot_set (P : Bytes) (i x : Nat) (hP : 0x2E ∉ P) (hx : P[i]? = some x) :
    (P.set i 0x2E).count 0x2E = 1 := by
  obtain ⟨hi, hget⟩ := List.getElem?_eq_some.mp hx
  rw [List.count_set _ _ _ _ hi, List.count_eq_zero_of_not_mem hP]
  simp

theorem dot_not_mem_set (P : Bytes) (i c : Nat) (hP : 0x2E ∉ P) (hc : c ≠ 0x2E) :
    0x2E ∉ P.set i c := by
  intro h
  rcases List.mem_or_eq_of_mem_set h with h | h
  · exact hP h
  · exact hc h.symm

/-- C4, as stated, fails: in a token of `GenerateToken`, replacing the first
character of the claims segment, `e`, by `.` makes `ParseToken` fail with
`MalformedToken`, not with `InvalidSignature`: the token then has four parts. -/
theorem parseToken_tampered_dot_malformed :
    (payloadPart (newPayload 1 (ascii "ada@x.com") 3600000000000 1700000000000000000
      1700000000000000000))[0]? = some 0x65 ∧
    GenerateToken 1 (ascii "ada@x.com") (ascii "secret") 3600000000000 1700000000000000000
        1700000000000000000 =
      tamperClaims headerPart
        (payloadPart (newPayload 1 (ascii "ada@x.com") 3600000000000 1700000000000000000
          1700000000000000000))
        (sign (signingInput (newPayload 1 (ascii "ada@x.com") 3600000000000
          1700000000000000000 1700000000000000000)) (ascii "secret")) 0 0x65 ∧
    ParseToken
        (tamperClaims headerPart
          (payloadPart (newPayload 1 (ascii "ada@x.com") 3600000000000 1700000000000000000
            1700000000000000000))
          (sign (signingInput (newPayload 1 (ascii "ada@x.com") 3600000000000
            1700000000000000000 1700000000000000000)) (ascii "secret")) 0 0x2E)
        (ascii "secret") 1700000000000000000 =
      .error .MalformedToken := by
  set_option maxRecDepth 1000000 in decide

/-- C4, amended: in a token of `GenerateToken`, replacing the character at a
position of the claims segment by `.` makes `ParseToken` under the issuing
secret fail with `MalformedToken`; replacing it by any other character makes
`ParseToken` fail with `InvalidSignature` exactly when `sign` gives for the
altered signing input a signature other than the token's, and then with no
other result. -/
theorem parseToken_tampered_claims (userID : Int) (email secret : Bytes) (ttl t0 t0' now : Int)
    (i c x : Nat) (hx : (payloadPart (newPayload userID email ttl t0 t0'))[i]? = some x) :
    (c = 0x2E →
      ParseToken
          (tamperClaims headerPart (payloadPart (newPayload userID email ttl t0 t0'))
            (sign (signingInput (newPayload userID email ttl t0 t0')) secret) i c)
          secret now = .error .MalformedToken) ∧
    (c ≠ 0x2E →
      (ParseToken
          (tamperClaims headerPart (payloadPart (newPayload userID email ttl t0 t0'))
            (sign (signingInput (newPayload userID email ttl t0 t0')) secret) i c)
          secret now = .error .InvalidSignature ↔
        sign (headerPart ++ 0x2E :: (payloadPart (newPayload userID email ttl t0 t0')).set i c)
            secret ≠
          sign (signingInput (newPayload userID email ttl t0 t0')) secret)) := by
  constructor
  · intro hc
    subst hc
    apply ParseToken_of_length_ne
    rw [Split_length]
    unfold tamperClaims
    have h0 := List.count_eq_zero_of_not_mem dot_not_mem_headerPart
    have h1 := count_dot_set _ i x (dot_not_mem_payloadPart _) hx
    have h2 := List.count_eq_zero_of_not_mem
      (dot_not_mem_sign (signingInput (newPayload userID email ttl t0 t0')) secret)
    simp only [List.count_append, List.count_cons_self, h0, h1, h2]
    omega
  · intro hc
    have hsplit := Split_three _ _ _ dot_not_mem_headerPart
      (dot_not_mem_set _ i c (dot_not_mem_payloadPart (newPayload userID email ttl t0 t0')) hc)
      (dot_not_mem_sign (signingInput (newPayload userID email ttl t0 t0')) secret)
    exact ParseToken_invalidSignature_iff _ secret now _ _ _ hsplit

/-- C4, amended, at concrete inputs: with the first character of the claims
segment replaced by `.` the result is `MalformedToken`, with it replaced by `f`
the result is `InvalidSignature`. -/
theorem parseToken_tampered_claims_witness :
    ParseToken
        (tamperClaims headerPart
          (payloadPart (newPayload 1 (ascii "ada@x.com") 3600000000000 1700000000000000000
            1700000000000000000))
          (sign (signingInput (newPayload 1 (ascii "ada@x.com") 3600000000000
            1700000000000000000 1700000000000000000)) (ascii "secret")) 0 0x2E)
        (ascii "secret") 1700000000000000000 = .error .MalformedToken ∧
    ParseToken
        (tamperClaims headerPart
          (payloadPart (newPayload 1 (ascii "ada@x.com") 3600000000000 1700000000000000000
            1700000000000000000))
          (sign (signingInput (newPayload 1 (ascii "ada@x.com") 3600000000000
            1700000000000000000 1700000000000000000)) (ascii "secret")) 0 0x66)
        (ascii "secret") 1700000000000000000 = .error .InvalidSignature :=
  ⟨(parseToken_tampered_claims 1 (ascii "ada@x.com") (ascii "secret") 3600000000000
      1700000000000000000 1700000000000000000 1700000000000000000 0 0x2E 0x65
      (by set_option maxRecDepth 1000000 in decide)).1 rfl,
   ((parseToken_tampered_claims 1 (ascii "ada@x.com") (ascii "secret") 3600000000000
      1700000000000000000 1700000000000000000 1700000000000000000 0 0x66 0x65
      (by set_option maxRecDepth 1000000 in decide)).2 (by decide)).2
      (by set_option maxRecDepth 1000000 in decide)⟩

/-! ## The store -/

theorem mapSet_same {κ ν : Type} [DecidableEq κ] (m : κ → Option ν) (k : κ) (v : ν) :
    mapSet m k v k = some v := by
  simp [mapSet]

theorem mapSet_other {κ ν : Type} [DecidableEq κ] (m : κ → Option ν) (k j : κ) (v : ν)
    (h : j ≠ k) : mapSet m k v j = m j := by
  simp [mapSet, h]

theorem mapDelete_same {κ ν : Type} [DecidableEq κ] (m : κ → Option ν) (k : κ) :
    mapDelete m k k = none := by
  simp [mapDelete]

theorem mapDelete_other {κ ν : Type} [DecidableEq κ] (m : κ → Option ν) (k j : κ)
    (h : j ≠ k) : mapDelete m k j = m j := by
  simp [mapDelete, h]

/-- Induction over the reachable states. -/
theorem Reachable.induction (L : CaseFolding) (P : Store → Prop) (hnew : P New)
    (hstep : ∀ s c, P s → P (Call.run L s c)) : ∀ s, Reachable L s → P s := by
  have hfold : ∀ (calls : List Call) (s0 : Store), P s0 → P (calls.foldl (Call.run L) s0) := by
    intro calls
    induction calls with
    | nil => intro s0 h; exact h
    | cons c cs ih =>
      intro s0 h
      exact ih _ (hstep s0 c h)
  rintro s ⟨calls, rfl⟩
  exact hfold calls New hnew

theorem Reachable.run (L : CaseFolding) (s : Store) (c : Call) (h : Reachable L s) :
    Reachable L (Call.run L s c) := by
  obtain ⟨calls, rfl⟩ := h
  exact ⟨calls ++ [c], by simp [runCalls]⟩

/-- What `CreateUser` does, by whether the key is indexed. -/
theorem CreateUser_eq (L : CaseFolding) (s : Store) (user : User) (now : Int) :
    CreateUser L s user now =
      if s.byMail (L.ToLower user.Email) ≠ none then ((zeroUser, some .ErrEmailExists), s)
      else
        (({ user with ID := s.nextID, CreatedAt := now, UpdatedAt := now }, none),
          ⟨mapSet s.users s.nextID { user with ID := s.nextID, CreatedAt := now, UpdatedAt := now },
            mapSet s.byMail (L.ToLower user.Email) s.nextID, s.nextID + 1⟩) := by
  unfold CreateUser
  dsimp only
  cases h : s.byMail (L.ToLower user.Email) <;> simp

/-- What `UpdateUser` does for an existing account and a mutate function that
returns a candidate. -/
theorem UpdateUser_eq (L : CaseFolding) (s : Store) (id : Int)
    (fn : User → User × Option StoreError) (now : Int) (old cand : User)
    (hold : s.users id = some old) (hfn : fn old = (cand, none)) :
    UpdateUser L s id fn now =
      if L.EqualFold old.Email cand.Email = true then
        ((storedUpdate old cand now, none),
          ⟨mapSet s.users id (storedUpdate old cand now), s.byMail, s.nextID⟩)
      else if indexedByOther s.byMail (L.ToLower cand.Email) old.ID = true then
        ((zeroUser, some .ErrEmailExists), s)
      else
        ((storedUpdate old cand now, none),
          ⟨mapSet s.users id (storedUpdate old cand now),
            mapSet (mapDelete s.byMail (L.ToLower old.Email)) (L.ToLower cand.Email) old.ID,
            s.nextID⟩) := by
  unfold UpdateUser storedUpdate
  rw [hold]
  simp only [hfn]
  by_cases hfold : L.EqualFold old.Email cand.Email = true
  · simp [hfold]
  · simp [hfold]

theorem indexedByOther_iff (byMail : Bytes → Option Int) (key : Bytes) (id : Int) :
    indexedByOther byMail key id = true ↔ ∃ other, byMail key = some other ∧ other ≠ id := by
  unfold indexedByOther
  cases byMail key with
  | none => simp
  | some other => simp

/-- In a reachable state every account is stored under its own identifier. -/
theorem Reachable.users_ID (L : CaseFolding) (s : Store) (h : Reachable L s) :
    ∀ id u, s.users id = some u → u.ID = id := by
  refine Reachable.induction L (fun s => ∀ id u, s.users id = some u → u.ID = id) ?_ ?_ s h
  · intro id u hu
    simp [New] at hu
  · intro s c ih id u hu
    cases c with
    | create user now =>
      simp only [Call.run, CreateUser_eq] at hu
      split_ifs at hu with hk
      · exact ih id u hu
      · simp only [mapSet] at hu
        split_ifs at hu with hid
        · simp only [Option.some.injEq] at hu
          rw [← hu, hid]
        · exact ih id u hu
    | update uid fn now =>
      simp only [Call.run] at hu
      cases hold : s.users uid with
      | none =>
        simp only [UpdateUser, hold] at hu
        exact ih id u hu
      | some old =>
        cases hfn : fn old with
        | mk cand err =>
          cases err with
          | some e =>
            simp only [UpdateUser, hold, hfn] at hu
            exact ih id u hu
          | none =>
            rw [UpdateUser_eq L s uid fn now old cand hold hfn] at hu
            have hstored : ∀ m : Int → Option User,
                (∀ j v, m j = some v → v.ID = j) →
                mapSet m uid (storedUpdate old cand now) id = some u → u.ID = id := by
              intro m hm hset
              simp only [mapSet] at hset
              split_ifs at hset with hid
              · simp only [Option.some.injEq] at hset
                rw [← hset, hid]
                exact ih uid old hold
              · exact hm id u hset
            split_ifs at hu
            · exact hstored _ ih hu
            · exact ih id u hu
            · exact hstored _ ih hu
    | delete did =>
      simp only [Call.run, DeleteUser] at hu
      cases hold : s.users did with
      | none =>
        simp only [hold] at hu
        exact ih id u hu
      | some old =>
        simp only [hold, mapDelete] at hu
        by_cases hid : id = did
        · simp [hid] at hu
        · rw [if_neg hid] at hu
          exact ih id u hu

theorem IndexConsistent.New (L : CaseFolding) : IndexConsistent L New :=
  ⟨fun id u h => by simp [FullstackGoApi.New] at h,
   fun id u h => by simp [FullstackGoApi.New] at h,
   fun key id h => by simp [FullstackGoApi.New] at h,
   fun id u h => by simp [FullstackGoApi.New] at h⟩

theorem IndexConsistent.create (L : CaseFolding) (s : Store) (user : User) (now : Int)
    (h : IndexConsistent L s) : IndexConsistent L (CreateUser L s user now).2 := by
  rw [CreateUser_eq]
  by_cases hk : s.byMail (L.ToLower user.Email) = none
  · rw [if_neg (by simp [hk])]
    have hfresh : s.users s.nextID = none := by
      cases hu : s.users s.nextID with
      | none => rfl
      | some u => exact absurd (h.below _ _ hu) (lt_irrefl _)
    refine ⟨?_, ?_, ?_, ?_⟩
    · intro id u hu
      simp only [mapSet] at hu
      split_ifs at hu with hid
      · simp only [Option.some.injEq] at hu
        rw [← hu, hid]
      · exact h.ids id u hu
    · intro id u hu
      simp only [mapSet] at hu ⊢
      split_ifs at hu with hid
      · simp only [Option.some.injEq] at hu
        rw [← hu, hid]
        simp
      · have hidx := h.indexed id u hu
        have hne : L.ToLower u.Email ≠ L.ToLower user.Email := by
          intro heq
          rw [heq, hk] at hidx
          simp at hidx
        rw [if_neg hne]
        exact hidx
    · intro key id hkey
      simp only [mapSet] at hkey ⊢
      split_ifs at hkey with hkk
      · simp only [Option.some.injEq] at hkey
        rw [← hkey, hkk]
        simp
      · obtain ⟨u, hu, hue⟩ := h.stored key id hkey
        have hid : id ≠ s.nextID := by
          intro heq
          rw [heq, hfresh] at hu
          simp at hu
        rw [if_neg hid]
        exact ⟨u, hu, hue⟩
    · intro id u hu
      simp only [mapSet] at hu
      show id < s.nextID + 1
      split_ifs at hu with hid
      · omega
      · have := h.below id u hu
        omega
  · rw [if_pos hk]
    exact h

theorem IndexConsistent.delete (L : CaseFolding) (s : Store) (id : Int)
    (h : IndexConsistent L s) : IndexConsistent L (DeleteUser L s id).2 := by
  cases hold : s.users id with
  | none =>
    simp only [DeleteUser, hold]
    exact h
  | some old =>
    simp only [DeleteUser, hold]
    have hkey : ∀ j u, j ≠ id → s.users j = some u → L.ToLower u.Email ≠ L.ToLower old.Email := by
      intro j u hj hu heq
      have h1 := h.indexed j u hu
      have h2 := h.indexed id old hold
      rw [heq, h2] at h1
      exact hj (Option.some.inj h1).symm
    refine ⟨?_, ?_, ?_, ?_⟩
    · intro j u hu
      simp only [mapDelete] at hu
      split_ifs at hu with hj
      exact h.ids j u hu
    · intro j u hu
      simp only [mapDelete] at hu ⊢
      split_ifs at hu with hj
      rw [if_neg (hkey j u hj hu)]
      exact h.indexed j u hu
    · intro key j hkj
      simp only [mapDelete] at hkj ⊢
      split_ifs at hkj with hk
      obtain ⟨u, hu, hue⟩ := h.stored key j hkj
      have hj : j ≠ id := by
        intro heq
        rw [heq, hold] at hu
        rw [← Option.some.inj hu] at hue
        exact hk hue.symm
      rw [if_neg hj]
      exact ⟨u, hu, hue⟩
    · intro j u hu
      simp only [mapDelete] at hu
      split_ifs at hu with hj
      exact h.below j u hu

theorem IndexConsistent.update (L : CaseFolding) (hL : FoldConsistent L) (s : Store) (id : Int)
    (fn : User → User × Option StoreError) (now : Int)
    (h : IndexConsistent L s) : IndexConsistent L (UpdateUser L s id fn now).2 := by
  cases hold : s.users id with
  | none =>
    simp only [UpdateUser, hold]
    exact h
  | some old =>
    cases hfn : fn old with
    | mk cand err =>
      cases err with
      | some e =>
        simp only [UpdateUser, hold, hfn]
        exact h
      | none =>
        have hid : old.ID = id := h.ids id old hold
        have husers : ∀ j u, mapSet s.users id (storedUpdate old cand now) j = some u →
            (j = id ∧ u = storedUpdate old cand now) ∨ (j ≠ id ∧ s.users j = some u) := by
          intro j u hu
          simp only [mapSet] at hu
          split_ifs at hu with hj
          · exact Or.inl ⟨hj, (Option.some.inj hu).symm⟩
          · exact Or.inr ⟨hj, hu⟩
        have hother : ∀ j u, j ≠ id → s.users j = some u →
            L.ToLower u.Email ≠ L.ToLower old.Email := by
          intro j u hj hu heq
          have h1 := h.indexed j u hu
          have h2 := h.indexed id old hold
          rw [heq, h2] at h1
          exact hj (Option.some.inj h1).symm
        rw [UpdateUser_eq L s id fn now old cand hold hfn]
        split_ifs with hfold htaken
        · have hkeys : L.ToLower cand.Email = L.ToLower old.Email := (hL _ _ hfold).symm
          refine ⟨?_, ?_, ?_, ?_⟩
          · intro j u hu
            rcases husers j u hu with ⟨hj, rfl⟩ | ⟨hj, hu'⟩
            · rw [hj]
              exact hid
            · exact h.ids j u hu'
          · intro j u hu
            rcases husers j u hu with ⟨hj, rfl⟩ | ⟨hj, hu'⟩
            · show s.byMail (L.ToLower cand.Email) = some j
              rw [hkeys, hj]
              exact h.indexed id old hold
            · exact h.indexed j u hu'
          · intro key j hkj
            obtain ⟨u, hu, hue⟩ := h.stored key j hkj
            by_cases hj : j = id
            · refine ⟨storedUpdate old cand now, by simp [mapSet, hj], ?_⟩
              rw [hj, hold] at hu
              rw [← Option.some.inj hu] at hue
              show L.ToLower cand.Email = key
              rw [hkeys]
              exact hue
            · exact ⟨u, by simp [mapSet, hj, hu], hue⟩
          · intro j u hu
            rcases husers j u hu with ⟨hj, rfl⟩ | ⟨hj, hu'⟩
            · rw [hj]
              exact h.below id old hold
            · exact h.below j u hu'
        · exact h
        · have hfree : ∀ j, s.byMail (L.ToLower cand.Email) = some j → j = id := by
            intro j hj
            by_contra hne
            exact htaken ((indexedByOther_iff _ _ _).2 ⟨j, hj, by rw [hid]; exact hne⟩)
          refine ⟨?_, ?_, ?_, ?_⟩
          · intro j u hu
            rcases husers j u hu with ⟨hj, rfl⟩ | ⟨hj, hu'⟩
            · rw [hj]
              exact hid
            · exact h.ids j u hu'
          · intro j u hu
            rcases husers j u hu with ⟨hj, rfl⟩ | ⟨hj, hu'⟩
            · show mapSet _ (L.ToLower cand.Email) old.ID (L.ToLower cand.Email) = some j
              rw [mapSet_same, hid, hj]
            · have hne1 : L.ToLower u.Email ≠ L.ToLower cand.Email := by
                intro heq
                have h1 := h.indexed j u hu'
                rw [heq] at h1
                exact hj (hfree j h1)
              show mapSet _ (L.ToLower cand.Email) old.ID (L.ToLower u.Email) = some j
              rw [mapSet_other _ _ _ _ hne1, mapDelete_other _ _ _ (hother j u hj hu')]
              exact h.indexed j u hu'
          · intro key j hkj
            change mapSet _ (L.ToLower cand.Email) old.ID key = some j at hkj
            by_cases hk : key = L.ToLower cand.Email
            · rw [hk, mapSet_same] at hkj
              have hj : j = id := by rw [← Option.some.inj hkj, hid]
              exact ⟨storedUpdate old cand now, by simp [mapSet, hj], hk.symm⟩
            · rw [mapSet_other _ _ _ _ hk] at hkj
              by_cases hko : key = L.ToLower old.Email
              · rw [hko, mapDelete_same] at hkj
                simp at hkj
              · rw [mapDelete_other _ _ _ hko] at hkj
                obtain ⟨u, hu, hue⟩ := h.stored key j hkj
                have hj : j ≠ id := by
                  intro heq
                  rw [heq, hold] at hu
                  rw [← Option.some.inj hu] at hue
                  exact hko hue.symm
                exact ⟨u, by simp [mapSet, hj, hu], hue⟩
          · intro j u hu
            rcases husers j u hu with ⟨hj, rfl⟩ | ⟨hj, hu'⟩
            · rw [hj]
              exact h.below id old hold
            · exact h.below j u hu'

/-- When `EqualFold` and `ToLower` agree, the index and the records agree in every
reachable state. -/
theorem Reachable.indexConsistent (L : CaseFolding) (hL : FoldConsistent L) (s : Store)
    (h : Reachable L s) : IndexConsistent L s := by
  refine Reachable.induction L (IndexConsistent L) (IndexConsistent.New L) ?_ s h
  intro s c ih
  cases c with
  | create user now => exact IndexConsistent.create L s user now ih
  | update id fn now => exact IndexConsistent.update L hL s id fn now ih
  | delete id => exact IndexConsistent.delete L s id ih

/-- When `EqualFold` and `ToLower` agree, two accounts stored under different
identifiers in a reachable state have emails that are not equal for `EqualFold`
and have different `ToLower` keys. -/
theorem Reachable.emails_differ (L : CaseFolding) (hL : FoldConsistent L) (s : Store)
    (h : Reachable L s) (id1 id2 : Int) (u1 u2 : User) (hne : id1 ≠ id2)
    (h1 : s.users id1 = some u1) (h2 : s.users id2 = some u2) :
    L.ToLower u1.Email ≠ L.ToLower u2.Email ∧ L.EqualFold u1.Email u2.Email = false := by
  have hinv := Reachable.indexConsistent L hL s h
  have hkeys : L.ToLower u1.Email ≠ L.ToLower u2.Email := by
    intro heq
    have a := hinv.indexed id1 u1 h1
    have b := hinv.indexed id2 u2 h2
    rw [heq, b] at a
    exact hne (Option.some.inj a).symm
  refine ⟨hkeys, ?_⟩
  cases hf : L.EqualFold u1.Email u2.Email with
  | false => rfl
  | true => exact absurd (hL _ _ hf) hkeys

/-! ## The claims on the store -/

/-- C5, at the failing input: after registering `s@x.com`, changing that
account's email to `ſ@x.com` (equal to `s@x.com` for `strings.EqualFold`, so the
index is left alone, but with another `strings.ToLower` key) and registering
`ſ@x.com`, the accounts 1 and 2 are both stored with the email `ſ@x.com`. -/
theorem store_duplicate_email_after_fold_update :
    EqualFold (ascii "s@x.com") longSEmail = true ∧
    ToLower longSEmail ≠ ToLower (ascii "s@x.com") ∧
    (runCalls goStrings longSCalls).users 1 =
      some ⟨1, ascii "Ada", longSEmail, ascii "h", 100, 200⟩ ∧
    (runCalls goStrings longSCalls).users 2 =
      some ⟨2, ascii "Bob", longSEmail, ascii "h2", 300, 300⟩ := by
  decide

/-- C6, at the failing input: after registering `s@x.com` and changing that
account's email to `ſ@x.com`, the index still maps `s@x.com` to account 1, whose
email no longer lowercases to that key, and the key of the account's email is
not indexed. -/
theorem store_index_stale_after_fold_update :
    (runCalls goStrings (longSCalls.take 2)).users 1 =
      some ⟨1, ascii "Ada", longSEmail, ascii "h", 100, 200⟩ ∧
    (runCalls goStrings (longSCalls.take 2)).byMail (ascii "s@x.com") = some 1 ∧
    ToLower longSEmail ≠ ascii "s@x.com" ∧
    (runCalls goStrings (longSCalls.take 2)).byMail (ToLower longSEmail) = none := by
  decide

/-- C7: `CreateUser` fails with `ErrEmailExists`, returning the zero `User` and
leaving the store as it is, exactly when the lowercased email is a key of
`byMail`; otherwise it returns, with no error, the candidate with `ID` set to
the previous `nextID` and `CreatedAt = UpdatedAt = now`, stores that account
under its `ID`, maps the lowercased email to that `ID`, adds one to `nextID`,
and changes no other entry. -/
theorem createUser_postcondition (L : CaseFolding) (s : Store) (user : User) (now : Int) :
    ((CreateUser L s user now).1.2 = some .ErrEmailExists ↔
      s.byMail (L.ToLower user.Email) ≠ none) ∧
    (s.byMail (L.ToLower user.Email) ≠ none →
      CreateUser L s user now = ((zeroUser, some .ErrEmailExists), s)) ∧
    (s.byMail (L.ToLower user.Email) = none →
      (CreateUser L s user now).1 =
        (⟨s.nextID, user.Name, user.Email, user.PasswordHash, now, now⟩, none) ∧
      (CreateUser L s user now).2.users s.nextID =
        some ⟨s.nextID, user.Name, user.Email, user.PasswordHash, now, now⟩ ∧
      (CreateUser L s user now).2.byMail (L.ToLower user.Email) = some s.nextID ∧
      (CreateUser L s user now).2.nextID = s.nextID + 1 ∧
      (∀ id, id ≠ s.nextID → (CreateUser L s user now).2.users id = s.users id) ∧
      (∀ key, key ≠ L.ToLower user.Email →
        (CreateUser L s user now).2.byMail key = s.byMail key)) := by
  rw [CreateUser_eq]
  by_cases hk : s.byMail (L.ToLower user.Email) = none
  · simp only [hk, ne_eq, not_true_eq_false, ↓reduceIte, reduceCtorEq, false_implies,
      true_implies, mapSet_same, true_and]
    exact ⟨fun id hid => mapSet_other _ _ _ _ hid, fun key hkey => mapSet_other _ _ _ _ hkey⟩
  · simp [hk]

/-- C7, the scenario of the spec: on a new store, creating Ada with the email
`Ada@X.com` returns the account with identifier 1, and creating Bob with
`ada@x.com` afterwards fails with `ErrEmailExists`. -/
theorem createUser_postcondition_witness :
    (CreateUser goStrings New (candidate (ascii "Ada") (ascii "Ada@X.com") (ascii "h")) 100).1 =
      (⟨1, ascii "Ada", ascii "Ada@X.com", ascii "h", 100, 100⟩, none) ∧
    (CreateUser goStrings
        (CreateUser goStrings New (candidate (ascii "Ada") (ascii "Ada@X.com") (ascii "h")) 100).2
        (candidate (ascii "Bob") (ascii "ada@x.com") (ascii "h2")) 200).1 =
      (zeroUser, some .ErrEmailExists) :=
  ⟨((createUser_postcondition goStrings New
      (candidate (ascii "Ada") (ascii "Ada@X.com") (ascii "h")) 100).2.2 rfl).1,
   congrArg Prod.fst ((createUser_postcondition goStrings
      (CreateUser goStrings New (candidate (ascii "Ada") (ascii "Ada@X.com") (ascii "h")) 100).2
      (candidate (ascii "Bob") (ascii "ada@x.com") (ascii "h2")) 200).2.1 (by decide))⟩

/-- C8: in every state of the store, if `DeleteUser(id)` succeeds then `GetUser(id)`
fails afterwards with `ErrUserNotFound`, and a following `CreateUser` succeeds
for every candidate whose email has the lowercased key of the email the deleted
account held, the deleted account's own email in particular. -/
theorem deleteUser_frees_email (L : CaseFolding) (s : Store) (id : Int)
    (hok : (DeleteUser L s id).1 = none) :
    GetUser (DeleteUser L s id).2 id = (zeroUser, some .ErrUserNotFound) ∧
    ∃ old, s.users id = some old ∧
      ∀ cand now, L.ToLower cand.Email = L.ToLower old.Email →
        (CreateUser L (DeleteUser L s id).2 cand now).1.2 = none ∧
        (CreateUser L (DeleteUser L s id).2 cand now).1.1.Email = cand.Email := by
  cases hold : s.users id with
  | none => simp [DeleteUser, hold] at hok
  | some old =>
    have hdel : (DeleteUser L s id).2 =
        ⟨mapDelete s.users id, mapDelete s.byMail (L.ToLower old.Email), s.nextID⟩ := by
      simp [DeleteUser, hold]
    rw [hdel]
    refine ⟨by simp [GetUser, mapDelete_same], old, rfl, ?_⟩
    intro cand now hkey
    rw [CreateUser_eq]
    simp [hkey, mapDelete_same]

/-- C8 at a concrete input: after Ada is created on a new store and deleted,
`GetUser(1)` fails and her email can be registered again. -/
theorem deleteUser_frees_email_witness :
    GetUser (DeleteUser goStrings (runCalls goStrings
        [.create (candidate (ascii "Ada") (ascii "Ada@X.com") (ascii "h")) 100]) 1).2 1 =
      (zeroUser, some .ErrUserNotFound) ∧
    (CreateUser goStrings (DeleteUser goStrings (runCalls goStrings
        [.create (candidate (ascii "Ada") (ascii "Ada@X.com") (ascii "h")) 100]) 1).2
      (candidate (ascii "Bob") (ascii "Ada@X.com") (ascii "h2")) 300).1.2 = none := by
  obtain ⟨hget, old, hold, hcreate⟩ := deleteUser_frees_email goStrings (runCalls goStrings
    [.create (candidate (ascii "Ada") (ascii "Ada@X.com") (ascii "h")) 100]) 1 (by decide)
  have hada : (runCalls goStrings
      [.create (candidate (ascii "Ada") (ascii "Ada@X.com") (ascii "h")) 100]).users 1 =
      some ⟨1, ascii "Ada", ascii "Ada@X.com", ascii "h", 100, 100⟩ := by decide
  rw [hada] at hold
  have hold' := Option.some.inj hold
  subst hold'
  exact ⟨hget, (hcreate (candidate (ascii "Bob") (ascii "Ada@X.com") (ascii "h2")) 300 rfl).1⟩

/-- C9: in every state of the store, for an account `old` stored under `id` and a
mutate function that returns a candidate `cand` without error, if
`UpdateUser(id, fn)` succeeds then the account it returns is the one a following
`GetUser(id)` returns; it has the `ID` and the `CreatedAt` of `old` whatever the
candidate carried, and that `ID` is `id` in every state reachable from
`store.New()`; it has the candidate's `Name`, `Email` and `PasswordHash`, and
`UpdatedAt` equal to the instant of the call (so not earlier than before when
the clock has not gone back); the accounts under other identifiers are
unchanged. -/
theorem updateUser_keeps_identity (L : CaseFolding) (s : Store) (id : Int)
    (fn : User → User × Option StoreError) (now : Int) (old cand : User)
    (hold : s.users id = some old) (hfn : fn old = (cand, none))
    (hok : (UpdateUser L s id fn now).1.2 = none) :
    GetUser (UpdateUser L s id fn now).2 id = ((UpdateUser L s id fn now).1.1, none) ∧
    (UpdateUser L s id fn now).1.1 =
      ⟨old.ID, cand.Name, cand.Email, cand.PasswordHash, old.CreatedAt, now⟩ ∧
    (Reachable L s → (UpdateUser L s id fn now).1.1.ID = id) ∧
    (old.UpdatedAt ≤ now → old.UpdatedAt ≤ (UpdateUser L s id fn now).1.1.UpdatedAt) ∧
    (∀ other, other ≠ id → (UpdateUser L s id fn now).2.users other = s.users other) := by
  have hid : Reachable L s → old.ID = id := fun hreach =>
    Reachable.users_ID L s hreach id old hold
  have hstored : storedUpdate old cand now =
      ⟨old.ID, cand.Name, cand.Email, cand.PasswordHash, old.CreatedAt, now⟩ := rfl
  rw [UpdateUser_eq L s id fn now old cand hold hfn] at hok ⊢
  split_ifs at hok ⊢ with hfold htaken <;>
  · rw [hstored]
    exact ⟨by simp [GetUser, mapSet_same], rfl, hid, fun h => h,
      fun other ho => mapSet_other _ _ _ _ ho⟩

/-- C9 at a concrete input: Ada, created at instant 100 on a new store, is updated
at instant 200 with a candidate that carries the identifier 99 and the creation
time 5; the stored account keeps identifier 1 and creation time 100. -/
theorem updateUser_keeps_identity_witness :
    (UpdateUser goStrings
        (runCalls goStrings [.create (candidate (ascii "Ada") (ascii "Ada@X.com") (ascii "h")) 100])
        1 (overwriteAll ⟨99, ascii "Eve", ascii "eve@x.com", ascii "h3", 5, 6⟩) 200).1.1 =
      ⟨1, ascii "Eve", ascii "eve@x.com", ascii "h3", 100, 200⟩ ∧
    (UpdateUser goStrings
        (runCalls goStrings [.create (candidate (ascii "Ada") (ascii "Ada@X.com") (ascii "h")) 100])
        1 (overwriteAll ⟨99, ascii "Eve", ascii "eve@x.com", ascii "h3", 5, 6⟩) 200).1.1.ID = 1 :=
  ⟨(updateUser_keeps_identity goStrings
    (runCalls goStrings [.create (candidate (ascii "Ada") (ascii "Ada@X.com") (ascii "h")) 100])
    1 (overwriteAll ⟨99, ascii "Eve", ascii "eve@x.com", ascii "h3", 5, 6⟩) 200
    ⟨1, ascii "Ada", ascii "Ada@X.com", ascii "h", 100, 100⟩
    ⟨99, ascii "Eve", ascii "eve@x.com", ascii "h3", 5, 6⟩
    (by decide) rfl (by decide)).2.1,
   (updateUser_keeps_identity goStrings
    (runCalls goStrings [.create (candidate (ascii "Ada") (ascii "Ada@X.com") (ascii "h")) 100])
    1 (overwriteAll ⟨99, ascii "Eve", ascii "eve@x.com", ascii "h3", 5, 6⟩) 200
    ⟨1, ascii "Ada", ascii "Ada@X.com", ascii "h", 100, 100⟩
    ⟨99, ascii "Eve", ascii "eve@x.com", ascii "h3", 5, 6⟩
    (by decide) rfl (by decide)).2.2.1 ⟨_, rfl⟩⟩

/-- C10: in a reachable state, for an account `old` stored under `id` and a mutate
function that returns a candidate `cand` without error: when the candidate's
email is not equal to the current one for `strings.EqualFold`, `UpdateUser`
fails with `ErrEmailExists` exactly when the candidate's lowercased email is
indexed in `byMail` by an identifier other than `id`, and otherwise succeeds
with the index being the old one with the key of the old email deleted and
then the new key set to `id`; when the two emails are equal for
`strings.EqualFold`, `UpdateUser` succeeds and leaves the index as it is. -/
theorem updateUser_email_conflict (L : CaseFolding) (s : Store) (id : Int)
    (fn : User → User × Option StoreError) (now : Int) (old cand : User)
    (hreach : Reachable L s) (hold : s.users id = some old) (hfn : fn old = (cand, none)) :
    (L.EqualFold old.Email cand.Email = false →
      ((UpdateUser L s id fn now).1.2 = some .ErrEmailExists ↔
        ∃ other, s.byMail (L.ToLower cand.Email) = some other ∧ other ≠ id) ∧
      ((¬ ∃ other, s.byMail (L.ToLower cand.Email) = some other ∧ other ≠ id) →
        (UpdateUser L s id fn now).1.2 = none ∧
        (UpdateUser L s id fn now).2.byMail =
          mapSet (mapDelete s.byMail (L.ToLower old.Email)) (L.ToLower cand.Email) id ∧
        (UpdateUser L s id fn now).2.byMail (L.ToLower cand.Email) = some id ∧
        (L.ToLower old.Email ≠ L.ToLower cand.Email →
          (UpdateUser L s id fn now).2.byMail (L.ToLower old.Email) = none))) ∧
    (L.EqualFold old.Email cand.Email = true →
      (UpdateUser L s id fn now).1.2 = none ∧ (UpdateUser L s id fn now).2.byMail = s.byMail) := by
  have hid : old.ID = id := Reachable.users_ID L s hreach id old hold
  rw [UpdateUser_eq L s id fn now old cand hold hfn, hid]
  constructor
  · intro hfold
    rw [if_neg (by simp [hfold])]
    by_cases htaken : indexedByOther s.byMail (L.ToLower cand.Email) id = true
    · rw [if_pos htaken]
      have hex := (indexedByOther_iff _ _ _).1 htaken
      exact ⟨⟨fun _ => hex, fun _ => rfl⟩, fun hno => absurd hex hno⟩
    · rw [if_neg htaken]
      have hno : ¬ ∃ other, s.byMail (L.ToLower cand.Email) = some other ∧ other ≠ id :=
        fun h => htaken ((indexedByOther_iff _ _ _).2 h)
      refine ⟨⟨fun h => by simp at h, fun h => absurd h hno⟩, fun _ => ⟨rfl, rfl, ?_, ?_⟩⟩
      · exact mapSet_same _ _ _
      · intro hne
        show mapSet (mapDelete s.byMail (L.ToLower old.Email)) (L.ToLower cand.Email) id
          (L.ToLower old.Email) = none
        rw [mapSet_other _ _ _ _ hne, mapDelete_same]
  · intro hfold
    rw [if_pos hfold]
    exact ⟨rfl, rfl⟩

/-- C10 at a concrete input: with Ada (`ada@x.com`, identifier 1) and Bob
(`bob@x.com`, identifier 2) in the store, changing Bob's email to `ADA@x.com`
fails with `ErrEmailExists`, and changing it to `rob@x.com` succeeds and moves
his index entry. -/
theorem updateUser_email_conflict_witness :
    (UpdateUser goStrings
        (runCalls goStrings [.create (candidate (ascii "Ada") (ascii "ada@x.com") (ascii "h")) 100,
          .create (candidate (ascii "Bob") (ascii "bob@x.com") (ascii "h2")) 200])
        2 (setEmail (ascii "ADA@x.com")) 300).1.2 = some .ErrEmailExists ∧
    (UpdateUser goStrings
        (runCalls goStrings [.create (candidate (ascii "Ada") (ascii "ada@x.com") (ascii "h")) 100,
          .create (candidate (ascii "Bob") (ascii "bob@x.com") (ascii "h2")) 200])
        2 (setEmail (ascii "rob@x.com")) 300).2.byMail (ascii "bob@x.com") = none :=
  ⟨((updateUser_email_conflict goStrings
      (runCalls goStrings [.create (candidate (ascii "Ada") (ascii "ada@x.com") (ascii "h")) 100,
        .create (candidate (ascii "Bob") (ascii "bob@x.com") (ascii "h2")) 200])
      2 (setEmail (ascii "ADA@x.com")) 300
      ⟨2, ascii "Bob", ascii "bob@x.com", ascii "h2", 200, 200⟩
      ⟨2, ascii "Bob", ascii "ADA@x.com", ascii "h2", 200, 200⟩
      ⟨_, rfl⟩ (by decide) rfl).1 (by decide)).1.2 ⟨1, by decide, by decide⟩,
   (((updateUser_email_conflict goStrings
      (runCalls goStrings [.create (candidate (ascii "Ada") (ascii "ada@x.com") (ascii "h")) 100,
        .create (candidate (ascii "Bob") (ascii "bob@x.com") (ascii "h2")) 200])
      2 (setEmail (ascii "rob@x.com")) 300
      ⟨2, ascii "Bob", ascii "bob@x.com", ascii "h2", 200, 200⟩
      ⟨2, ascii "Bob", ascii "rob@x.com", ascii "h2", 200, 200⟩
      ⟨_, rfl⟩ (by decide) rfl).1 (by decide)).2
        (by decide)).2.2.2 (by decide)⟩

/-! ## More claims on tokens -/

/-- The loop of `secureCompare` on strings of equal length ends with the OR of
the XORs of all pairs of bytes. -/
theorem secureCompareLoop_eq_fold (a b : Bytes) (r : Nat) (hlen : a.length = b.length) :
    secureCompareLoop r a b = some ((List.zipWith (· ^^^ ·) a b).foldl (· ||| ·) r) := by
  induction a generalizing b r with
  | nil =>
    cases b with
    | nil => rfl
    | cons y b => simp at hlen
  | cons x a ih =>
    cases b with
    | nil => simp at hlen
    | cons y b =>
      simp only [List.length_cons, Nat.add_right_cancel_iff] at hlen
      rw [secureCompareLoop, ih b _ hlen]
      rfl

/-- C16: for a token with three parts, a signature valid for the secret and a
claims segment that decodes, which is not expired, `ParseToken` fails with
`InvalidClaims` (`"invalid token claims"`) exactly when the subject is empty or
the `userId` is 0, and otherwise returns the claims' `(userId, subject)`.  In
particular a token that `GenerateToken` issued with `userID = 0` or with an
empty email is rejected with `InvalidClaims` at every instant at which it is
not expired, the instant of issue included when `ttl > 0`. -/
theorem parseToken_invalid_claims (userID : Int) (email secret : Bytes) (ttl t0 t0' now : Int)
    (hutf8 : validString email = true) (hid : IsInt64 userID)
    (hexp : IsInt64 (unix (t0 + ttl))) (hiat : IsInt64 (unix t0')) :
    (∀ tokenString payload, DecodesTo tokenString secret payload →
      ¬ payload.ExpiresAt < unix now →
      (ParseToken tokenString secret now = .error .InvalidClaims ↔
        payload.Subject = [] ∨ payload.UserID = 0) ∧
      (¬ (payload.Subject = [] ∨ payload.UserID = 0) →
        ParseToken tokenString secret now = .ok (payload.UserID, payload.Subject))) ∧
    (unix now ≤ unix (t0 + ttl) → userID = 0 ∨ email = [] →
      ParseToken (GenerateToken userID email secret ttl t0 t0') secret now =
        .error .InvalidClaims) ∧
    (0 < ttl → userID = 0 ∨ email = [] →
      ParseToken (GenerateToken userID email secret ttl t0 t0') secret t0 =
        .error .InvalidClaims) ∧
    TokenError.message .InvalidClaims = "invalid token claims" := by
  have hgen : ∀ t, unix t ≤ unix (t0 + ttl) → userID = 0 ∨ email = [] →
      ParseToken (GenerateToken userID email secret ttl t0 t0') secret t =
        .error .InvalidClaims := by
    intro t ht hempty
    rw [ParseToken_GenerateToken userID email secret ttl t0 t0' t hutf8 hid hexp hiat,
      if_neg (by omega), if_pos (by tauto)]
  refine ⟨?_, hgen now, fun httl => hgen t0 (unix_mono _ _ (by omega)), rfl⟩
  intro tokenString payload hdec hlive
  rw [ParseToken_of_DecodesTo _ _ _ now hdec, if_neg hlive]
  by_cases hempty : payload.Subject = [] ∨ payload.UserID = 0
  · simp [hempty]
  · simp [hempty]

/-- C16 at concrete inputs: a token issued for the identifier 0, and one issued
for the empty email, are rejected with `InvalidClaims` at the instant of issue. -/
theorem parseToken_invalid_claims_witness :
    ParseToken
        (GenerateToken 0 (ascii "ada@x.com") (ascii "secret") 3600000000000
          1700000000000000000 1700000000000000000)
        (ascii "secret") 1700000000000000000 = .error .InvalidClaims ∧
    ParseToken
        (GenerateToken 1 [] (ascii "secret") 3600000000000
          1700000000000000000 1700000000000000000)
        (ascii "secret") 1700000000000000000 = .error .InvalidClaims :=
  ⟨(parseToken_invalid_claims 0 (ascii "ada@x.com") (ascii "secret") 3600000000000
      1700000000000000000 1700000000000000000 1700000000000000000
      (by decide) (by decide) (by decide) (by decide)).2.2.1 (by decide) (Or.inl rfl),
   (parseToken_invalid_claims 1 [] (ascii "secret") 3600000000000
      1700000000000000000 1700000000000000000 1700000000000000000
      (by decide) (by decide) (by decide) (by decide)).2.2.1 (by decide) (Or.inr rfl)⟩

/-- C18: `secureCompare(a, b)` is true exactly when `a = b`; it is false whenever
the lengths differ; for equal lengths its loop reads every position without
leaving the range of `b` and ends with the OR of `a[i] XOR b[i]` over all
positions, and the result is true exactly when that OR is 0. -/
theorem secureCompare_decides_equality (a b : Bytes) :
    (secureCompare a b = true ↔ a = b) ∧
    (a.length ≠ b.length → secureCompare a b = false) ∧
    (a.length = b.length →
      secureCompareLoop 0 a b = some ((List.zipWith (· ^^^ ·) a b).foldl (· ||| ·) 0) ∧
      (secureCompare a b = true ↔ (List.zipWith (· ^^^ ·) a b).foldl (· ||| ·) 0 = 0)) := by
  refine ⟨secureCompare_iff a b, ?_, ?_⟩
  · intro hlen
    simp [secureCompare, hlen]
  · intro hlen
    refine ⟨secureCompareLoop_eq_fold a b 0 hlen, ?_⟩
    unfold secureCompare
    rw [secureCompareLoop_eq_fold a b 0 hlen]
    simp [hlen]

/-- C19: `ParseToken` fails with `MalformedToken` (`"invalid token format"`)
exactly when splitting the token on `.` does not give three parts; and for a
token of three parts it fails with `InvalidSignature`
(`"invalid token signature"`) exactly when the third part is not
`sign(part0 + "." + part1, secret)`, whatever the second part holds, so that a
decode, expiry or claims error, like a success, is only reported for a token
whose signature verifies. -/
theorem parseToken_order_of_checks (tokenString secret : Bytes) (now : Int) :
    (ParseToken tokenString secret now = .error .MalformedToken ↔
      (Split tokenString 0x2E).length ≠ 3) ∧
    (∀ part0 part1 part2, Split tokenString 0x2E = [part0, part1, part2] →
      (sign (part0 ++ 0x2E :: part1) secret ≠ part2 →
        ParseToken tokenString secret now = .error .InvalidSignature) ∧
      (ParseToken tokenString secret now ≠ .error .InvalidSignature →
        sign (part0 ++ 0x2E :: part1) secret = part2)) ∧
    TokenError.message .MalformedToken = "invalid token format" ∧
    TokenError.message .InvalidSignature = "invalid token signature" := by
  refine ⟨⟨?_, ParseToken_of_length_ne tokenString secret now⟩, ?_, rfl, rfl⟩
  · intro hmal hlen
    obtain ⟨part0, part1, part2, hparts⟩ := List.length_eq_three.1 hlen
    rw [ParseToken_of_parts _ _ _ _ _ _ hparts] at hmal
    revert hmal
    split_ifs
    · simp
    · cases base64Decode part1 with
      | none => simp
      | some payloadBytes =>
        simp only []
        cases jsonUnmarshal payloadBytes with
        | none => simp
        | some payload =>
          simp only []
          split_ifs <;> simp
  · intro part0 part1 part2 hparts
    have hiff := ParseToken_invalidSignature_iff tokenString secret now part0 part1 part2 hparts
    exact ⟨hiff.2, fun h => by_contra fun hne => h (hiff.2 hne)⟩

/-! ## More claims on the store -/

/-- C20: in every state of the store a call that returns an error leaves `users`,
`byMail` and `nextID` as they were and returns the zero `User`: `CreateUser`
fails only with `ErrEmailExists`; `UpdateUser` fails with `ErrUserNotFound` when
the identifier is absent, with the error of the mutate function, unchanged,
when that function fails, and with `ErrEmailExists` otherwise; `DeleteUser`
fails only with `ErrUserNotFound`. -/
theorem failed_calls_change_nothing (L : CaseFolding) (s : Store) :
    (∀ user now, (CreateUser L s user now).1.2 ≠ none →
      CreateUser L s user now = ((zeroUser, some .ErrEmailExists), s)) ∧
    (∀ id fn now, (UpdateUser L s id fn now).1.2 ≠ none →
      (UpdateUser L s id fn now).2 = s ∧ (UpdateUser L s id fn now).1.1 = zeroUser ∧
      ((s.users id = none ∧ (UpdateUser L s id fn now).1.2 = some .ErrUserNotFound) ∨
        ∃ old, s.users id = some old ∧
          (((fn old).2 ≠ none ∧ (UpdateUser L s id fn now).1.2 = (fn old).2) ∨
            ((fn old).2 = none ∧ (UpdateUser L s id fn now).1.2 = some .ErrEmailExists)))) ∧
    (∀ id, (DeleteUser L s id).1 ≠ none → DeleteUser L s id = (some .ErrUserNotFound, s)) := by
  refine ⟨?_, ?_, ?_⟩
  · intro user now herr
    rw [CreateUser_eq] at herr ⊢
    split_ifs at herr ⊢ with hk
    · rfl
    · exact absurd rfl herr
  · intro id fn now herr
    cases hold : s.users id with
    | none =>
      simp [UpdateUser, hold]
    | some old =>
      cases hfn : fn old with
      | mk cand err =>
        cases err with
        | some e =>
          simp [UpdateUser, hold, hfn]
        | none =>
          rw [UpdateUser_eq L s id fn now old cand hold hfn] at herr ⊢
          split_ifs at herr ⊢ with hfold htaken
          · exact absurd rfl herr
          · simp [hfn]
          · exact absurd rfl herr
  · intro id herr
    cases hold : s.users id with
    | none => simp [DeleteUser, hold]
    | some old => simp [DeleteUser, hold] at herr

/-! ### Identifiers -/

/-- A successful `CreateUser` returns the counter and adds one to it; any other
call leaves the counter alone. -/
theorem Call.createdID_nextID (L : CaseFolding) (s : Store) (c : Call) :
    (∀ id, Call.createdID L s c = some id →
      id = s.nextID ∧ (Call.run L s c).nextID = s.nextID + 1) ∧
    (Call.createdID L s c = none → (Call.run L s c).nextID = s.nextID) := by
  cases c with
  | create user now =>
    simp only [Call.createdID, Call.run, CreateUser_eq]
    split_ifs with hk
    · simp
    · simp
  | update id fn now =>
    refine ⟨fun id h => by simp [Call.createdID] at h, fun _ => ?_⟩
    simp only [Call.run]
    cases hold : s.users id with
    | none => simp [UpdateUser, hold]
    | some old =>
      cases hfn : fn old with
      | mk cand err =>
        cases err with
        | some e => simp [UpdateUser, hold, hfn]
        | none =>
          rw [UpdateUser_eq L s id fn now old cand hold hfn]
          split_ifs <;> rfl
  | delete id =>
    refine ⟨fun id h => by simp [Call.createdID] at h, fun _ => ?_⟩
    simp only [Call.run, DeleteUser]
    cases s.users id <;> rfl

/-- No call lowers the counter. -/
theorem Call.run_nextID_le (L : CaseFolding) (s : Store) (c : Call) :
    s.nextID ≤ (Call.run L s c).nextID := by
  cases h : Call.createdID L s c with
  | none => rw [(Call.createdID_nextID L s c).2 h]
  | some id =>
    rw [((Call.createdID_nextID L s c).1 id h).2]
    omega

theorem foldl_run_nextID_le (L : CaseFolding) (calls : List Call) (s : Store) :
    s.nextID ≤ (calls.foldl (Call.run L) s).nextID := by
  induction calls generalizing s with
  | nil => exact le_refl _
  | cons c cs ih => exact le_trans (Call.run_nextID_le L s c) (ih _)

/-- The identifiers a sequence of calls creates are the values of the counter,
one after the other, and the counter ends that many above where it began. -/
theorem createdIDsFrom_eq (L : CaseFolding) (calls : List Call) (s : Store) :
    createdIDsFrom L s calls =
      (List.range (createdIDsFrom L s calls).length).map (fun (i : Nat) => s.nextID + (i : Int)) ∧
    (calls.foldl (Call.run L) s).nextID = s.nextID + (createdIDsFrom L s calls).length := by
  induction calls generalizing s with
  | nil => simp [createdIDsFrom]
  | cons c cs ih =>
    obtain ⟨hids, hnext⟩ := ih (Call.run L s c)
    cases h : Call.createdID L s c with
    | none =>
      have hsame := (Call.createdID_nextID L s c).2 h
      simp only [createdIDsFrom, h, List.foldl_cons]
      rw [hsame] at hids hnext
      exact ⟨hids, hnext⟩
    | some id =>
      obtain ⟨hid, hstep⟩ := (Call.createdID_nextID L s c).1 id h
      simp only [createdIDsFrom, h, List.foldl_cons, List.length_cons]
      rw [hstep] at hids hnext
      constructor
      · rw [List.range_succ_eq_map, List.map_cons, List.map_map]
        conv_lhs => rw [hids, hid]
        simp only [Nat.cast_zero, add_zero, List.cons.injEq, true_and]
        apply List.map_congr_left
        intro i _
        simp only [Function.comp_apply, Nat.cast_succ]
        omega
      · rw [hnext]
        push_cast
        omega

theorem idsBelow_run (L : CaseFolding) (s : Store) (c : Call) (h : IdsBelow s) :
    IdsBelow (Call.run L s c) := by
  obtain ⟨hpos, hbelow⟩ := h
  have hle := Call.run_nextID_le L s c
  refine ⟨le_trans hpos hle, ?_⟩
  intro id u hu
  have hkey : s.users id ≠ none ∨ id = s.nextID ∧ s.nextID < (Call.run L s c).nextID := by
    cases c with
    | create user now =>
      simp only [Call.run, CreateUser_eq] at hu ⊢
      split_ifs at hu ⊢ with hk
      · left
        dsimp only at hu
        simp [hu]
      · dsimp only at hu
        simp only [mapSet] at hu
        split_ifs at hu with hid
        · right
          exact ⟨hid, by simp⟩
        · left
          simp [hu]
    | update uid fn now =>
      left
      simp only [Call.run] at hu
      cases hold : s.users uid with
      | none =>
        simp only [UpdateUser, hold] at hu
        simp [hu]
      | some old =>
        cases hfn : fn old with
        | mk cand err =>
          cases err with
          | some e =>
            simp only [UpdateUser, hold, hfn] at hu
            simp [hu]
          | none =>
            rw [UpdateUser_eq L s uid fn now old cand hold hfn] at hu
            by_cases hid : id = uid
            · rw [hid, hold]
              simp
            · split_ifs at hu
              · dsimp only at hu
                rw [mapSet_other _ _ _ _ hid] at hu
                simp [hu]
              · dsimp only at hu
                simp [hu]
              · dsimp only at hu
                rw [mapSet_other _ _ _ _ hid] at hu
                simp [hu]
    | delete did =>
      left
      simp only [Call.run, DeleteUser] at hu
      cases hold : s.users did with
      | none =>
        simp only [hold] at hu
        simp [hu]
      | some old =>
        simp only [hold, mapDelete] at hu
        split_ifs at hu
        simp [hu]
  rcases hkey with hin | ⟨hid, hlt⟩
  · cases hs : s.users id with
    | none => exact absurd hs hin
    | some v =>
      have := hbelow id v hs
      exact ⟨this.1, by omega⟩
  · exact ⟨by omega, by omega⟩

theorem idsBelow_foldl (L : CaseFolding) (calls : List Call) (s : Store) (h : IdsBelow s) :
    IdsBelow (calls.foldl (Call.run L) s) := by
  induction calls generalizing s with
  | nil => exact h
  | cons c cs ih => exact ih _ (idsBelow_run L s c h)

theorem idsBelow_New : IdsBelow New :=
  ⟨by simp [FullstackGoApi.New], fun id u h => by simp [FullstackGoApi.New] at h⟩

theorem createdIDsFrom_length_le (L : CaseFolding) (calls : List Call) (s : Store) :
    (createdIDsFrom L s calls).length ≤ calls.length := by
  induction calls generalizing s with
  | nil => simp [createdIDsFrom]
  | cons c cs ih =>
    have := ih (Call.run L s c)
    cases h : Call.createdID L s c with
    | none =>
      simp only [createdIDsFrom, h, List.length_cons]
      omega
    | some id =>
      simp only [createdIDsFrom, h, List.length_cons]
      omega

/-- C11: for every finite sequence of `CreateUser`, `UpdateUser` and `DeleteUser`
calls on `store.New()`: the identifiers that the successful `CreateUser` calls
return are 1, 2, 3, ... in call order; `nextID` is one more than their number
and no further call lowers it; an identifier stored in `users` after the
sequence is at least 1 and stays below `nextID` after any further calls; and
further calls never return again an identifier that is below `nextID`, one
freed by `DeleteUser` in particular.  The counter is at most the number of
calls plus one, so it does not reach the end of Go's `int`. -/
theorem createUser_ids_never_reused (L : CaseFolding) (calls : List Call) :
    createdIDsFrom L New calls =
      (List.range (createdIDsFrom L New calls).length).map (fun (i : Nat) => (i : Int) + 1) ∧
    (runCalls L calls).nextID = (createdIDsFrom L New calls).length + 1 ∧
    (∀ more, (runCalls L calls).nextID ≤ (runCalls L (calls ++ more)).nextID) ∧
    (∀ more id u, (runCalls L calls).users id = some u →
      1 ≤ id ∧ id < (runCalls L (calls ++ more)).nextID) ∧
    (∀ more id, id < (runCalls L calls).nextID →
      id ∉ createdIDsFrom L (runCalls L calls) more) ∧
    (runCalls L calls).nextID ≤ calls.length + 1 := by
  obtain ⟨hids, hnext⟩ := createdIDsFrom_eq L calls New
  have hmore : ∀ more, (runCalls L calls).nextID ≤ (runCalls L (calls ++ more)).nextID := by
    intro more
    simp only [runCalls, List.foldl_append]
    exact foldl_run_nextID_le L more _
  have hnew : New.nextID = 1 := rfl
  rw [hnew] at hids hnext
  refine ⟨?_, ?_, hmore, ?_, ?_, ?_⟩
  · conv_lhs => rw [hids]
    apply List.map_congr_left
    intro i _
    omega
  · rw [runCalls, hnext]
    omega
  · intro more id u hu
    have hb := (idsBelow_foldl L calls New idsBelow_New).2 id u hu
    have := hmore more
    exact ⟨hb.1, lt_of_lt_of_le hb.2 this⟩
  · intro more id hlt hmem
    rw [(createdIDsFrom_eq L more (runCalls L calls)).1] at hmem
    simp only [List.mem_map, List.mem_range] at hmem
    obtain ⟨i, _, hi⟩ := hmem
    omega
  · rw [runCalls, hnext]
    have := createdIDsFrom_length_le L calls New
    omega

/-! ### Lookup by email -/

/-- When the index and the records agree, `GetUserByEmail` fails exactly when no
stored account has an email with the `ToLower` key of the one asked for, and
otherwise returns such an account, stored under its own identifier. -/
theorem GetUserByEmail_of_indexConsistent (L : CaseFolding) (s : Store)
    (h : IndexConsistent L s) (email : Bytes) :
    (GetUserByEmail L s email = (zeroUser, some .ErrUserNotFound) ↔
      ¬ ∃ id u, s.users id = some u ∧ L.ToLower u.Email = L.ToLower email) ∧
    ((∃ id u, s.users id = some u ∧ L.ToLower u.Email = L.ToLower email) →
      ∃ u, GetUserByEmail L s email = (u, none) ∧ s.users u.ID = some u ∧
        L.ToLower u.Email = L.ToLower email) := by
  unfold GetUserByEmail
  cases hkey : s.byMail (L.ToLower email) with
  | none =>
    have hno : ¬ ∃ id u, s.users id = some u ∧ L.ToLower u.Email = L.ToLower email := by
      rintro ⟨id, u, hu, heq⟩
      have := h.indexed id u hu
      rw [heq, hkey] at this
      simp at this
    exact ⟨⟨fun _ => hno, fun _ => rfl⟩, fun hex => absurd hex hno⟩
  | some id =>
    obtain ⟨u, hu, heq⟩ := h.stored _ id hkey
    have hid := h.ids id u hu
    refine ⟨⟨fun hfail => ?_, fun hno => absurd ⟨id, u, hu, heq⟩ hno⟩, fun _ => ?_⟩
    · simp at hfail
    · refine ⟨u, ?_, ?_, heq⟩
      · simp [hu]
      · rw [hid, hu]

/-- The zero `User` is not an entry of `users` in any reachable state. -/
theorem runCalls_users_ne_zeroUser (L : CaseFolding) (calls : List Call) (id : Int) :
    (runCalls L calls).users id ≠ some zeroUser := by
  intro hu
  have hid := Reachable.users_ID L _ ⟨calls, rfl⟩ id zeroUser hu
  have hb := (idsBelow_foldl L calls New idsBelow_New).2 id zeroUser hu
  have hzero : zeroUser.ID = 0 := rfl
  omega

/-- C13, at the failing input: after registering `s@x.com` and changing that
account's email to `ſ@x.com`, `GetUserByEmail("ſ@x.com")` fails with
`ErrUserNotFound` although account 1 holds exactly that email; and after
`DeleteUser(1)` then, `GetUserByEmail("s@x.com")` returns a nil error together
with the zero `User`, which is not an entry of `users`. -/
theorem getUserByEmail_stale_index :
    (runCalls goStrings (longSCalls.take 2)).users 1 =
      some ⟨1, ascii "Ada", longSEmail, ascii "h", 100, 200⟩ ∧
    GetUserByEmail goStrings (runCalls goStrings (longSCalls.take 2)) longSEmail =
      (zeroUser, some .ErrUserNotFound) ∧
    GetUserByEmail goStrings (runCalls goStrings longSDeleteCalls) (ascii "s@x.com") =
      (zeroUser, none) ∧
    ∀ id, (runCalls goStrings longSDeleteCalls).users id ≠ some zeroUser :=
  ⟨by decide, by decide, by decide, runCalls_users_ne_zeroUser goStrings longSDeleteCalls⟩

/-! ### The check of `WithAuth` -/

theorem SplitN2_bearer (token : Bytes) :
    SplitN2 (ascii "Bearer " ++ token) 0x20 = [ascii "Bearer", token] := by
  simp [SplitN2, ascii]

/-- What `WithAuth` answers to the header `Bearer ` followed by a token that
`GenerateToken` issued under the same secret. -/
theorem WithAuth_GenerateToken (L : CaseFolding) (s : Store) (secret : Bytes) (userID : Int)
    (email : Bytes) (ttl t0 t0' now : Int)
    (hbearer : L.EqualFold (ascii "Bearer") (ascii "Bearer") = true)
    (hutf8 : validString email = true) (hid : IsInt64 userID)
    (hexp : IsInt64 (unix (t0 + ttl))) (hiat : IsInt64 (unix t0')) :
    WithAuth L s secret (ascii "Bearer " ++ GenerateToken userID email secret ttl t0 t0') now =
      if unix (t0 + ttl) < unix now ∨ email = [] ∨ userID = 0 then .error .InvalidToken
      else
        match s.users userID with
        | none => .error .InvalidToken
        | some user =>
          if L.EqualFold user.Email email = true then .ok user else .error .InvalidToken := by
  have hne : ascii "Bearer " ++ GenerateToken userID email secret ttl t0 t0' ≠ [] := by
    simp [ascii]
  unfold WithAuth
  rw [if_neg hne, SplitN2_bearer]
  simp only [hbearer, Bool.not_true, Bool.false_eq_true, ↓reduceIte]
  rw [ParseToken_GenerateToken userID email secret ttl t0 t0' now hutf8 hid hexp hiat]
  by_cases hexpd : unix (t0 + ttl) < unix now
  · simp [hexpd]
  · by_cases hempty : email = [] ∨ userID = 0
    · simp [hexpd, hempty]
    · rw [if_neg hexpd, if_neg hempty, if_neg (by tauto)]
      dsimp only
      unfold GetUser
      cases s.users userID with
      | none => rfl
      | some user =>
        dsimp only
        cases L.EqualFold user.Email email <;> rfl

/-- C14, as stated, fails: Ada registers with `ada@x.com` and is issued a token;
her email is then changed to `ADA@x.com`, another string; the check of `WithAuth`
still accepts the token, since it compares the stored email with the token's
subject by `strings.EqualFold`. -/
theorem withAuth_accepts_after_case_change :
    ascii "ADA@x.com" ≠ ascii "ada@x.com" ∧
    (UpdateUser goStrings
      (runCalls goStrings [.create (candidate (ascii "Ada") (ascii "ada@x.com") (ascii "h")) 100])
      1 (setEmail (ascii "ADA@x.com")) 200).1 =
      (⟨1, ascii "Ada", ascii "ADA@x.com", ascii "h", 100, 200⟩, none) ∧
    WithAuth goStrings
      (UpdateUser goStrings
        (runCalls goStrings [.create (candidate (ascii "Ada") (ascii "ada@x.com") (ascii "h")) 100])
        1 (setEmail (ascii "ADA@x.com")) 200).2
      (ascii "secret")
      (ascii "Bearer " ++ GenerateToken 1 (ascii "ada@x.com") (ascii "secret") 3600000000000
        1700000000000000000 1700000000000000000)
      1700000000000000000 =
      .ok ⟨1, ascii "Ada", ascii "ADA@x.com", ascii "h", 100, 200⟩ := by
  refine ⟨by decide, by decide, ?_⟩
  rw [WithAuth_GenerateToken goStrings _ (ascii "secret") 1 (ascii "ada@x.com") 3600000000000
    1700000000000000000 1700000000000000000 1700000000000000000 (by decide) (by decide)
    (by decide) (by decide) (by decide)]
  decide

/-- C14, amended: let `old` be the account stored under `id` and let a token be
issued by `GenerateToken(id, old.Email, secret, ttl)`.  After a successful
`UpdateUser(id, fn)` that stores the candidate's email, the check of `WithAuth`
(on the header `Bearer ` followed by the token, under the same secret) answers
`invalid token` when the new email is not equal to the old one for
`strings.EqualFold`; when the two are equal for `strings.EqualFold`, a change of
case for instance, it still accepts a token that is not expired and returns the
updated account.  After `DeleteUser(id)` it answers `invalid token`. -/
theorem withAuth_after_email_change (L : CaseFolding) (s : Store) (id : Int)
    (fn : User → User × Option StoreError) (tupd : Int) (old cand : User)
    (secret : Bytes) (ttl t0 t0' now : Int)
    (hbearer : L.EqualFold (ascii "Bearer") (ascii "Bearer") = true)
    (hold : s.users id = some old) (hfn : fn old = (cand, none))
    (hok : (UpdateUser L s id fn tupd).1.2 = none)
    (hutf8 : validString old.Email = true) (hid : IsInt64 id)
    (hexp : IsInt64 (unix (t0 + ttl))) (hiat : IsInt64 (unix t0')) :
    (L.EqualFold cand.Email old.Email = false →
      WithAuth L (UpdateUser L s id fn tupd).2 secret
        (ascii "Bearer " ++ GenerateToken id old.Email secret ttl t0 t0') now =
        .error .InvalidToken) ∧
    (L.EqualFold cand.Email old.Email = true → id ≠ 0 → old.Email ≠ [] →
      unix now ≤ unix (t0 + ttl) →
      WithAuth L (UpdateUser L s id fn tupd).2 secret
        (ascii "Bearer " ++ GenerateToken id old.Email secret ttl t0 t0') now =
        .ok (UpdateUser L s id fn tupd).1.1) ∧
    ((DeleteUser L s id).1 = none ∧
      WithAuth L (DeleteUser L s id).2 secret
        (ascii "Bearer " ++ GenerateToken id old.Email secret ttl t0 t0') now =
        .error .InvalidToken) ∧
    AuthError.message .InvalidToken = "invalid token" := by
  have hstored : (UpdateUser L s id fn tupd).1.1 = storedUpdate old cand tupd ∧
      (UpdateUser L s id fn tupd).2.users id = some (storedUpdate old cand tupd) := by
    rw [UpdateUser_eq L s id fn tupd old cand hold hfn] at hok ⊢
    split_ifs at hok ⊢ <;> exact ⟨rfl, mapSet_same _ _ _⟩
  have hmail : (storedUpdate old cand tupd).Email = cand.Email := rfl
  refine ⟨?_, ?_, ⟨?_, ?_⟩, rfl⟩
  · intro hfold
    rw [WithAuth_GenerateToken L _ secret id old.Email ttl t0 t0' now hbearer hutf8 hid hexp hiat,
      hstored.2]
    split_ifs with h1
    · rfl
    · simp [hmail, hfold]
  · intro hfold hne hmailne hlive
    rw [WithAuth_GenerateToken L _ secret id old.Email ttl t0 t0' now hbearer hutf8 hid hexp hiat,
      hstored.2, hstored.1, if_neg (by
        rintro (h | h | h)
        · omega
        · exact hmailne h
        · exact hne h)]
    simp only [hmail, hfold, ↓reduceIte]
  · simp [DeleteUser, hold]
  · have hgone : (DeleteUser L s id).2.users id = none := by
      simp [DeleteUser, hold, mapDelete_same]
    rw [WithAuth_GenerateToken L _ secret id old.Email ttl t0 t0' now hbearer hutf8 hid hexp hiat,
      hgone]
    split_ifs <;> rfl

/-- C14, amended, at concrete inputs: Ada registers with `ada@x.com` and is issued
a token; after her email is changed to `eve@x.com` the check of `WithAuth`
answers `invalid token`, and so it does after her account is deleted. -/
theorem withAuth_after_email_change_witness :
    WithAuth goStrings
      (UpdateUser goStrings
        (runCalls goStrings [.create (candidate (ascii "Ada") (ascii "ada@x.com") (ascii "h")) 100])
        1 (setEmail (ascii "eve@x.com")) 200).2
      (ascii "secret")
      (ascii "Bearer " ++ GenerateToken 1 (ascii "ada@x.com") (ascii "secret") 3600000000000
        1700000000000000000 1700000000000000000)
      1700000000000000000 = .error .InvalidToken ∧
    WithAuth goStrings
      (DeleteUser goStrings
        (runCalls goStrings [.create (candidate (ascii "Ada") (ascii "ada@x.com") (ascii "h")) 100])
        1).2
      (ascii "secret")
      (ascii "Bearer " ++ GenerateToken 1 (ascii "ada@x.com") (ascii "secret") 3600000000000
        1700000000000000000 1700000000000000000)
      1700000000000000000 = .error .InvalidToken :=
  ⟨(withAuth_after_email_change goStrings
      (runCalls goStrings [.create (candidate (ascii "Ada") (ascii "ada@x.com") (ascii "h")) 100])
      1 (setEmail (ascii "eve@x.com")) 200
      ⟨1, ascii "Ada", ascii "ada@x.com", ascii "h", 100, 100⟩
      ⟨1, ascii "Ada", ascii "eve@x.com", ascii "h", 100, 100⟩
      (ascii "secret") 3600000000000 1700000000000000000 1700000000000000000
      1700000000000000000 (by decide) (by decide) rfl (by decide) (by decide) (by decide)
      (by decide) (by decide)).1 (by decide),
   (withAuth_after_email_change goStrings
      (runCalls goStrings [.create (candidate (ascii "Ada") (ascii "ada@x.com") (ascii "h")) 100])
      1 (setEmail (ascii "eve@x.com")) 200
      ⟨1, ascii "Ada", ascii "ada@x.com", ascii "h", 100, 100⟩
      ⟨1, ascii "Ada", ascii "eve@x.com", ascii "h", 100, 100⟩
      (ascii "secret") 3600000000000 1700000000000000000 1700000000000000000
      1700000000000000000 (by decide) (by decide) rfl (by decide) (by decide) (by decide)
      (by decide) (by decide)).2.2.1.2⟩

/-! ### The claims of a generated token -/

/-- C15, as stated, fails: with `ttl` half a second and both clock readings at
the start of a second, the claims of the token have `expiresAt` equal to
`issuedAt`; with `ttl` one hour and the two clock readings one nanosecond apart
on either side of the start of a second, `expiresAt - issuedAt` is 3599. -/
theorem generateToken_expiry_not_after_issue :
    (∃ payload,
      DecodesTo
        (GenerateToken 1 (ascii "ada@x.com") (ascii "secret") 500000000
          1700000000000000000 1700000000000000000)
        (ascii "secret") payload ∧
      payload.ExpiresAt = payload.IssuedAt) ∧
    (∃ payload,
      DecodesTo
        (GenerateToken 1 (ascii "ada@x.com") (ascii "secret") 3600000000000
          1699999999999999999 1700000000000000000)
        (ascii "secret") payload ∧
      payload.ExpiresAt - payload.IssuedAt = 3599) :=
  ⟨⟨_, GenerateToken_DecodesTo 1 (ascii "ada@x.com") (ascii "secret") (ascii "secret") 500000000
      1700000000000000000 1700000000000000000 (by decide) (by decide) (by decide) (by decide) rfl,
    by decide⟩,
   ⟨_, GenerateToken_DecodesTo 1 (ascii "ada@x.com") (ascii "secret") (ascii "secret")
      3600000000000 1699999999999999999 1700000000000000000 (by decide) (by decide) (by decide)
      (by decide) rfl,
    by decide⟩⟩

/-- C15, amended: the claims embedded in the token of `GenerateToken` have
`subject = email`, `userId = userID`, issuer `fullstack-go-api`, audience
`["fullstack-go-api"]`, `expiresAt` the Unix second of the first clock reading
plus `ttl`, and `issuedAt` the Unix second of the second clock reading.  When
`ttl` is a whole number `k` of seconds and the two readings fall in the same
second, `expiresAt - issuedAt = k`; `expiresAt` is strictly greater than
`issuedAt` when `ttl` is at least one second more than the time between the two
readings; and when the second reading follows the first by less than a second,
`expiresAt - issuedAt` is within one of `ttl` in whole seconds. -/
theorem generateToken_claims (userID : Int) (email secret : Bytes) (ttl now1 now2 : Int)
    (hutf8 : validString email = true) (hid : IsInt64 userID)
    (hexp : IsInt64 (unix (now1 + ttl))) (hiat : IsInt64 (unix now2)) :
    ∃ payload, DecodesTo (GenerateToken userID email secret ttl now1 now2) secret payload ∧
      payload.Subject = email ∧ payload.UserID = userID ∧
      payload.Issuer = ascii "fullstack-go-api" ∧
      payload.Audience = some [ascii "fullstack-go-api"] ∧
      payload.ExpiresAt = unix (now1 + ttl) ∧ payload.IssuedAt = unix now2 ∧
      (∀ k : Int, ttl = k * 1000000000 → unix now2 = unix now1 →
        payload.ExpiresAt - payload.IssuedAt = k) ∧
      (now2 - now1 + 1000000000 ≤ ttl → payload.IssuedAt < payload.ExpiresAt) ∧
      (now1 ≤ now2 → now2 < now1 + 1000000000 →
        ttl / 1000000000 - 1 ≤ payload.ExpiresAt - payload.IssuedAt ∧
        payload.ExpiresAt - payload.IssuedAt ≤ ttl / 1000000000 + 1) := by
  refine ⟨newPayload userID email ttl now1 now2,
    GenerateToken_DecodesTo userID email secret secret ttl now1 now2 hutf8 hid hexp hiat rfl,
    rfl, rfl, rfl, rfl, rfl, rfl, ?_, ?_, ?_⟩
  · intro k hk hsame
    show unix (now1 + ttl) - unix now2 = k
    rw [hsame, hk]
    unfold unix
    omega
  · intro hlong
    show unix now2 < unix (now1 + ttl)
    unfold unix
    omega
  · intro h1 h2
    show ttl / 1000000000 - 1 ≤ unix (now1 + ttl) - unix now2 ∧
      unix (now1 + ttl) - unix now2 ≤ ttl / 1000000000 + 1
    unfold unix
    omega

/-- C15, amended, at a concrete input: a token issued with one hour to live, both
clock readings being the same, has claims with `expiresAt - issuedAt = 3600` and
`expiresAt` after `issuedAt`. -/
theorem generateToken_claims_witness :
    ∃ payload,
      DecodesTo
        (GenerateToken 1 (ascii "ada@x.com") (ascii "secret") 3600000000000
          1700000000000000000 1700000000000000000)
        (ascii "secret") payload ∧
      payload.Subject = ascii "ada@x.com" ∧ payload.UserID = 1 ∧
      payload.ExpiresAt - payload.IssuedAt = 3600 ∧ payload.IssuedAt < payload.ExpiresAt := by
  obtain ⟨payload, hdec, hsub, huid, _, _, _, _, hwhole, hstrict, _⟩ :=
    generateToken_claims 1 (ascii "ada@x.com") (ascii "secret") 3600000000000
      1700000000000000000 1700000000000000000 (by decide) (by decide) (by decide) (by decide)
  exact ⟨payload, hdec, hsub, huid, hwhole 3600 (by decide) rfl, hstrict (by decide)⟩

/-! ### The password digest -/

theorem sha256Round_length (v : List Nat) (kw : Nat × Nat) :
    (sha256Round v kw).length = v.length := by
  unfold sha256Round
  split
  · rfl
  · rfl

theorem foldl_sha256Round_length (l : List (Nat × Nat)) (v : List Nat) :
    (l.foldl sha256Round v).length = v.length := by
  induction l generalizing v with
  | nil => rfl
  | cons kw l ih => rw [List.foldl_cons, ih, sha256Round_length]

theorem sha256Block_length (h : List Nat) (block : Bytes) :
    (sha256Block h block).length = h.length := by
  simp [sha256Block, foldl_sha256Round_length]

theorem sha256Blocks_length (n : Nat) (h : List Nat) (data : Bytes) :
    (sha256Blocks n h data).length = h.length := by
  induction n generalizing h data with
  | zero => rfl
  | succ n ih => rw [sha256Blocks, ih, sha256Block_length]

theorem flatMap_bytesOfWord_length (l : List Nat) :
    (l.flatMap bytesOfWord).length = 4 * l.length := by
  induction l with
  | nil => rfl
  | cons w l ih =>
    rw [List.flatMap_cons, List.length_append, ih]
    simp only [bytesOfWord, List.length_cons, List.length_nil]
    omega

/-- A SHA-256 digest has 32 bytes. -/
theorem sha256_length (msg : Bytes) : (sha256 msg).length = 32 := by
  unfold sha256
  rw [flatMap_bytesOfWord_length, sha256Blocks_length]
  rfl

theorem WellFormed_sha256 (msg : Bytes) : WellFormed (sha256 msg) := by
  intro b hb
  unfold sha256 at hb
  simp only [List.mem_flatMap] at hb
  obtain ⟨w, _, hw⟩ := hb
  simp only [bytesOfWord, List.mem_cons, List.mem_singleton, List.not_mem_nil, or_false] at hw
  rcases hw with h | h | h | h <;> rw [h] <;> exact Nat.mod_lt _ (by norm_num)

theorem hextable_injective : ∀ a < 16, ∀ b < 16, hextable a = hextable b → a = b := by
  decide

theorem hexEncode_length (a : Bytes) : (hexEncode a).length = 2 * a.length := by
  induction a with
  | nil => rfl
  | cons x a ih =>
    simp only [hexEncode, List.length_cons, ih]
    omega

/-- On byte strings `hex.EncodeToString` is injective. -/
theorem hexEncode_injective (a b : Bytes) (ha : WellFormed a) (hb : WellFormed b)
    (h : hexEncode a = hexEncode b) : a = b := by
  induction a generalizing b with
  | nil =>
    cases b with
    | nil => rfl
    | cons y b => simp [hexEncode] at h
  | cons x a ih =>
    cases b with
    | nil => simp [hexEncode] at h
    | cons y b =>
      simp only [hexEncode, List.cons.injEq] at h
      obtain ⟨h1, h2, h3⟩ := h
      have hx : x < 256 := ha x (List.mem_cons_self _ _)
      have hy : y < 256 := hb y (List.mem_cons_self _ _)
      have e1 := hextable_injective (x / 16) (by omega) (y / 16) (by omega) h1
      have e2 := hextable_injective (x % 16) (by omega) (y % 16) (by omega) h2
      have hxy : x = y := by omega
      rw [hxy, ih b (fun c hc => ha c (List.mem_cons_of_mem _ hc))
        (fun c hc => hb c (List.mem_cons_of_mem _ hc)) h3]

/-- The model of `HashPassword` gives for `password` the digest that SHA-256
gives. -/
theorem HashPassword_example :
    HashPassword (ascii "password") =
      ascii "5e884898da28047151d0e56f8dc6292773603d0d6aabbdd62a11ef721d1542d8" := by
  set_option maxRecDepth 1000000 in decide

/-- `ComparePassword` compares the SHA-256 digests of the two passwords. -/
theorem ComparePassword_HashPassword (p p2 : Bytes) :
    ComparePassword (HashPassword p) p2 = true ↔ sha256 p2 = sha256 p := by
  unfold ComparePassword HashPassword
  rw [decide_eq_true_iff]
  constructor
  · intro h
    exact (hexEncode_injective _ _ (WellFormed_sha256 p) (WellFormed_sha256 p2) h).symm
  · intro h
    rw [h]

/-- There are more strings of 33 bytes than SHA-256 digests, so two of them have
the same digest. -/
theorem sha256_collision :
    ∃ p p2 : Bytes, p.length = 33 ∧ p2.length = 33 ∧ WellFormed p ∧ WellFormed p2 ∧
      p2 ≠ p ∧ sha256 p2 = sha256 p := by
  let toBytes : (Fin 33 → Fin 256) → Bytes := fun v => List.ofFn fun i => (v i).val
  let g : (Fin 33 → Fin 256) → (Fin 32 → Fin 256) := fun v i =>
    ⟨(sha256 (toBytes v)).getD i.val 0 % 256, Nat.mod_lt _ (by norm_num)⟩
  have hcard : Fintype.card (Fin 32 → Fin 256) < Fintype.card (Fin 33 → Fin 256) := by
    simp only [Fintype.card_fun, Fintype.card_fin]
    norm_num
  obtain ⟨v, w, hne, heq⟩ := Fintype.exists_ne_map_eq_of_card_lt g hcard
  have hwf : ∀ u, WellFormed (toBytes u) := by
    intro u b hb
    simp only [toBytes, List.mem_ofFn, Set.mem_range] at hb
    obtain ⟨i, rfl⟩ := hb
    exact (u i).isLt
  have hinj : toBytes w ≠ toBytes v := by
    intro h
    apply hne
    have h1 := List.ofFn_injective h
    funext i
    exact Fin.ext (congrFun h1 i).symm
  refine ⟨toBytes v, toBytes w, by simp [toBytes], by simp [toBytes], hwf v, hwf w, hinj, ?_⟩
  apply List.ext_getElem
  · rw [sha256_length, sha256_length]
  · intro n h1 h2
    have hn : n < 32 := by rwa [sha256_length] at h1
    have hg := congrArg (fun f => (f ⟨n, hn⟩).val) heq
    simp only [g] at hg
    rw [List.getD_eq_getElem _ _ h1, List.getD_eq_getElem _ _ h2] at hg
    have b1 := WellFormed_sha256 (toBytes w) _ (List.getElem_mem h1)
    have b2 := WellFormed_sha256 (toBytes v) _ (List.getElem_mem h2)
    omega

/-- C12, as stated, fails: there are two different passwords of 33 bytes, `p` and
`p2`, for which `ComparePassword(HashPassword(p), p2)` is true. -/
theorem comparePassword_accepts_another_password :
    ∃ p p2 : Bytes, p.length = 33 ∧ p2.length = 33 ∧ WellFormed p ∧ WellFormed p2 ∧
      p2 ≠ p ∧ ComparePassword (HashPassword p) p2 = true := by
  obtain ⟨p, p2, h1, h2, h3, h4, hne, heq⟩ := sha256_collision
  exact ⟨p, p2, h1, h2, h3, h4, hne, (ComparePassword_HashPassword p p2).2 heq⟩

/-- C12, amended: `ComparePassword(HashPassword(p), p)` is true for every password
`p`, and `ComparePassword(HashPassword(p), p2)` is true exactly when `p2` has the
SHA-256 digest of `p`, so it is false for every `p2` whose digest differs from
that of `p`; `HashPassword(p)` is the digest written as 64 hexadecimal digits. -/
theorem comparePassword_iff_same_digest (p p2 : Bytes) :
    ComparePassword (HashPassword p) p = true ∧
    (ComparePassword (HashPassword p) p2 = true ↔ sha256 p2 = sha256 p) ∧
    (sha256 p2 ≠ sha256 p → ComparePassword (HashPassword p) p2 = false) ∧
    HashPassword p = hexEncode (sha256 p) ∧ (HashPassword p).length = 64 := by
  refine ⟨(ComparePassword_HashPassword p p).2 rfl, ComparePassword_HashPassword p p2, ?_, rfl, ?_⟩
  · intro hne
    cases h : ComparePassword (HashPassword p) p2 with
    | false => rfl
    | true => exact absurd ((ComparePassword_HashPassword p p2).1 h) hne
  · rw [HashPassword, hexEncode_length, sha256_length]

end FullstackGoApi
